import Mathlib

/-! RRT search loop (`ompl::kinematic::RRT::solve`): a shallow embedding of `RRT.cpp`.

* `double` values are exact rationals; `INFINITY` is `none` in an `Option ℚ`.
* `Motion*` pointers are indices into the tree's insertion order (`m_nn.list()`),
  `NULL` is `none`.
* The wall-clock loop `while (now < endTime)` runs one iteration per element of a
  list of `Draw`s: the values the random sources hand out in that iteration.
* External collaborators (validity oracle, goal region, nearest-neighbour lookup)
  are function-valued fields of `Planner` and `Goal`.
-/

namespace RRT

/-- The `values` array of a `base::State`. -/
abbrev State := List ℚ

/-- One entry of `m_stateComponent`: the bounds of a dimension. -/
structure StateComponent where
  minValue : ℚ
  maxValue : ℚ
deriving DecidableEq

/-- Tree node `RRT::Motion`: a configuration and a parent pointer. -/
structure Motion where
  state : State
  parent : Option Nat
deriving DecidableEq

/-- Calls made to the external collaborators, in the order they happen. -/
inductive Event where
  | uniform01 : Event
  | sampleGoal : Event
  | sampleSpace : Event
  | motionCheck : State → State → Event
  | goalTest : State → Event
deriving DecidableEq

/-- What `setDifference` and `setSolutionPath` store in the goal object. -/
structure GoalRecord where
  path : Option (List State)
  approximate : Bool
  difference : Option ℚ
deriving DecidableEq

/-- The goal region `base::Goal`; `canSample` says whether the cast to
`GoalSampleableRegion` gives a non-null `goal_s`. -/
structure Goal where
  isSatisfied : State → Bool × ℚ
  canSample : Bool
  isAchieved : GoalRecord → Bool

/-- Everything `solve` reads from the planner and its space information. -/
structure Planner where
  components : List StateComponent
  rho : ℚ
  goalBias : ℚ
  starts : List State
  satisfiesBounds : State → Bool
  isValid : State → Bool
  checkMotion : State → State → Bool
  nearest : List Motion → State → Nat
  goal : Option Goal

/-- Result of `si->getStateDimension()`. -/
def Planner.dim (P : Planner) : Nat := P.components.length

/-- Values the random sources would return in one loop iteration. -/
structure Draw where
  u01 : ℚ
  goalSample : State
  coreSample : State

/-- Local variables of `solve` that live across loop iterations, with the tree. -/
structure LoopState where
  tree : List Motion
  solution : Option Nat
  approxsol : Option Nat
  approxdif : Option ℚ
  trace : List Event

/-- Observable outcome of one call of `solve`. `chosen` is the value of `solution`
at the test `solution != NULL` that guards path construction. -/
structure SolveResult where
  ret : Bool
  tree : List Motion
  goalRec : GoalRecord
  chosen : Option Nat
  approximate : Bool
  approxdif : Option ℚ
  trace : List Event

/-- Lines 56-70: seed the roots when the tree is empty. -/
def seedRoots (P : Planner) (tree : List Motion) : List Motion :=
  if tree.length = 0 then
    P.starts.foldl
      (fun t s => if P.satisfiesBounds s && P.isValid s then t ++ [⟨s, none⟩] else t) tree
  else tree

/-- Lines 80-82: `range[i] = m_rho * (maxValue - minValue)`. -/
def computeRange (P : Planner) : List ℚ :=
  P.components.map fun c => P.rho * (c.maxValue - c.minValue)

/-- Lines 95-98: the sample of one iteration and the random calls it makes. -/
def drawSample (P : Planner) (g : Goal) (d : Draw) : State × List Event :=
  if g.canSample then
    if d.u01 < P.goalBias then (d.goalSample, [Event.uniform01, Event.sampleGoal])
    else (d.coreSample, [Event.uniform01, Event.sampleSpace])
  else (d.coreSample, [Event.sampleSpace])

/-- Lines 106-107 for one dimension: `r` is the sample's value, `n` the nearest's. -/
def steerComponent (rho range r n : ℚ) : ℚ :=
  let diff := r - n
  if |diff| < range then r else n + diff * rho

/-- Lines 104-108: the candidate `xstate`. -/
def steer (dim : Nat) (rho : ℚ) (range : List ℚ) (r n : State) : State :=
  (List.range dim).map fun i => steerComponent rho (range.getD i 0) (r.getD i 0) (n.getD i 0)

/-- The comparison `dist < approxdif`, with `none` standing for `INFINITY`. -/
def distLt (dist : ℚ) : Option ℚ → Bool
  | none => true
  | some a => decide (dist < a)

/-- Lines 93-131: one pass through the loop body. `none` when the nearest lookup
returns a pointer that is not a node of the tree. -/
def iteration (P : Planner) (g : Goal) (range : List ℚ) (d : Draw) (s : LoopState) :
    Option LoopState :=
  let sample := drawSample P g d
  let rstate := sample.1
  let ni := P.nearest s.tree rstate
  match s.tree[ni]? with
  | none => none
  | some nmotion =>
    let xstate := steer P.dim P.rho range rstate nmotion.state
    let tr := s.trace ++ sample.2 ++ [Event.motionCheck nmotion.state xstate]
    if P.checkMotion nmotion.state xstate then
      let motion : Motion := ⟨xstate, some ni⟩
      let tree1 := s.tree ++ [motion]
      let res := g.isSatisfied motion.state
      let tr1 := tr ++ [Event.goalTest motion.state]
      if res.1 then
        some ⟨tree1, some s.tree.length, s.approxsol, some res.2, tr1⟩
      else if distLt res.2 s.approxdif then
        some ⟨tree1, s.solution, some s.tree.length, some res.2, tr1⟩
      else
        some ⟨tree1, s.solution, s.approxsol, s.approxdif, tr1⟩
    else
      some ⟨s.tree, s.solution, s.approxsol, s.approxdif, tr⟩

/-- Lines 91-132: the loop; it stops when the draws run out (deadline) or at `break`. -/
def searchLoop (P : Planner) (g : Goal) (range : List ℚ) :
    List Draw → LoopState → Option LoopState
  | [], s => some s
  | d :: ds, s =>
    match iteration P g range d s with
    | none => none
    | some s1 => if s1.solution.isSome then some s1 else searchLoop P g range ds s1

/-- Lines 144-149: follow parent pointers, pushing each node onto `mpath`. `none`
when the fuel runs out or a pointer is not a node of the tree. -/
def collectPath (tree : List Motion) : Nat → Option Nat → Option (List Nat)
  | _, none => some []
  | 0, some _ => none
  | fuel + 1, some i =>
    match tree[i]? with
    | none => none
    | some m => (collectPath tree fuel m.parent).map fun rest => i :: rest

/-- Configuration stored in node `i`. -/
def stateAt (tree : List Motion) (i : Nat) : State :=
  match tree[i]? with
  | none => []
  | some m => m.state

/-- Lines 152-158: copy the states of `mpath` from its last entry to its first. -/
def pathStates (tree : List Motion) (mpath : List Nat) : List State :=
  mpath.reverse.map (stateAt tree)

/-- Lines 84-86: the loop's initial state. -/
def initLoop (tree : List Motion) : LoopState :=
  ⟨tree, none, none, none, []⟩

/-- The function `RRT::solve`. -/
def solve (P : Planner) (draws : List Draw) (tree : List Motion) (goalRec : GoalRecord) :
    Option SolveResult :=
  match P.goal with
  | none => some ⟨false, tree, goalRec, none, false, none, []⟩
  | some g =>
    let tree1 := seedRoots P tree
    if tree1.length = 0 then
      some ⟨false, tree1, goalRec, none, false, none, []⟩
    else
      match searchLoop P g (computeRange P) draws (initLoop tree1) with
      | none => none
      | some s =>
        let approximate := s.solution.isNone
        let solution := if s.solution.isNone then s.approxsol else s.solution
        match solution with
        | none => some ⟨g.isAchieved goalRec, s.tree, goalRec, none, approximate, s.approxdif, s.trace⟩
        | some i =>
          match collectPath s.tree s.tree.length (some i) with
          | none => none
          | some mpath =>
            let rec1 : GoalRecord := ⟨some (pathStates s.tree mpath), approximate, s.approxdif⟩
            some ⟨g.isAchieved rec1, s.tree, rec1, some i, approximate, s.approxdif, s.trace⟩

/-- Every parent pointer refers to a node inserted earlier. -/
def WellFormed (tree : List Motion) : Prop :=
  ∀ (i : Nat) (m : Motion), tree[i]? = some m → ∀ p : Nat, m.parent = some p → p < i

/-- The nearest-neighbour lookup answers with a node of the (non-empty) tree. -/
def NearestOK (nearest : List Motion → State → Nat) : Prop :=
  ∀ (t : List Motion) (q : State), t ≠ [] → nearest t q < t.length

/-- Order on distances in which `none` is `INFINITY`: `infLe a b` reads `a ≤ b`. -/
def infLe : Option ℚ → Option ℚ → Prop
  | _, none => True
  | none, some _ => False
  | some a, some b => a ≤ b

/-- Number of parent links from node `i` up to its root. -/
inductive HasDepth (tree : List Motion) : Nat → Nat → Prop where
  | root (i : Nat) (m : Motion) : tree[i]? = some m → m.parent = none → HasDepth tree i 0
  | child (i p d : Nat) (m : Motion) :
      tree[i]? = some m → m.parent = some p → HasDepth tree p d → HasDepth tree i (d + 1)

/-- Node `c` is a child of node `p`. -/
def IsChildOf (tree : List Motion) (p c : Nat) : Prop :=
  ∃ m, tree[c]? = some m ∧ m.parent = some p

/-- Node `i` is a root: it has no parent. -/
def IsRoot (tree : List Motion) (i : Nat) : Prop :=
  ∃ m, tree[i]? = some m ∧ m.parent = none

/-- The solution records of the loop point at nodes of the tree. -/
def RecordsInTree (s : LoopState) : Prop :=
  (∀ i, s.solution = some i → i < s.tree.length) ∧
    (∀ i, s.approxsol = some i → i < s.tree.length)

/-- Every parent pointer refers to an earlier node, and the motion from the parent's
configuration to the child's passed the check `cm`. -/
def MotionsChecked (cm : State → State → Bool) (tree : List Motion) : Prop :=
  ∀ (i : Nat) (m : Motion), tree[i]? = some m → ∀ p : Nat, m.parent = some p →
    p < i ∧ ∃ nm, tree[p]? = some nm ∧ cm nm.state m.state = true

/-- Trees that arise from the empty tree through calls of `solve` by planners that
satisfy `ok`. -/
inductive Reachable (ok : Planner → Prop) : List Motion → Prop where
  | empty : Reachable ok []
  | call (P : Planner) (draws : List Draw) (tree : List Motion) (goalRec : GoalRecord)
      (r : SolveResult) : Reachable ok tree → ok P → solve P draws tree goalRec = some r →
      Reachable ok r.tree

/-- While no exact solution is recorded, `approxdif` is the least goal distance among
the nodes the loop has inserted, and `approxsol` is an inserted node at that distance. -/
def ApproxInv (g : Goal) (t0 : List Motion) (s : LoopState) : Prop :=
  s.solution = none →
    ∃ ext, s.tree = t0 ++ ext ∧
      (∀ m ∈ ext, infLe s.approxdif (some (g.isSatisfied m.state).2)) ∧
      ((s.approxsol = none ∧ s.approxdif = none ∧ ext = []) ∨
        ∃ j m, s.approxsol = some (t0.length + j) ∧ ext[j]? = some m ∧
          s.approxdif = some (g.isSatisfied m.state).2)

/-! ## A one-dimensional planning problem -/

/-- Goal region `|x - 10| < 1/2` with distance `|x - 10|`; it cannot be sampled. -/
def exGoal : Goal :=
  ⟨fun s => (decide (|s.getD 0 0 - 10| < 1 / 2), |s.getD 0 0 - 10|), false,
    fun r => r.path.isSome⟩

/-- Space `[0, 10]`, `rho = 1/2`, start `0`, no obstacles; the nearest lookup answers
with the first node. -/
def exPlanner : Planner :=
  ⟨[⟨0, 10⟩], 1 / 2, 0, [[0]], fun _ => true, fun _ => true, fun _ _ => true,
    fun _ _ => 0, some exGoal⟩

/-- An iteration whose uniform sample is `8`. -/
def exDraw : Draw := ⟨0, [10], [8]⟩

/-- A goal object that holds no path yet. -/
def emptyRecord : GoalRecord := ⟨none, false, none⟩

/-- Outcome of `solve exPlanner [exDraw] [] emptyRecord`. -/
def exResult : SolveResult :=
  ⟨true, [⟨[0], none⟩, ⟨[4], some 0⟩], ⟨some [[0], [4]], true, some 6⟩, some 1, true, some 6,
    [Event.sampleSpace, Event.motionCheck [0] [4], Event.goalTest [4]]⟩

/-- Loop state after the iteration `exDraw` on the tree that holds the root `0`. -/
def exAfter : LoopState :=
  ⟨[⟨[0], none⟩, ⟨[4], some 0⟩], none, some 1, some 6,
    [Event.sampleSpace, Event.motionCheck [0] [4], Event.goalTest [4]]⟩

/-- The space `[0, 1]` with `rho = 1/2`. -/
def narrowPlanner : Planner :=
  ⟨[⟨0, 1⟩], 1 / 2, 0, [[0]], fun _ => true, fun _ => true, fun _ _ => true,
    fun _ _ => 0, some exGoal⟩

/-- A state check that accepts the configuration `0` only. -/
def strictValid : State → Bool := fun s => decide (s = [0])

/-- The planner `exPlanner` with the state check `strictValid`. -/
def strictPlanner : Planner :=
  ⟨[⟨0, 10⟩], 1 / 2, 0, [[0]], fun _ => true, strictValid, fun _ _ => true,
    fun _ _ => 0, some exGoal⟩

/-- Goal region `x ≥ 4` that measures distance from `5/2`. -/
def farGoal : Goal :=
  ⟨fun s => (decide (4 ≤ s.getD 0 0), |s.getD 0 0 - 5 / 2|), false, fun r => r.path.isSome⟩

/-- The planner `exPlanner` with the goal `farGoal`. -/
def farPlanner : Planner :=
  ⟨[⟨0, 10⟩], 1 / 2, 0, [[0]], fun _ => true, fun _ => true, fun _ _ => true,
    fun _ _ => 0, some farGoal⟩

/-- Loop state of `farPlanner` after one iteration with sample `2`. -/
def farAfterOne : LoopState :=
  ⟨[⟨[0], none⟩, ⟨[2], some 0⟩], none, some 1, some (1 / 2),
    [Event.sampleSpace, Event.motionCheck [0] [2], Event.goalTest [2]]⟩

/-- Loop state of `farPlanner` after a second iteration with sample `8`. -/
def farAfterTwo : LoopState :=
  ⟨[⟨[0], none⟩, ⟨[2], some 0⟩, ⟨[4], some 0⟩], some 2, some 1, some (3 / 2),
    [Event.sampleSpace, Event.motionCheck [0] [2], Event.goalTest [2],
      Event.sampleSpace, Event.motionCheck [0] [4], Event.goalTest [4]]⟩

/-- The planner `exPlanner` without a goal. -/
def noGoalPlanner : Planner :=
  ⟨[⟨0, 10⟩], 1 / 2, 0, [[0]], fun _ => true, fun _ => true, fun _ _ => true,
    fun _ _ => 0, none⟩

/-- Bounds test of the space `[0, 10]`. -/
def inBounds : State → Bool := fun s => decide (0 ≤ s.getD 0 0 ∧ s.getD 0 0 ≤ 10)

/-- Starts `0`, `20`, `3`, of which `20` is out of bounds. -/
def seedPlanner : Planner :=
  ⟨[⟨0, 10⟩], 1 / 2, 0, [[0], [20], [3]], inBounds, fun _ => true, fun _ _ => true,
    fun _ _ => 0, some exGoal⟩

/-- Starts `20` and `-1`, both out of bounds. -/
def badStartPlanner : Planner :=
  ⟨[⟨0, 10⟩], 1 / 2, 0, [[20], [-1]], inBounds, fun _ => true, fun _ _ => true,
    fun _ _ => 0, some exGoal⟩

/-- The tree `t` extends `t0` by nodes whose parent is an earlier node of `t`. -/
def GrownFrom (t0 t : List Motion) : Prop :=
  ∃ ext, t = t0 ++ ext ∧
    ∀ (j : Nat) (m : Motion), ext[j]? = some m → ∃ p, m.parent = some p ∧ p < t0.length + j

/-- The goal test of the nodes the loop has inserted: all failed while no exact
solution is recorded; once one is recorded it is the last node, the only one that
passed, and `approxdif` holds its goal distance. -/
def FoundInv (g : Goal) (t0 : List Motion) (s : LoopState) : Prop :=
  ∃ ext, s.tree = t0 ++ ext ∧
    (s.solution = none → ∀ m ∈ ext, (g.isSatisfied m.state).1 = false) ∧
    ∀ k, s.solution = some k →
      ∃ earlier m, ext = earlier ++ [m] ∧ k = t0.length + earlier.length ∧
        (g.isSatisfied m.state).1 = true ∧ s.approxdif = some (g.isSatisfied m.state).2 ∧
        ∀ m2 ∈ earlier, (g.isSatisfied m2.state).1 = false

/-- Recogniser of goal-test events. -/
def Event.isGoalTest : Event → Bool
  | Event.goalTest _ => true
  | _ => false

/-- Recogniser of motion-check events. -/
def Event.isMotionCheck : Event → Bool
  | Event.motionCheck _ _ => true
  | _ => false

/-- The call `states.resize(n)`: keep the first `n` pointers, pad with null pointers. -/
def resizeStates (states : List (Option State)) (n : Nat) : List (Option State) :=
  states.take n ++ List.replicate (n - states.length) none

/-- The function `RRT::getStates`: `m_nn.list` enumerates the tree, the output vector is
resized and entry `i` is set to the state of `motions[i]`. Returns the output vector
and the tree. -/
def getStates (tree : List Motion) (states : List (Option State)) :
    List (Option State) × List Motion :=
  let motions := tree
  let states1 := resizeStates states motions.length
  ((List.range motions.length).foldl (fun st i => st.set i (some (stateAt motions i))) states1,
    tree)

/-- Outcome of `solve farPlanner` with samples `2` and `8` from the empty tree. -/
def farResult : SolveResult :=
  ⟨true, [⟨[0], none⟩, ⟨[2], some 0⟩, ⟨[4], some 0⟩], ⟨some [[0], [4]], false, some (3 / 2)⟩,
    some 2, false, some (3 / 2),
    [Event.sampleSpace, Event.motionCheck [0] [2], Event.goalTest [2],
      Event.sampleSpace, Event.motionCheck [0] [4], Event.goalTest [4]]⟩

/-- The planner `exPlanner` with a motion check that rejects everything. -/
def blockedPlanner : Planner :=
  ⟨[⟨0, 10⟩], 1 / 2, 0, [[0]], fun _ => true, fun _ => true, fun _ _ => false,
    fun _ _ => 0, some exGoal⟩

/-- The goal-test events of the loop are those of the nodes it inserted, in order; with
no inserted node neither solution record is set. -/
def GoalTestsInv (t0 : List Motion) (s : LoopState) : Prop :=
  ∃ ext, s.tree = t0 ++ ext ∧
    s.trace.filter Event.isGoalTest = ext.map (fun m => Event.goalTest m.state) ∧
    (ext = [] → s.solution = none ∧ s.approxsol = none)

/-- The configuration lies within `[minValue[i], maxValue[i]]` in every dimension. -/
def InBounds (comps : List StateComponent) (x : State) : Prop :=
  ∀ (i : Nat) (c : StateComponent), comps[i]? = some c →
    c.minValue ≤ x.getD i 0 ∧ x.getD i 0 ≤ c.maxValue

/-- In every dimension `b` is within `range[i] = rho * (maxValue[i] - minValue[i])` of `a`. -/
def StepWithin (P : Planner) (a b : State) : Prop :=
  ∀ (i : Nat) (c : StateComponent), P.components[i]? = some c →
    |b.getD i 0 - a.getD i 0| ≤ P.rho * (c.maxValue - c.minValue)

/-- Every node is within bounds, and every node the loop inserted is within range of
its parent. -/
def BoundsInv (P : Planner) (t0 : List Motion) (s : LoopState) : Prop :=
  ∃ ext, s.tree = t0 ++ ext ∧ (∀ m ∈ s.tree, InBounds P.components m.state) ∧
    ∀ (j : Nat) (m : Motion), ext[j]? = some m →
      InBounds P.components m.state ∧
      ∃ p pm, m.parent = some p ∧ p < t0.length + j ∧ s.tree[p]? = some pm ∧
        StepWithin P pm.state m.state

/-- A goal region that can be sampled. -/
def biasGoal : Goal :=
  ⟨fun s => (decide (|s.getD 0 0 - 10| < 1 / 2), |s.getD 0 0 - 10|), true,
    fun r => r.path.isSome⟩

/-- The planner `exPlanner` with the goal `biasGoal` and `goalBias = 1/2`. -/
def biasPlanner : Planner :=
  ⟨[⟨0, 10⟩], 1 / 2, 1 / 2, [[0]], fun _ => true, fun _ => true, fun _ _ => true,
    fun _ _ => 0, some biasGoal⟩

/-- An iteration whose `uniform01` value is `1/4`, goal sample `10`, space sample `3`. -/
def biasDraw : Draw := ⟨1 / 4, [10], [3]⟩

/-- A goal that every configuration satisfies. -/
def anyGoal : Goal := ⟨fun _ => (true, 0), false, fun r => r.path.isSome⟩

/-- The planner `exPlanner` with the goal `anyGoal`. -/
def anyPlanner : Planner :=
  ⟨[⟨0, 10⟩], 1 / 2, 0, [[0]], fun _ => true, fun _ => true, fun _ _ => true,
    fun _ _ => 0, some anyGoal⟩

/-- The nearest lookup answers with a node of the tree that is at least distance from
the query in dimension `0`. -/
def NearestMin (nearest : List Motion → State → Nat) : Prop :=
  ∀ (t : List Motion) (q : State), t ≠ [] →
    ∃ nm, t[nearest t q]? = some nm ∧
      ∀ m ∈ t, |nm.state.getD 0 0 - q.getD 0 0| ≤ |m.state.getD 0 0 - q.getD 0 0|

/-- A nearest lookup by linear scan, for spaces of one dimension. -/
def nearestScan : List Motion → State → Nat
  | [], _ => 0
  | m :: rest, q =>
    match rest with
    | [] => 0
    | _ :: _ =>
      if |m.state.getD 0 0 - q.getD 0 0| ≤
          |(stateAt rest (nearestScan rest q)).getD 0 0 - q.getD 0 0| then 0
      else nearestScan rest q + 1

/-- The scenario of the specification: the space `[0, 10]`, the single start `0`, no
obstacles, the goal `|x - 10| < 1/2` with distance `|x - 10|`. -/
def scenario (rho : ℚ) (nearest : List Motion → State → Nat) : Planner :=
  ⟨[⟨0, 10⟩], rho, 0, [[0]], fun _ => true, fun _ => true, fun _ _ => true, nearest,
    some exGoal⟩

end RRT

namespace ParabolicBlend

/-! Trajectory time parameterisation (`parabolic_blend_fast.cpp`).

* `double` values are exact rationals and `ros::Duration(x)` keeps `x`.
* `std::sqrt` is a parameter `sqrt : ℚ → ℚ`.
* Reads of a vector are `getD` with default `0`, writes are `List.set`; on vectors of the
  sizes the callers build these agree with the C++ indexing.
* A call with no trajectory point is `none`: `num_points - 1` wraps around and the loops
  index past the end of the vectors.
-/

/-- The constant `MAX_ITERATIONS`. -/
def MAX_ITERATIONS : Nat := 100

/-- The fields of `arm_navigation_msgs::JointLimits` that the smoother reads. -/
structure JointLimits where
  has_velocity_limits : Bool
  max_velocity : ℚ
  max_acceleration : ℚ
deriving DecidableEq

/-- The message `trajectory_msgs::JointTrajectoryPoint`. -/
structure JointTrajectoryPoint where
  positions : List ℚ
  velocities : List ℚ
  accelerations : List ℚ
  time_from_start : ℚ
deriving DecidableEq

/-- The request `T`: `joint_names` stands for `trajectory.joint_names.size()`. -/
structure Trajectory where
  joint_names : Nat
  points : List JointTrajectoryPoint
  limits : List JointLimits
deriving DecidableEq

/-- The call `v.resize(n)` on a vector of doubles. -/
def resizeVals (xs : List ℚ) (n : Nat) : List ℚ :=
  xs.take n ++ List.replicate (n - xs.length) 0

/-- Value of `points[i].positions[j]`. -/
def positionAt (points : List JointTrajectoryPoint) (i j : Nat) : ℚ :=
  match points[i]? with
  | none => 0
  | some p => p.positions.getD j 0

/-- Value of `points[i].velocities[j]`. -/
def velocityAt (points : List JointTrajectoryPoint) (i j : Nat) : ℚ :=
  match points[i]? with
  | none => 0
  | some p => p.velocities.getD j 0

/-- Entry `trajectory.limits[j]`. -/
def limitsAt (traj : Trajectory) (j : Nat) : JointLimits :=
  traj.limits.getD j ⟨false, 0, 0⟩

/-- Lines 114-119: `v_max` of joint `j`. -/
def vMax (traj : Trajectory) (j : Nat) : ℚ :=
  if (limitsAt traj j).has_velocity_limits then (limitsAt traj j).max_velocity else 1

/-- Lines 309-313: `a_max` of joint `j`; the test reads `has_velocity_limits`. -/
def aMax (traj : Trajectory) (j : Nat) : ℚ :=
  if (limitsAt traj j).has_velocity_limits then (limitsAt traj j).max_acceleration else 1

/-- Lines 126-133: the body of the joint loop of `ApplyVelocityConstraints`. -/
def velocityJoint (traj : Trajectory) (i j : Nat) (time_diff : List ℚ) : List ℚ :=
  let d1 := positionAt traj.points i j
  let d2 := positionAt traj.points (i + 1) j
  let t_min := |d2 - d1| / vMax traj j
  if t_min > time_diff.getD i 0 then time_diff.set i t_min else time_diff

/-- The function `ApplyVelocityConstraints`: the trajectory with resized velocity and
acceleration vectors, and the new `time_diff`. -/
def ApplyVelocityConstraints (traj : Trajectory) (time_diff : List ℚ) :
    Option (Trajectory × List ℚ) :=
  let num_points := traj.points.length
  let num_joints := traj.joint_names
  if num_points = 0 then none
  else
    let traj1 : Trajectory :=
      ⟨traj.joint_names,
        traj.points.map fun p =>
          ⟨p.positions, resizeVals p.velocities num_joints,
            resizeVals p.accelerations num_joints, p.time_from_start⟩,
        traj.limits⟩
    some (traj1,
      (List.range (num_points - 1)).foldl
        (fun td i => (List.range num_joints).foldl (fun td2 j => velocityJoint traj1 i j td2) td)
        time_diff)

/-- Apply `f` to entry `i` of a vector. -/
def updateAt {α : Type} (l : List α) (i : Nat) (f : α → α) : List α :=
  match l[i]? with
  | none => l
  | some a => l.set i (f a)

/-- Assignment to `time_from_start`. -/
def setTime (t : ℚ) (p : JointTrajectoryPoint) : JointTrajectoryPoint :=
  ⟨p.positions, p.velocities, p.accelerations, t⟩

/-- Assignment to `velocities[j]`. -/
def setVelocity (j : Nat) (v : ℚ) (p : JointTrajectoryPoint) : JointTrajectoryPoint :=
  ⟨p.positions, p.velocities.set j v, p.accelerations, p.time_from_start⟩

/-- Assignment to `accelerations[j]`. -/
def setAcceleration (j : Nat) (a : ℚ) (p : JointTrajectoryPoint) : JointTrajectoryPoint :=
  ⟨p.positions, p.velocities, p.accelerations.set j a, p.time_from_start⟩

/-- Lines 202-207: the time stamps; the state of the loop is `time_sum` and the points. -/
def updateTimes (points : List JointTrajectoryPoint) (time_diffs : List ℚ) :
    ℚ × List JointTrajectoryPoint :=
  (List.range (points.length - 1)).foldl
    (fun st k =>
      let i := k + 1
      let time_sum := st.1 + time_diffs.getD (i - 1) 0
      (time_sum, updateAt st.2 i (setTime time_sum)))
    (0, updateAt points 0 (setTime (time_diffs.getD 0 0)))

/-- Lines 210-226: the velocities. -/
def updateVelocities (num_joints : Nat) (points : List JointTrajectoryPoint)
    (time_diffs : List ℚ) : List JointTrajectoryPoint :=
  let num_points := points.length
  let pts1 := (List.range num_joints).foldl
    (fun pts j => updateAt pts (num_points - 1) (setVelocity j 0)) points
  (List.range (num_points - 1)).foldl
    (fun pts i => (List.range num_joints).foldl
      (fun pts2 j =>
        let d1 := positionAt pts2 i j
        let d2 := positionAt pts2 (i + 1) j
        let t1 := time_diffs.getD i 0
        updateAt pts2 i (setVelocity j ((d2 - d1) / t1)))
      pts)
    pts1

/-- Lines 233-261: the acceleration written to `points[i].accelerations[j]`. -/
def pointAcceleration (points : List JointTrajectoryPoint) (time_diffs : List ℚ)
    (num_points i j : Nat) : ℚ :=
  if i = 0 then
    (velocityAt points i j - 0) / (time_diffs.getD i 0 + time_diffs.getD i 0)
  else if i < num_points - 1 then
    (velocityAt points i j - velocityAt points (i - 1) j) /
      (time_diffs.getD (i - 1) 0 + time_diffs.getD i 0)
  else
    (0 - velocityAt points (i - 1) j) / (time_diffs.getD (i - 1) 0 + time_diffs.getD (i - 1) 0)

/-- Lines 229-263: the accelerations. -/
def updateAccelerations (num_joints : Nat) (points : List JointTrajectoryPoint)
    (time_diffs : List ℚ) : List JointTrajectoryPoint :=
  let num_points := points.length
  (List.range num_points).foldl
    (fun pts i => (List.range num_joints).foldl
      (fun pts2 j => updateAt pts2 i (setAcceleration j (pointAcceleration pts2 time_diffs num_points i j)))
      pts)
    points

/-- The function `UpdateTrajectory`. -/
def UpdateTrajectory (traj : Trajectory) (time_diffs : List ℚ) : Option Trajectory :=
  if time_diffs.length < 1 then some traj
  else if traj.points.length = 0 then none
  else
    let pts1 := (updateTimes traj.points time_diffs).2
    let pts2 := updateVelocities traj.joint_names pts1 time_diffs
    let pts3 := updateAccelerations traj.joint_names pts2 time_diffs
    some ⟨traj.joint_names, pts3, traj.limits⟩

/-- The function `expandInterval`; `105/100` is the factor `1.05`. -/
def expandInterval (sqrt : ℚ → ℚ) (d1 d2 t a_max : ℚ) : ℚ :=
  let t_new := sqrt |(d2 - d1) / (2 * a_max)|
  max (t * (105 / 100)) t_new

/-- Lines 342-344: the acceleration from three positions and two intervals. -/
def accelOf (d1 d2 d3 t1 t2 : ℚ) : ℚ :=
  let v1 := (d2 - d1) / t1
  let v2 := (d3 - d2) / t2
  (v2 - v1) / (t1 + t2)

/-- Lines 315-340: the values `d1, d2, d3, t1, t2` at point `index`, and whether the
assertion of the branch holds. -/
def pointData (traj : Trajectory) (time_diff : List ℚ) (backwards : Bool) (index j : Nat) :
    (ℚ × ℚ × ℚ × ℚ × ℚ) × Bool :=
  let num_points := traj.points.length
  if index ≤ 0 then
    ((positionAt traj.points index j, positionAt traj.points index j,
      positionAt traj.points (index + 1) j, time_diff.getD 0 0, time_diff.getD 0 0),
      !backwards)
  else if index < num_points - 1 then
    ((positionAt traj.points (index - 1) j, positionAt traj.points index j,
      positionAt traj.points (index + 1) j, time_diff.getD (index - 1) 0,
      time_diff.getD index 0), true)
  else
    ((positionAt traj.points (index - 1) j, positionAt traj.points index j,
      positionAt traj.points index j, time_diff.getD (index - 1) 0,
      time_diff.getD (index - 1) 0), backwards)

/-- Lines 346-367: the loop `while (std::abs(a) > a_max)`; the state is `t1`, `t2`,
`time_diff` and `num_updates`. `none` when the fuel runs out. -/
def expandLoop (sqrt : ℚ → ℚ) (backwards : Bool) (index : Nat) (d1 d2 d3 a_max : ℚ) :
    Nat → ℚ → ℚ → List ℚ → Nat → Option (List ℚ × Nat)
  | fuel, t1, t2, time_diff, num_updates =>
    if |accelOf d1 d2 d3 t1 t2| > a_max then
      match fuel with
      | 0 => none
      | f + 1 =>
        if !backwards then
          let t2n := expandInterval sqrt (d2 - d1) (d3 - d2) t2 a_max
          expandLoop sqrt backwards index d1 d2 d3 a_max f t1 t2n (time_diff.set index t2n)
            (num_updates + 1)
        else
          let t1n := expandInterval sqrt (d2 - d1) (d3 - d2) t1 a_max
          expandLoop sqrt backwards index d1 d2 d3 a_max f t1n t2 (time_diff.set (index - 1) t1n)
            (num_updates + 1)
    else some (time_diff, num_updates)

/-- Lines 307-368: the body of the joint loop at point `index`. `none` when an assertion
fails or the fuel of the inner loop runs out. -/
def accelJoint (sqrt : ℚ → ℚ) (fuel : Nat) (traj : Trajectory) (backwards : Bool)
    (index j : Nat) (st : List ℚ × Nat) : Option (List ℚ × Nat) :=
  let data := pointData traj st.1 backwards index j
  if data.2 then
    expandLoop sqrt backwards index data.1.1 data.1.2.1 data.1.2.2.1 (aMax traj j) fuel
      data.1.2.2.2.1 data.1.2.2.2.2 st.1 st.2
  else none

/-- Fold of a step that may fail over a list of indices. -/
def foldOpt {σ : Type} (step : Nat → σ → Option σ) : List Nat → σ → Option σ
  | [], st => some st
  | i :: rest, st =>
    match step i st with
    | none => none
    | some st1 => foldOpt step rest st1

/-- Lines 289-369: one pass over the points, forwards or backwards. -/
def accelPass (sqrt : ℚ → ℚ) (fuel : Nat) (traj : Trajectory) (backwards : Bool)
    (st : List ℚ × Nat) : Option (List ℚ × Nat) :=
  let num_points := traj.points.length
  foldOpt
    (fun i st1 =>
      let index := if backwards then (num_points - 1) - i else i
      foldOpt (fun j st2 => accelJoint sqrt fuel traj backwards index j st2)
        (List.range traj.joint_names) st1)
    (List.range (num_points - 1)) st

/-- Lines 282-371: one execution of the body of the `do` loop, two passes. The result
carries `time_diff`, `num_updates` and `backwards`. -/
def accelSweep (sqrt : ℚ → ℚ) (fuel : Nat) (traj : Trajectory) (backwards : Bool)
    (time_diff : List ℚ) : Option ((List ℚ × Nat) × Bool) :=
  match accelPass sqrt fuel traj backwards (time_diff, 0) with
  | none => none
  | some st1 =>
    match accelPass sqrt fuel traj (!backwards) st1 with
    | none => none
    | some st2 => some (st2, !(!backwards))

/-- Lines 280-373: the `do` loop; `k` bounds the number of executions of its body. -/
def accelDo (sqrt : ℚ → ℚ) (fuel : Nat) (traj : Trajectory) :
    Nat → Nat → Bool → List ℚ → Option (List ℚ × Nat × Nat)
  | 0, _, _, _ => none
  | k + 1, iteration, backwards, time_diff =>
    match accelSweep sqrt fuel traj backwards time_diff with
    | none => none
    | some (st, backwards1) =>
      if st.2 > 0 ∧ iteration + 1 < MAX_ITERATIONS then
        accelDo sqrt fuel traj k (iteration + 1) backwards1 st.1
      else some (st.1, st.2, iteration + 1)

/-- The function `ApplyAccelerationConstraints`: the new `time_diff`, and the values of
`num_updates` and `iteration` when the `do` loop ends. `fuel` bounds each run of the
inner `while` loop. -/
def ApplyAccelerationConstraints (sqrt : ℚ → ℚ) (fuel : Nat) (traj : Trajectory)
    (time_diff : List ℚ) : Option (List ℚ × Nat × Nat) :=
  if traj.points.length = 0 then none
  else accelDo sqrt fuel traj MAX_ITERATIONS 0 false time_diff

/-- Line 128: the least time `t_min` of joint `j` over interval `i`. -/
def tMin (traj : Trajectory) (i j : Nat) : ℚ :=
  |positionAt traj.points (i + 1) j - positionAt traj.points i j| / vMax traj j

/-- The time stamps of the points, in order. -/
def timesOf (points : List JointTrajectoryPoint) : List ℚ :=
  points.map fun p => p.time_from_start

/-- The sum `time_diffs[0] + ... + time_diffs[i-1]`. -/
def prefixSum (time_diffs : List ℚ) (i : Nat) : ℚ :=
  ((List.range i).map fun k => time_diffs.getD k 0).sum

/-- Three points of one joint at positions `0`, `1`, `3`; velocity limit `1`,
acceleration limit `1`. -/
def exTraj : Trajectory :=
  ⟨1, [⟨[0], [], [], 0⟩, ⟨[1], [], [], 0⟩, ⟨[3], [], [], 0⟩], [⟨true, 1, 1⟩]⟩

/-- The acceleration the claim speaks of at point `index` of joint `j`: from the
positions `d1, d2, d3` around the point and the intervals `t1, t2`, with `d1 = d2`,
`t2 = t1 = time_diff[0]` at the first point and `d3 = d2`, `t2 = t1` at the last. -/
def finiteDiffAccel (traj : Trajectory) (time_diff : List ℚ) (index j : Nat) : ℚ :=
  if index = 0 then
    accelOf (positionAt traj.points 0 j) (positionAt traj.points 0 j)
      (positionAt traj.points 1 j) (time_diff.getD 0 0) (time_diff.getD 0 0)
  else if index < traj.points.length - 1 then
    accelOf (positionAt traj.points (index - 1) j) (positionAt traj.points index j)
      (positionAt traj.points (index + 1) j) (time_diff.getD (index - 1) 0)
      (time_diff.getD index 0)
  else
    accelOf (positionAt traj.points (index - 1) j) (positionAt traj.points index j)
      (positionAt traj.points index j) (time_diff.getD (index - 1) 0)
      (time_diff.getD (index - 1) 0)

/-- The relation between the state `(time_diff, num_updates)` before and after a step:
the count does not drop, the vector keeps its length and no entry gets smaller. -/
def Grows (st st1 : List ℚ × Nat) : Prop :=
  st.2 ≤ st1.2 ∧ st1.1.length = st.1.length ∧ ∀ k, st.1.getD k 0 ≤ st1.1.getD k 0

end ParabolicBlend

namespace OmplRos

/-! Bounds of the planning space (`ompl_ros` `SpaceInformation.cpp`).

* `double` values are exact rationals; joint names are numbers.
* The kinematic model is given by the two lookups the code makes on a joint name and by
  its vector of state bounds; the results of the `dynamic_cast`s on a joint are a
  `JointKind`.
* Reads of a vector are `getD`, a write to an index past the end changes nothing.
-/

/-- The enumeration `StateComponent::type`. -/
inductive ComponentType where
  | unknown : ComponentType
  | linear : ComponentType
  | wrappingAngle : ComponentType
  | quaternion : ComponentType
deriving DecidableEq

/-- One entry of `m_stateComponent`. -/
structure StateComponent where
  type : ComponentType
  minValue : ℚ
  maxValue : ℚ
  resolution : ℚ
deriving DecidableEq

/-- The fields of `motion_planning_msgs::JointConstraint` that the code reads. -/
structure JointConstraint where
  joint_name : Nat
  position : ℚ
  tolerance_above : ℚ
  tolerance_below : ℚ
deriving DecidableEq

/-- What the casts of a joint pointer tell: a revolute joint with its `continuous`
flag, a floating joint, a planar joint, or none of these. -/
inductive JointKind where
  | revolute : Bool → JointKind
  | floating : JointKind
  | planar : JointKind
  | other : JointKind
deriving DecidableEq

/-- The lookups on the kinematic model: `getGroup(groupName_)->getJointPosition(name)`,
`getJoint(name)->usedParams` and `getStateBounds()`. -/
structure KinematicModel where
  getJointPosition : Nat → Int
  usedParams : Nat → Nat
  stateBounds : List ℚ

/-- The fields of `model->group` that `configureOMPLSpace` reads. -/
structure Group where
  dimension : Nat
  stateIndex : List Nat
  joints : List JointKind
  jointIndex : List Nat

/-- The data members of `ROSSpaceInformationKinematic`; `hasConstraints` stands for the
constraints held by the state validity predicate. -/
structure SpaceInformation where
  m_stateDimension : Nat
  m_stateComponent : List StateComponent
  basicStateComponent_ : List StateComponent
  floatingJoints_ : List Nat
  planarJoints_ : List Nat
  divisions_ : ℚ
  kmodel_ : KinematicModel
  hasConstraints : Bool

/-- Apply `f` to entry `i` of a vector. -/
def updateAt {α : Type} (l : List α) (i : Nat) (f : α → α) : List α :=
  match l[i]? with
  | none => l
  | some a => l.set i (f a)

/-- A default-constructed `StateComponent`. -/
def defaultComponent : StateComponent := ⟨ComponentType.unknown, 0, 0, 0⟩

/-- Entry `i` of the component vector. -/
def componentAt (comps : List StateComponent) (i : Nat) : StateComponent :=
  comps.getD i defaultComponent

/-- Assignment to `type`. -/
def setType (t : ComponentType) (c : StateComponent) : StateComponent :=
  ⟨t, c.minValue, c.maxValue, c.resolution⟩

/-- Assignment to `minValue`. -/
def setMin (v : ℚ) (c : StateComponent) : StateComponent :=
  ⟨c.type, v, c.maxValue, c.resolution⟩

/-- Assignment to `maxValue`. -/
def setMax (v : ℚ) (c : StateComponent) : StateComponent :=
  ⟨c.type, c.minValue, v, c.resolution⟩

/-- Assignment to `resolution`. -/
def setResolution (v : ℚ) (c : StateComponent) : StateComponent :=
  ⟨c.type, c.minValue, c.maxValue, v⟩

/-- The statement `if (c.resolution > 0.1) c.resolution = 0.1`. -/
def capResolution (c : StateComponent) : StateComponent :=
  if c.resolution > 1 / 10 then setResolution (1 / 10) c else c

/-- The function `checkResolution` on the component vector. -/
def checkResolution (planar floating : List Nat) (comps : List StateComponent) :
    List StateComponent :=
  let comps1 := planar.foldl
    (fun cs p => updateAt (updateAt cs p capResolution) (p + 1) capResolution) comps
  floating.foldl
    (fun cs f =>
      updateAt (updateAt (updateAt cs f capResolution) (f + 1) capResolution) (f + 2)
        capResolution)
    comps1

/-- The function `checkBounds`: no component has `minValue > maxValue`. -/
def checkBounds (comps : List StateComponent) : Bool :=
  comps.all fun c => !decide (c.minValue > c.maxValue)

/-- Set bounds and resolution of one dimension, as `setPlanningVolume` and
`setPlanningArea` do. -/
def setRange (divisions lo hi : ℚ) (c : StateComponent) : StateComponent :=
  ⟨c.type, lo, hi, (hi - lo) / divisions⟩

/-- The function `setPlanningVolume`. -/
def setPlanningVolume (si : SpaceInformation) (x0 y0 z0 x1 y1 z1 : ℚ) : SpaceInformation :=
  let comps := si.floatingJoints_.foldl
    (fun cs id =>
      updateAt (updateAt (updateAt cs id (setRange si.divisions_ x0 x1)) (id + 1)
        (setRange si.divisions_ y0 y1)) (id + 2) (setRange si.divisions_ z0 z1))
    si.m_stateComponent
  ⟨si.m_stateDimension, checkResolution si.planarJoints_ si.floatingJoints_ comps,
    si.basicStateComponent_, si.floatingJoints_, si.planarJoints_, si.divisions_, si.kmodel_,
    si.hasConstraints⟩

/-- The function `setPlanningArea`. -/
def setPlanningArea (si : SpaceInformation) (x0 y0 x1 y1 : ℚ) : SpaceInformation :=
  let comps := si.planarJoints_.foldl
    (fun cs id =>
      updateAt (updateAt cs id (setRange si.divisions_ x0 x1)) (id + 1)
        (setRange si.divisions_ y0 y1))
    si.m_stateComponent
  ⟨si.m_stateDimension, checkResolution si.planarJoints_ si.floatingJoints_ comps,
    si.basicStateComponent_, si.floatingJoints_, si.planarJoints_, si.divisions_, si.kmodel_,
    si.hasConstraints⟩

/-- The function `clearPathConstraints`. -/
def clearPathConstraints (si : SpaceInformation) : SpaceInformation :=
  ⟨si.m_stateDimension, si.basicStateComponent_, si.basicStateComponent_, si.floatingJoints_,
    si.planarJoints_, si.divisions_, si.kmodel_, false⟩

/-- Lines 178-181: tighten the bounds of a component by a joint constraint. -/
def tighten (jc : JointConstraint) (c : StateComponent) : StateComponent :=
  let c1 := if c.minValue < jc.position - jc.tolerance_below then
    setMin (jc.position - jc.tolerance_below) c else c
  if c1.maxValue > jc.position + jc.tolerance_above then
    setMax (jc.position + jc.tolerance_above) c1 else c1

/-- Lines 168-183: the body of the loop over the joint constraints. -/
def applyJointConstraint (km : KinematicModel) (comps : List StateComponent)
    (jc : JointConstraint) : List StateComponent :=
  let idx := km.getJointPosition jc.joint_name
  if idx ≥ 0 then
    if !(km.usedParams jc.joint_name == 1) then comps
    else updateAt comps idx.toNat (tighten jc)
  else comps

/-- The function `setPathConstraints` with the joint constraints of the message. -/
def setPathConstraints (si : SpaceInformation) (jc : List JointConstraint) :
    SpaceInformation :=
  ⟨si.m_stateDimension, jc.foldl (applyJointConstraint si.kmodel_) si.m_stateComponent,
    si.basicStateComponent_, si.floatingJoints_, si.planarJoints_, si.divisions_, si.kmodel_,
    true⟩

/-- The call `m_stateComponent.resize(n)`. -/
def resizeComponents (comps : List StateComponent) (n : Nat) : List StateComponent :=
  comps.take n ++ List.replicate (n - comps.length) defaultComponent

/-- Lines 51-57: bounds and resolution of dimension `i` from the model. -/
def configureBounds (km : KinematicModel) (g : Group) (divisions : ℚ)
    (comps : List StateComponent) (i : Nat) : List StateComponent :=
  let p := g.stateIndex.getD i 0 * 2
  updateAt comps i fun c =>
    ⟨c.type, km.stateBounds.getD p 0, km.stateBounds.getD (p + 1) 0,
      (km.stateBounds.getD (p + 1) 0 - km.stateBounds.getD p 0) / divisions⟩

/-- Lines 59-90: the loop over the joints, which ends at the first floating or planar
joint. The state is the component vector, `floatingJoints_` and `planarJoints_`. -/
def configureJoints (g : Group) :
    List (Nat × JointKind) → List StateComponent × List Nat × List Nat →
      List StateComponent × List Nat × List Nat
  | [], st => st
  | (i, jk) :: rest, st =>
    let k := g.jointIndex.getD i 0
    let comps1 :=
      if (componentAt st.1 i).type = ComponentType.unknown then
        updateAt st.1 k (setType
          (if jk = JointKind.revolute true then ComponentType.wrappingAngle
            else ComponentType.linear))
      else st.1
    match jk with
    | JointKind.floating =>
      (updateAt (updateAt (updateAt (updateAt comps1 (k + 3) (setType ComponentType.quaternion))
          (k + 4) (setType ComponentType.quaternion)) (k + 5) (setType ComponentType.quaternion))
          (k + 6) (setType ComponentType.quaternion),
        st.2.1 ++ [k], st.2.2)
    | JointKind.planar =>
      (updateAt comps1 (k + 2) (setType ComponentType.wrappingAngle), st.2.1, st.2.2 ++ [k])
    | _ => configureJoints g rest (comps1, st.2.1, st.2.2)

/-- The function `configureOMPLSpace`. -/
def configureOMPLSpace (si : SpaceInformation) (km : KinematicModel) (g : Group) :
    SpaceInformation :=
  let divisions : ℚ := 100
  let comps0 := resizeComponents si.m_stateComponent g.dimension
  let comps1 := (List.range g.dimension).foldl (configureBounds km g divisions) comps0
  let st := configureJoints g ((List.range g.joints.length).zip g.joints)
    (comps1, si.floatingJoints_, si.planarJoints_)
  ⟨g.dimension, checkResolution st.2.2 st.2.1 st.1, st.1, st.2.1, st.2.2, divisions, km,
    si.hasConstraints⟩

/-- The joint constraint `jc` is applied to component `k`: its joint is known, starts at
index `k` and has one parameter. -/
def addresses (km : KinematicModel) (k : Nat) (jc : JointConstraint) : Bool :=
  decide (km.getJointPosition jc.joint_name ≥ 0) &&
    (decide ((km.getJointPosition jc.joint_name).toNat = k) &&
      (km.usedParams jc.joint_name == 1))

/-- A model with the single joint `0`, of one parameter, at index `0`. -/
def oneJointModel : KinematicModel :=
  ⟨fun n => if n = 0 then 0 else -1, fun _ => 1, [0, 10]⟩

/-- A space with one linear component `[0, 10]`. -/
def oneJointSpace : SpaceInformation :=
  ⟨1, [⟨ComponentType.linear, 0, 10, 1 / 10⟩], [⟨ComponentType.linear, 0, 10, 1 / 10⟩], [], [],
    100, oneJointModel, false⟩

/-- A model of a planar joint: `x` and `y` in `[-1, 1]`, angle in `[-3, 3]`. -/
def planarModel : KinematicModel :=
  ⟨fun n => if n = 0 then 0 else -1, fun _ => 3, [-1, 1, -1, 1, -3, 3]⟩

/-- The group of the planar joint. -/
def planarGroup : Group := ⟨3, [0, 1, 2], [JointKind.planar], [0]⟩

/-- A newly constructed space information object. -/
def emptySpace : SpaceInformation := ⟨0, [], [], [], [], 0, planarModel, false⟩

/-- A model of a planar joint with `x` and `y` in `[-20, 20]`. -/
def wideModel : KinematicModel :=
  ⟨fun n => if n = 0 then 0 else -1, fun _ => 3, [-20, 20, -20, 20, -3, 3]⟩

end OmplRos

namespace RRT

/-! ## Steering -/

theorem steerComponent_lt {rho range r n : ℚ} (h : |r - n| < range) :
    steerComponent rho range r n = r := by
  simp [steerComponent, h]

theorem steerComponent_ge {rho range r n : ℚ} (h : range ≤ |r - n|) :
    steerComponent rho range r n = n + (r - n) * rho := by
  simp [steerComponent, not_lt.mpr h]

theorem steer_length (dim : Nat) (rho : ℚ) (range : List ℚ) (r n : State) :
    (steer dim rho range r n).length = dim := by
  simp [steer]

theorem steer_getD (dim : Nat) (rho : ℚ) (range : List ℚ) (r n : State) (i : Nat)
    (hi : i < dim) :
    (steer dim rho range r n).getD i 0 =
      steerComponent rho (range.getD i 0) (r.getD i 0) (n.getD i 0) := by
  simp [steer, List.getD_eq_getElem?_getD, List.getElem?_map, List.getElem?_range hi]

theorem computeRange_getD (P : Planner) (i : Nat) (c : StateComponent)
    (hc : P.components[i]? = some c) :
    (computeRange P).getD i 0 = P.rho * (c.maxValue - c.minValue) := by
  simp [computeRange, List.getD_eq_getElem?_getD, List.getElem?_map, hc]

/-! ## The loop body -/

/-- The candidate of an iteration: what the steering loop leaves in `xstate`. -/
theorem iteration_spec {P : Planner} {g : Goal} {range : List ℚ} {d : Draw}
    {s s1 : LoopState} (h : iteration P g range d s = some s1) :
    ∃ nm, s.tree[P.nearest s.tree (drawSample P g d).1]? = some nm ∧
      ((P.checkMotion nm.state (steer P.dim P.rho range (drawSample P g d).1 nm.state) = false ∧
          s1 = ⟨s.tree, s.solution, s.approxsol, s.approxdif,
            s.trace ++ (drawSample P g d).2 ++
              [Event.motionCheck nm.state (steer P.dim P.rho range (drawSample P g d).1 nm.state)]⟩) ∨
       (P.checkMotion nm.state (steer P.dim P.rho range (drawSample P g d).1 nm.state) = true ∧
          s1.tree = s.tree ++
            [⟨steer P.dim P.rho range (drawSample P g d).1 nm.state,
              some (P.nearest s.tree (drawSample P g d).1)⟩] ∧
          s1.trace = s.trace ++ (drawSample P g d).2 ++
              [Event.motionCheck nm.state (steer P.dim P.rho range (drawSample P g d).1 nm.state)] ++
              [Event.goalTest (steer P.dim P.rho range (drawSample P g d).1 nm.state)] ∧
          (((g.isSatisfied (steer P.dim P.rho range (drawSample P g d).1 nm.state)).1 = true ∧
              s1.solution = some s.tree.length ∧ s1.approxsol = s.approxsol ∧
              s1.approxdif =
                some (g.isSatisfied (steer P.dim P.rho range (drawSample P g d).1 nm.state)).2) ∨
           ((g.isSatisfied (steer P.dim P.rho range (drawSample P g d).1 nm.state)).1 = false ∧
              distLt (g.isSatisfied (steer P.dim P.rho range (drawSample P g d).1 nm.state)).2
                s.approxdif = true ∧
              s1.solution = s.solution ∧ s1.approxsol = some s.tree.length ∧
              s1.approxdif =
                some (g.isSatisfied (steer P.dim P.rho range (drawSample P g d).1 nm.state)).2) ∨
           ((g.isSatisfied (steer P.dim P.rho range (drawSample P g d).1 nm.state)).1 = false ∧
              distLt (g.isSatisfied (steer P.dim P.rho range (drawSample P g d).1 nm.state)).2
                s.approxdif = false ∧
              s1.solution = s.solution ∧ s1.approxsol = s.approxsol ∧
              s1.approxdif = s.approxdif)))) := by
  unfold iteration at h
  simp only at h
  split at h
  · exact absurd h (by simp)
  · rename_i nm hnm
    refine ⟨nm, hnm, ?_⟩
    split at h
    · rename_i hcm
      right
      refine ⟨hcm, ?_⟩
      split at h
      · rename_i hs
        cases h
        exact ⟨rfl, rfl, Or.inl ⟨hs, rfl, rfl, rfl⟩⟩
      · rename_i hs
        split at h
        · rename_i hl
          cases h
          exact ⟨rfl, rfl, Or.inr (Or.inl ⟨by simpa using hs, hl, rfl, rfl, rfl⟩)⟩
        · rename_i hl
          cases h
          exact ⟨rfl, rfl, Or.inr (Or.inr ⟨by simpa using hs, by simpa using hl, rfl, rfl, rfl⟩)⟩
    · rename_i hcm
      left
      cases h
      exact ⟨by simpa using hcm, rfl⟩

theorem iteration_total {P : Planner} (g : Goal) (range : List ℚ) (d : Draw) (s : LoopState)
    (hn : NearestOK P.nearest) (hne : s.tree ≠ []) :
    ∃ s1, iteration P g range d s = some s1 := by
  have hlt := hn s.tree (drawSample P g d).1 hne
  unfold iteration
  simp only [List.getElem?_eq_getElem hlt]
  split
  · split
    · exact ⟨_, rfl⟩
    · split
      · exact ⟨_, rfl⟩
      · exact ⟨_, rfl⟩
  · exact ⟨_, rfl⟩

theorem seed_foldl (P : Planner) (starts : List State) (acc : List Motion) :
    starts.foldl
        (fun t s => if P.satisfiesBounds s && P.isValid s then t ++ [⟨s, none⟩] else t) acc =
      acc ++ (starts.filter fun s => P.satisfiesBounds s && P.isValid s).map
        fun s => (⟨s, none⟩ : Motion) := by
  induction starts generalizing acc with
  | nil => simp
  | cons a l ih =>
    simp only [List.foldl_cons, ih, List.filter_cons]
    by_cases h : (P.satisfiesBounds a && P.isValid a) = true
    · simp [h]
    · simp [h]

theorem seedRoots_nil (P : Planner) :
    seedRoots P [] = (P.starts.filter fun s => P.satisfiesBounds s && P.isValid s).map
        fun s => (⟨s, none⟩ : Motion) := by
  unfold seedRoots
  rw [if_pos (by rfl), seed_foldl]
  rfl

theorem seedRoots_of_ne_nil (P : Planner) {tree : List Motion} (h : tree ≠ []) :
    seedRoots P tree = tree := by
  have : tree.length ≠ 0 := by simpa using h
  simp [seedRoots, this]

theorem steerComponent_within {rho span r n : ℚ} (h0 : 0 < rho)
    (hd : |r - n| ≤ span) : |steerComponent rho (rho * span) r n - n| ≤ rho * span := by
  unfold steerComponent
  simp only
  split
  · rename_i h
    exact le_of_lt h
  · have : n + (r - n) * rho - n = (r - n) * rho := by ring
    rw [this, abs_mul, abs_of_pos h0, mul_comm]
    exact mul_le_mul_of_nonneg_left hd (le_of_lt h0)

/-- C1 (as amended): in every iteration the candidate handed to `checkMotion` (and
stored in the new node when the check passes) has, in each dimension `i`, the sample's
value when `|sample[i] - nearest[i]|` is below `range[i]`, and otherwise
`nearest[i] + (sample[i] - nearest[i]) * rho`. -/
theorem steering_rule {P : Planner} {g : Goal} {range : List ℚ} {d : Draw}
    {s s1 : LoopState} (h : iteration P g range d s = some s1) :
    ∃ nm x, s.tree[P.nearest s.tree (drawSample P g d).1]? = some nm ∧
      Event.motionCheck nm.state x ∈ s1.trace ∧
      (P.checkMotion nm.state x = true →
        s1.tree = s.tree ++ [⟨x, some (P.nearest s.tree (drawSample P g d).1)⟩]) ∧
      x.length = P.dim ∧
      ∀ i, i < P.dim →
        (|(drawSample P g d).1.getD i 0 - nm.state.getD i 0| < range.getD i 0 →
          x.getD i 0 = (drawSample P g d).1.getD i 0) ∧
        (range.getD i 0 ≤ |(drawSample P g d).1.getD i 0 - nm.state.getD i 0| →
          x.getD i 0 = nm.state.getD i 0 +
            ((drawSample P g d).1.getD i 0 - nm.state.getD i 0) * P.rho) := by
  obtain ⟨nm, hnm, hcase⟩ := iteration_spec h
  refine ⟨nm, steer P.dim P.rho range (drawSample P g d).1 nm.state, hnm, ?_, ?_,
    steer_length _ _ _ _ _, ?_⟩
  · rcases hcase with ⟨_, rfl⟩ | ⟨_, _, htr, _⟩
    · simp
    · rw [htr]; simp
  · intro hc
    rcases hcase with ⟨hf, _⟩ | ⟨_, ht, _, _⟩
    · rw [hf] at hc; exact absurd hc (by simp)
    · exact ht
  · intro i hi
    rw [steer_getD _ _ _ _ _ _ hi]
    exact ⟨fun hlt => steerComponent_lt hlt, fun hge => steerComponent_ge hge⟩

/-- C2 (as amended): with `rho` in `(0,1]`, whenever sample and nearest differ in
dimension `i` by at most the bound span `maxValue[i] - minValue[i]`, the steered
candidate stays within `range[i]` of the nearest node in that dimension. -/
theorem steering_within_range (P : Planner) (r n : State) (i : Nat) (c : StateComponent)
    (h0 : 0 < P.rho) (_h1 : P.rho ≤ 1) (hc : P.components[i]? = some c)
    (hd : |r.getD i 0 - n.getD i 0| ≤ c.maxValue - c.minValue) :
    |(steer P.dim P.rho (computeRange P) r n).getD i 0 - n.getD i 0| ≤
      (computeRange P).getD i 0 := by
  have hi : i < P.dim := by
    unfold Planner.dim
    by_contra hcon
    rw [List.getElem?_eq_none (not_lt.mp hcon)] at hc
    exact absurd hc (by simp)
  rw [steer_getD _ _ _ _ _ _ hi, computeRange_getD P i c hc]
  exact steerComponent_within h0 hd

/-- C8: with no goal, `solve` returns false at once: the tree and the goal record are
those of the call, no root is seeded and no collaborator is called. -/
theorem solve_no_goal (P : Planner) (draws : List Draw) (tree : List Motion)
    (goalRec : GoalRecord) (hg : P.goal = none) :
    ∃ r, solve P draws tree goalRec = some r ∧ r.ret = false ∧ r.tree = tree ∧
      r.goalRec = goalRec ∧ r.chosen = none ∧ r.trace = [] := by
  refine ⟨⟨false, tree, goalRec, none, false, none, []⟩, ?_, rfl, rfl, rfl, rfl, rfl⟩
  unfold solve
  rw [hg]

/-- C9: with a goal, an empty tree and no start that passes both `satisfiesBounds` and
`isValid`, `solve` returns false, leaves the tree empty, runs no iteration and sets no
solution path. -/
theorem solve_no_valid_start (P : Planner) (g : Goal) (draws : List Draw)
    (goalRec : GoalRecord) (hg : P.goal = some g)
    (hs : ∀ s ∈ P.starts, P.satisfiesBounds s = false ∨ P.isValid s = false) :
    ∃ r, solve P draws [] goalRec = some r ∧ r.ret = false ∧ r.tree = [] ∧
      r.trace = [] ∧ r.chosen = none ∧ r.goalRec = goalRec := by
  have hseed : seedRoots P [] = [] := by
    rw [seedRoots_nil]
    simp only [List.map_eq_nil_iff, List.filter_eq_nil_iff]
    intro s hsmem
    rcases hs s hsmem with h | h <;> simp [h]
  refine ⟨⟨false, [], goalRec, none, false, none, []⟩, ?_, rfl, rfl, rfl, rfl, rfl⟩
  unfold solve
  rw [hg]
  simp [hseed]

/-! ## The loop -/

theorem iteration_tree {P : Planner} {g : Goal} {range : List ℚ} {d : Draw}
    {s s1 : LoopState} (h : iteration P g range d s = some s1) :
    s1.tree = s.tree ∨
      ∃ ni nm x, s.tree[ni]? = some nm ∧ P.checkMotion nm.state x = true ∧
        s1.tree = s.tree ++ [⟨x, some ni⟩] := by
  obtain ⟨nm, hnm, hcase⟩ := iteration_spec h
  rcases hcase with ⟨_, rfl⟩ | ⟨hc, ht, _⟩
  · exact Or.inl rfl
  · exact Or.inr ⟨_, nm, _, hnm, hc, ht⟩

theorem searchLoop_inv {P : Planner} {g : Goal} {range : List ℚ} (Inv : LoopState → Prop)
    (hstep : ∀ d s s1, s.solution = none → Inv s → iteration P g range d s = some s1 → Inv s1) :
    ∀ (draws : List Draw) (s s2 : LoopState), s.solution = none → Inv s →
      searchLoop P g range draws s = some s2 → Inv s2 := by
  intro draws
  induction draws with
  | nil =>
    intro s s2 _ hI h
    simp only [searchLoop, Option.some.injEq] at h
    exact h ▸ hI
  | cons d ds ih =>
    intro s s2 hsol hI h
    unfold searchLoop at h
    split at h
    · exact absurd h (by simp)
    · rename_i s1 hit
      have hI1 := hstep d s s1 hsol hI hit
      split at h
      · simp only [Option.some.injEq] at h
        exact h ▸ hI1
      · rename_i hns
        have hnone : s1.solution = none := by
          cases hs : s1.solution with
          | none => rfl
          | some v => simp [hs] at hns
        exact ih s1 s2 hnone hI1 h

theorem searchLoop_tree_inv {P : Planner} {g : Goal} {range : List ℚ} (Q : List Motion → Prop)
    (hQ : ∀ (t : List Motion) (ni : Nat) (nm : Motion) (x : State), Q t → t[ni]? = some nm →
      P.checkMotion nm.state x = true → Q (t ++ [⟨x, some ni⟩]))
    (draws : List Draw) (s s2 : LoopState) (hsol : s.solution = none) (h0 : Q s.tree)
    (h : searchLoop P g range draws s = some s2) : Q s2.tree := by
  refine searchLoop_inv (fun st => Q st.tree) ?_ draws s s2 hsol h0 h
  intro d st st1 _ hq hit
  rcases iteration_tree hit with ht | ⟨ni, nm, x, hnm, hc, ht⟩
  · rw [ht]; exact hq
  · rw [ht]; exact hQ _ _ _ _ hq hnm hc

theorem searchLoop_total {P : Planner} (g : Goal) (range : List ℚ)
    (hn : NearestOK P.nearest) :
    ∀ (draws : List Draw) (s : LoopState), s.tree ≠ [] →
      ∃ s2, searchLoop P g range draws s = some s2 := by
  intro draws
  induction draws with
  | nil => intro s _; exact ⟨s, rfl⟩
  | cons d ds ih =>
    intro s hne
    obtain ⟨s1, hit⟩ := iteration_total g range d s hn hne
    have hne1 : s1.tree ≠ [] := by
      rcases iteration_tree hit with ht | ⟨ni, nm, x, _, _, ht⟩
      · rw [ht]; exact hne
      · rw [ht]; simp
    unfold searchLoop
    rw [hit]
    simp only
    split
    · exact ⟨s1, rfl⟩
    · exact ih s1 hne1

theorem iteration_records {P : Planner} {g : Goal} {range : List ℚ} {d : Draw}
    {s s1 : LoopState} (hr : RecordsInTree s) (h : iteration P g range d s = some s1) :
    RecordsInTree s1 := by
  obtain ⟨nm, hnm, hcase⟩ := iteration_spec h
  rcases hcase with ⟨_, rfl⟩ | ⟨_, ht, _, hrec⟩
  · exact hr
  · have hlen : s1.tree.length = s.tree.length + 1 := by rw [ht]; simp
    rcases hrec with ⟨_, h1, h2, _⟩ | ⟨_, _, h1, h2, _⟩ | ⟨_, _, h1, h2, _⟩
    · refine ⟨fun i hi => ?_, fun i hi => ?_⟩
      · rw [h1] at hi; cases hi; omega
      · rw [h2] at hi; have := hr.2 i hi; omega
    · refine ⟨fun i hi => ?_, fun i hi => ?_⟩
      · rw [h1] at hi; have := hr.1 i hi; omega
      · rw [h2] at hi; cases hi; omega
    · refine ⟨fun i hi => ?_, fun i hi => ?_⟩
      · rw [h1] at hi; have := hr.1 i hi; omega
      · rw [h2] at hi; have := hr.2 i hi; omega

/-! ## Path reconstruction -/

theorem collectPath_total {tree : List Motion} (hwf : WellFormed tree) :
    ∀ (fuel i : Nat), i < tree.length → i < fuel →
      ∃ mpath, collectPath tree fuel (some i) = some mpath := by
  intro fuel
  induction fuel with
  | zero => intro i _ h; omega
  | succ f ih =>
    intro i hi hf
    unfold collectPath
    rw [List.getElem?_eq_getElem hi]
    simp only
    cases hp : (tree[i]).parent with
    | none => exact ⟨[i], by simp [collectPath]⟩
    | some p =>
      have hpi : p < i := hwf i tree[i] (List.getElem?_eq_getElem hi) p hp
      obtain ⟨mp, hmp⟩ := ih p (by omega) (by omega)
      exact ⟨i :: mp, by simp [hmp]⟩

theorem collectPath_spec {tree : List Motion} :
    ∀ (fuel i : Nat) (mpath : List Nat), collectPath tree fuel (some i) = some mpath →
      mpath.head? = some i ∧
      List.Chain' (fun c p => IsChildOf tree p c) mpath ∧
      (∃ root, mpath.getLast? = some root ∧ IsRoot tree root) ∧
      (∃ dep, HasDepth tree i dep ∧ mpath.length = dep + 1) ∧
      (∀ j ∈ mpath, ∃ m, tree[j]? = some m) := by
  intro fuel
  induction fuel with
  | zero => intro i mpath h; simp [collectPath] at h
  | succ f ih =>
    intro i mpath h
    unfold collectPath at h
    split at h
    · exact absurd h (by simp)
    · rename_i m hm
      cases hp : m.parent with
      | none =>
        rw [hp] at h
        simp only [collectPath, Option.map_some', Option.some.injEq] at h
        subst h
        refine ⟨rfl, List.chain'_singleton i, ⟨i, rfl, m, hm, hp⟩,
          ⟨0, HasDepth.root i m hm hp, rfl⟩, ?_⟩
        intro j hj
        simp only [List.mem_singleton] at hj
        subst hj
        exact ⟨m, hm⟩
      | some p =>
        rw [hp] at h
        cases hrest : collectPath tree f (some p) with
        | none => rw [hrest] at h; simp at h
        | some rest =>
          rw [hrest] at h
          simp only [Option.map_some', Option.some.injEq] at h
          subst h
          obtain ⟨hhead, hchain, ⟨root, hlast, hroot⟩, ⟨dep, hdep, hlen⟩, hidx⟩ :=
            ih p rest hrest
          refine ⟨rfl, ?_, ⟨root, ?_, hroot⟩,
            ⟨dep + 1, HasDepth.child i p dep m hm hp hdep, ?_⟩, ?_⟩
          · cases rest with
            | nil => simp at hhead
            | cons a l =>
              simp only [List.head?_cons, Option.some.injEq] at hhead
              subst hhead
              exact List.Chain'.cons ⟨m, hm, hp⟩ hchain
          · cases rest with
            | nil => simp at hhead
            | cons a l => rw [List.getLast?_cons_cons]; exact hlast
          · simp [hlen]
          · intro j hj
            rcases List.mem_cons.mp hj with rfl | hj
            · exact ⟨m, hm⟩
            · exact hidx j hj

theorem HasDepth.unique {tree : List Motion} {i d1 d2 : Nat} (h1 : HasDepth tree i d1)
    (h2 : HasDepth tree i d2) : d1 = d2 := by
  induction h1 generalizing d2 with
  | root i m hm hp =>
    cases h2 with
    | root _ m2 hm2 hp2 => rfl
    | child _ p d m2 hm2 hp2 hd =>
      rw [hm] at hm2; cases hm2; rw [hp] at hp2; cases hp2
  | child i p d m hm hp _ ih =>
    cases h2 with
    | root _ m2 hm2 hp2 =>
      rw [hm] at hm2; cases hm2; rw [hp] at hp2; cases hp2
    | child _ p2 d2 m2 hm2 hp2 hd2 =>
      rw [hm] at hm2; cases hm2; rw [hp] at hp2; cases hp2
      rw [ih hd2]

/-! ## Tree invariants -/

theorem getElem_append_single {t : List Motion} {a : Motion} {i : Nat} {m : Motion}
    (h : (t ++ [a])[i]? = some m) : (i < t.length ∧ t[i]? = some m) ∨ (i = t.length ∧ m = a) := by
  by_cases hi : i < t.length
  · rw [List.getElem?_append_left hi] at h
    exact Or.inl ⟨hi, h⟩
  · rw [List.getElem?_append_right (not_lt.mp hi)] at h
    right
    have hlt : i - t.length < 1 := by
      by_contra hcon
      rw [List.getElem?_eq_none (by simp only [List.length_singleton]; omega)] at h
      exact absurd h (by simp)
    have h0 : i - t.length = 0 := by omega
    rw [h0] at h
    simp only [List.getElem?_cons_zero, Option.some.injEq] at h
    exact ⟨by omega, h.symm⟩

theorem getElem_lt_length {t : List Motion} {i : Nat} {m : Motion} (h : t[i]? = some m) :
    i < t.length := by
  by_contra hcon
  rw [List.getElem?_eq_none (not_lt.mp hcon)] at h
  exact absurd h (by simp)

theorem wellFormed_append {t : List Motion} {ni : Nat} {nm : Motion} (x : State)
    (hwf : WellFormed t) (hnm : t[ni]? = some nm) : WellFormed (t ++ [⟨x, some ni⟩]) := by
  intro i m hm p hp
  rcases getElem_append_single hm with ⟨_, h⟩ | ⟨hi, rfl⟩
  · exact hwf i m h p hp
  · simp only [Option.some.injEq] at hp
    subst hp
    rw [hi]
    exact getElem_lt_length hnm

theorem motionsChecked_append {cm : State → State → Bool} {t : List Motion} {ni : Nat}
    {nm : Motion} {x : State} (hq : MotionsChecked cm t) (hnm : t[ni]? = some nm)
    (hc : cm nm.state x = true) : MotionsChecked cm (t ++ [⟨x, some ni⟩]) := by
  intro i m hm p hp
  rcases getElem_append_single hm with ⟨hi, h⟩ | ⟨hi, rfl⟩
  · obtain ⟨hpi, nm2, hnm2, hc2⟩ := hq i m h p hp
    exact ⟨hpi, nm2, by rw [List.getElem?_append_left (by omega)]; exact hnm2, hc2⟩
  · simp only [Option.some.injEq] at hp
    subst hp
    have hlt := getElem_lt_length hnm
    exact ⟨by omega, nm, by rw [List.getElem?_append_left hlt]; exact hnm, hc⟩

theorem MotionsChecked.wellFormed {cm : State → State → Bool} {t : List Motion}
    (h : MotionsChecked cm t) : WellFormed t :=
  fun i m hm p hp => (h i m hm p hp).1

theorem roots_getElem (P : Planner) {i : Nat} {m : Motion}
    (h : ((P.starts.filter fun s => P.satisfiesBounds s && P.isValid s).map
        fun s => (⟨s, none⟩ : Motion))[i]? = some m) :
    m.parent = none ∧ P.satisfiesBounds m.state = true ∧ P.isValid m.state = true := by
  have hmem := List.getElem?_mem h
  simp only [List.mem_map, List.mem_filter, Bool.and_eq_true] at hmem
  obtain ⟨s, ⟨_, hb, hv⟩, rfl⟩ := hmem
  exact ⟨rfl, hb, hv⟩

theorem seedRoots_wellFormed (P : Planner) {tree : List Motion} (h : WellFormed tree) :
    WellFormed (seedRoots P tree) := by
  by_cases hne : tree = []
  · subst hne
    rw [seedRoots_nil]
    intro i m hm p hp
    rw [(roots_getElem P hm).1] at hp
    exact absurd hp (by simp)
  · rw [seedRoots_of_ne_nil P hne]; exact h

theorem seedRoots_motionsChecked (P : Planner) {cm : State → State → Bool}
    {tree : List Motion} (h : MotionsChecked cm tree) :
    MotionsChecked cm (seedRoots P tree) := by
  by_cases hne : tree = []
  · subst hne
    rw [seedRoots_nil]
    intro i m hm p hp
    rw [(roots_getElem P hm).1] at hp
    exact absurd hp (by simp)
  · rw [seedRoots_of_ne_nil P hne]; exact h

/-! ## The whole call -/

theorem solve_spec {P : Planner} {draws : List Draw} {tree : List Motion}
    {goalRec : GoalRecord} {r : SolveResult} (h : solve P draws tree goalRec = some r) :
    (P.goal = none ∧ r = ⟨false, tree, goalRec, none, false, none, []⟩) ∨
    ∃ g, P.goal = some g ∧
      ((seedRoots P tree = [] ∧ r = ⟨false, [], goalRec, none, false, none, []⟩) ∨
       (seedRoots P tree ≠ [] ∧
        ∃ s, searchLoop P g (computeRange P) draws (initLoop (seedRoots P tree)) = some s ∧
          ((s.solution = none ∧ s.approxsol = none ∧
              r = ⟨g.isAchieved goalRec, s.tree, goalRec, none, true, s.approxdif, s.trace⟩) ∨
           (∃ i mpath, (if s.solution.isNone then s.approxsol else s.solution) = some i ∧
              collectPath s.tree s.tree.length (some i) = some mpath ∧
              r = ⟨g.isAchieved ⟨some (pathStates s.tree mpath), s.solution.isNone, s.approxdif⟩,
                s.tree, ⟨some (pathStates s.tree mpath), s.solution.isNone, s.approxdif⟩,
                some i, s.solution.isNone, s.approxdif, s.trace⟩)))) := by
  unfold solve at h
  split at h
  · rename_i hg
    left
    simp only [Option.some.injEq] at h
    exact ⟨hg, h.symm⟩
  · rename_i g hg
    right
    refine ⟨g, hg, ?_⟩
    simp only at h
    split at h
    · rename_i hlen
      left
      have hnil : seedRoots P tree = [] := List.length_eq_zero.mp hlen
      simp only [Option.some.injEq] at h
      rw [hnil] at h
      exact ⟨hnil, h.symm⟩
    · rename_i hlen
      right
      refine ⟨fun hnil => hlen (by rw [hnil]; rfl), ?_⟩
      split at h
      · exact absurd h (by simp)
      · rename_i s hs
        refine ⟨s, hs, ?_⟩
        split at h
        · rename_i hsol
          left
          simp only [Option.some.injEq] at h
          cases hso : s.solution with
          | none =>
            rw [hso] at hsol h
            simp only [Option.isNone_none, if_true] at hsol h
            exact ⟨rfl, hsol, h.symm⟩
          | some v =>
            rw [hso] at hsol
            simp at hsol
        · rename_i i hsol
          right
          split at h
          · exact absurd h (by simp)
          · rename_i mpath hmp
            simp only [Option.some.injEq] at h
            exact ⟨i, mpath, hsol, hmp, h.symm⟩

theorem solve_total (P : Planner) (draws : List Draw) (tree : List Motion)
    (goalRec : GoalRecord) (hwf : WellFormed tree) (hn : NearestOK P.nearest) :
    ∃ r, solve P draws tree goalRec = some r := by
  unfold solve
  split
  · exact ⟨_, rfl⟩
  · rename_i g hg
    simp only
    split
    · exact ⟨_, rfl⟩
    · rename_i hlen
      have hne : (initLoop (seedRoots P tree)).tree ≠ [] := fun hnil => hlen (by
        have : seedRoots P tree = [] := hnil
        rw [this]; rfl)
      obtain ⟨s, hs⟩ := searchLoop_total g (computeRange P) hn draws _ hne
      rw [hs]
      simp only
      have hwf2 : WellFormed s.tree :=
        searchLoop_tree_inv WellFormed
          (fun t ni nm x hq hnm _ => wellFormed_append x hq hnm) draws _ s rfl
          (seedRoots_wellFormed P hwf) hs
      have hrec : RecordsInTree s :=
        searchLoop_inv RecordsInTree (fun d st st1 _ hr hit => iteration_records hr hit)
          draws _ s rfl ⟨fun i hi => absurd hi (by simp [initLoop]),
            fun i hi => absurd hi (by simp [initLoop])⟩ hs
      split
      · exact ⟨_, rfl⟩
      · rename_i i hi
        have hlt : i < s.tree.length := by
          cases hso : s.solution with
          | none =>
            rw [hso] at hi
            simp only [Option.isNone_none, if_true] at hi
            exact hrec.2 i hi
          | some v =>
            rw [hso] at hi
            simp only [Option.isNone_some, Bool.false_eq_true, if_false] at hi
            cases hi
            exact hrec.1 _ hso
        obtain ⟨mp, hmp⟩ := collectPath_total hwf2 s.tree.length i hlt hlt
        rw [hmp]
        exact ⟨_, rfl⟩

theorem wellFormed_nil : WellFormed [] := by
  intro i m hm
  simp at hm

theorem nearestOK_first : NearestOK (fun _ _ => 0) := by
  intro t _ hne
  exact List.length_pos.mpr hne

theorem stateAt_eq {tree : List Motion} {i : Nat} {m : Motion} (h : tree[i]? = some m) :
    stateAt tree i = m.state := by
  simp [stateAt, h]

theorem searchLoop_grows {P : Planner} {g : Goal} {range : List ℚ} (draws : List Draw)
    (s s2 : LoopState) (hsol : s.solution = none)
    (h : searchLoop P g range draws s = some s2) : ∃ ext, s2.tree = s.tree ++ ext := by
  refine searchLoop_tree_inv (fun t => ∃ ext, t = s.tree ++ ext) ?_ draws s s2 hsol ⟨[], by simp⟩ h
  intro t ni nm x ⟨ext, hext⟩ _ _
  exact ⟨ext ++ [⟨x, some ni⟩], by rw [hext, List.append_assoc]⟩

theorem solve_motionsChecked {P : Planner} {draws : List Draw} {tree : List Motion}
    {goalRec : GoalRecord} {r : SolveResult} (hq : MotionsChecked P.checkMotion tree)
    (h : solve P draws tree goalRec = some r) : MotionsChecked P.checkMotion r.tree := by
  rcases solve_spec h with ⟨_, rfl⟩ | ⟨g, _, ⟨_, rfl⟩ | ⟨_, s, hs, hres⟩⟩
  · exact hq
  · intro i m hm
    simp at hm
  · have hs2 : MotionsChecked P.checkMotion s.tree :=
      searchLoop_tree_inv (MotionsChecked P.checkMotion)
        (fun t ni nm x hq hnm hc => motionsChecked_append hq hnm hc) draws _ s rfl
        (seedRoots_motionsChecked P hq) hs
    rcases hres with ⟨_, _, rfl⟩ | ⟨i, mpath, _, _, rfl⟩
    · exact hs2
    · exact hs2

theorem reachable_motionsChecked {cm : State → State → Bool} {tree : List Motion}
    (h : Reachable (fun Q => Q.checkMotion = cm) tree) : MotionsChecked cm tree := by
  induction h with
  | empty =>
    intro i m hm
    simp at hm
  | call P draws tree goalRec r _ hok hsolve ih =>
    have hok2 : P.checkMotion = cm := hok
    rw [← hok2] at ih ⊢
    exact solve_motionsChecked ih hsolve

/-- Shape of a call that hands a path to the goal: the loop's final state, the chosen
node and the node list `mpath` read from last to first. -/
theorem solve_chosen {P : Planner} {draws : List Draw} {tree : List Motion}
    {goalRec : GoalRecord} {r : SolveResult} {i : Nat}
    (h : solve P draws tree goalRec = some r) (hi : r.chosen = some i) :
    ∃ g s mpath, P.goal = some g ∧ seedRoots P tree ≠ [] ∧
      searchLoop P g (computeRange P) draws (initLoop (seedRoots P tree)) = some s ∧
      (if s.solution.isNone then s.approxsol else s.solution) = some i ∧
      collectPath s.tree s.tree.length (some i) = some mpath ∧
      r.tree = s.tree ∧ r.approximate = s.solution.isNone ∧ r.approxdif = s.approxdif ∧
      r.trace = s.trace ∧
      r.goalRec = ⟨some (mpath.reverse.map (stateAt s.tree)), s.solution.isNone, s.approxdif⟩ := by
  rcases solve_spec h with ⟨_, rfl⟩ | ⟨g, hg, ⟨_, rfl⟩ | ⟨hne, s, hs, hres⟩⟩
  · exact absurd hi (by simp)
  · exact absurd hi (by simp)
  · rcases hres with ⟨_, _, rfl⟩ | ⟨k, mpath, hk, hmp, rfl⟩
    · exact absurd hi (by simp)
    · simp only [Option.some.injEq] at hi
      subst hi
      exact ⟨g, s, mpath, hg, hne, hs, hk, hmp, rfl, rfl, rfl, rfl, rfl⟩

/-- C3: on a tree whose parent pointers refer to earlier nodes, `solve` returns, and
whenever it hands a path to the goal for the chosen node `i`, the path lists the
configurations of a node sequence that starts at a root, ends at `i`, steps from
parent to child, and has as many entries as the depth of `i` plus one. -/
theorem path_structure (P : Planner) (draws : List Draw) (tree : List Motion)
    (goalRec : GoalRecord) (hwf : WellFormed tree) (hn : NearestOK P.nearest) :
    ∃ r, solve P draws tree goalRec = some r ∧
      ∀ i, r.chosen = some i →
        ∃ nodes : List Nat, r.goalRec.path = some (nodes.map (stateAt r.tree)) ∧
          (∃ root, nodes.head? = some root ∧ IsRoot r.tree root) ∧
          nodes.getLast? = some i ∧
          List.Chain' (IsChildOf r.tree) nodes ∧
          ∃ dep, HasDepth r.tree i dep ∧ nodes.length = dep + 1 ∧
            ∀ d, HasDepth r.tree i d → d = dep := by
  obtain ⟨r, hr⟩ := solve_total P draws tree goalRec hwf hn
  refine ⟨r, hr, ?_⟩
  intro i hi
  obtain ⟨g, s, mpath, _, _, _, _, hmp, ht, _, _, _, hrec⟩ := solve_chosen hr hi
  obtain ⟨hhead, hchain, ⟨root, hlast, hroot⟩, ⟨dep, hdep, hlen⟩, _⟩ :=
    collectPath_spec _ _ _ hmp
  refine ⟨mpath.reverse, ?_, ⟨root, ?_, ?_⟩, ?_, ?_, ⟨dep, ?_, ?_, ?_⟩⟩
  · rw [hrec, ht]
  · rw [List.head?_reverse]; exact hlast
  · rw [ht]; exact hroot
  · rw [List.getLast?_reverse]; exact hhead
  · rw [List.chain'_reverse, ht]
    exact hchain
  · rw [ht]; exact hdep
  · rw [List.length_reverse]; exact hlen
  · intro d hd
    rw [ht] at hd
    exact HasDepth.unique hd hdep

/-- C4: starting from the empty tree, through any calls of `solve` that use the
motion check `cm`, a further such call returns, and every consecutive pair of
configurations of a path it hands to the goal passes `cm`. -/
theorem path_motions_checked (cm : State → State → Bool) (P : Planner) (draws : List Draw)
    (tree : List Motion) (goalRec : GoalRecord)
    (hreach : Reachable (fun Q => Q.checkMotion = cm) tree) (hP : P.checkMotion = cm)
    (hn : NearestOK P.nearest) :
    ∃ r, solve P draws tree goalRec = some r ∧
      ∀ i, r.chosen = some i →
        ∃ path, r.goalRec.path = some path ∧ List.Chain' (fun a b => cm a b = true) path := by
  have hq : MotionsChecked cm tree := reachable_motionsChecked hreach
  obtain ⟨r, hr⟩ := solve_total P draws tree goalRec hq.wellFormed hn
  refine ⟨r, hr, ?_⟩
  intro i hi
  have hq2 : MotionsChecked cm r.tree := by
    rw [← hP] at hq ⊢
    exact solve_motionsChecked hq hr
  obtain ⟨g, s, mpath, _, _, _, _, hmp, ht, _, _, _, hrec⟩ := solve_chosen hr hi
  obtain ⟨_, hchain, _, _, _⟩ := collectPath_spec _ _ _ hmp
  refine ⟨mpath.reverse.map (stateAt s.tree), by rw [hrec], ?_⟩
  rw [List.chain'_map, List.chain'_reverse]
  refine List.Chain'.imp ?_ hchain
  intro c p ⟨m, hm, hp⟩
  rw [← ht]
  rw [← ht] at hm
  obtain ⟨_, nm, hnm, hc⟩ := hq2 c m hm p hp
  show cm (stateAt r.tree p) (stateAt r.tree c) = true
  rw [stateAt_eq hnm, stateAt_eq hm]
  exact hc

/-! ## Node validity -/

theorem solve_allValid {P : Planner} {draws : List Draw} {tree : List Motion}
    {goalRec : GoalRecord} {r : SolveResult}
    (hcm : ∀ a b, P.checkMotion a b = true → P.isValid b = true)
    (hq : ∀ m ∈ tree, P.isValid m.state = true)
    (h : solve P draws tree goalRec = some r) : ∀ m ∈ r.tree, P.isValid m.state = true := by
  have hseed : ∀ m ∈ seedRoots P tree, P.isValid m.state = true := by
    by_cases hne : tree = []
    · subst hne
      rw [seedRoots_nil]
      intro m hm
      obtain ⟨i, hi⟩ := List.mem_iff_getElem?.mp hm
      exact (roots_getElem P hi).2.2
    · rw [seedRoots_of_ne_nil P hne]; exact hq
  rcases solve_spec h with ⟨_, rfl⟩ | ⟨g, _, ⟨_, rfl⟩ | ⟨_, s, hs, hres⟩⟩
  · exact hq
  · intro m hm
    simp at hm
  · have hs2 : ∀ m ∈ s.tree, P.isValid m.state = true := by
      refine searchLoop_tree_inv (fun t => ∀ m ∈ t, P.isValid m.state = true) ?_ draws _ s rfl
        hseed hs
      intro t ni nm x ht _ hc m hm
      rcases List.mem_append.mp hm with hm | hm
      · exact ht m hm
      · simp only [List.mem_singleton] at hm
        subst hm
        exact hcm _ _ hc
    rcases hres with ⟨_, _, rfl⟩ | ⟨i, mpath, _, _, rfl⟩
    · exact hs2
    · exact hs2

theorem reachable_allValid {iv : State → Bool} {cm : State → State → Bool}
    (hcm : ∀ a b, cm a b = true → iv b = true) {tree : List Motion}
    (h : Reachable (fun Q => Q.isValid = iv ∧ Q.checkMotion = cm) tree) :
    ∀ m ∈ tree, iv m.state = true := by
  induction h with
  | empty =>
    intro m hm
    simp at hm
  | call P draws tree goalRec r _ hok hsolve ih =>
    obtain ⟨h1, h2⟩ : P.isValid = iv ∧ P.checkMotion = cm := hok
    rw [← h1] at ih ⊢
    rw [← h2, ← h1] at hcm
    exact solve_allValid hcm ih hsolve

/-- C5 (as amended): when the motion check `cm` only accepts motions whose end
configuration passes the state check `iv`, every node of every tree built from the
empty tree by calls of `solve` with these two oracles passes `iv`, and so does every
configuration of a path handed to the goal by a further such call. -/
theorem nodes_valid (iv : State → Bool) (cm : State → State → Bool) (tree : List Motion)
    (hcm : ∀ a b, cm a b = true → iv b = true)
    (hreach : Reachable (fun Q => Q.isValid = iv ∧ Q.checkMotion = cm) tree) :
    (∀ m ∈ tree, iv m.state = true) ∧
      ∀ (P : Planner) (draws : List Draw) (goalRec : GoalRecord) (r : SolveResult) (i : Nat),
        P.isValid = iv → P.checkMotion = cm → solve P draws tree goalRec = some r →
        r.chosen = some i →
        ∃ path, r.goalRec.path = some path ∧ ∀ a ∈ path, iv a = true := by
  refine ⟨reachable_allValid hcm hreach, ?_⟩
  intro P draws goalRec r i h1 h2 hr hi
  have hall : ∀ m ∈ r.tree, iv m.state = true :=
    reachable_allValid hcm (Reachable.call P draws tree goalRec r hreach ⟨h1, h2⟩ hr)
  obtain ⟨g, s, mpath, _, _, _, _, hmp, ht, _, _, _, hrec⟩ := solve_chosen hr hi
  obtain ⟨_, _, _, _, hidx⟩ := collectPath_spec _ _ _ hmp
  refine ⟨mpath.reverse.map (stateAt s.tree), by rw [hrec], ?_⟩
  intro a ha
  simp only [List.mem_map, List.mem_reverse] at ha
  obtain ⟨j, hj, rfl⟩ := ha
  obtain ⟨m, hm⟩ := hidx j hj
  rw [stateAt_eq hm]
  exact hall m (by rw [ht]; exact List.getElem?_mem hm)

/-! ## Best-approximate record -/

theorem infLe_refl (a : Option ℚ) : infLe a a := by
  cases a with
  | none => trivial
  | some v => exact le_refl v

theorem distLt_infLe {dist : ℚ} {a : Option ℚ} (h : distLt dist a = true) :
    infLe (some dist) a := by
  cases a with
  | none => trivial
  | some v =>
    simp only [distLt, decide_eq_true_eq] at h
    exact le_of_lt h

theorem infLe_trans {a b c : Option ℚ} (h1 : infLe a b) (h2 : infLe b c) : infLe a c := by
  cases c with
  | none => cases a <;> trivial
  | some w =>
    cases b with
    | none => cases h2
    | some v =>
      cases a with
      | none => cases h1
      | some u => exact le_trans h1 h2

theorem not_distLt {dist : ℚ} {a : Option ℚ} (h : distLt dist a = false) :
    infLe a (some dist) := by
  cases a with
  | none => simp [distLt] at h
  | some v =>
    simp only [distLt, decide_eq_false_iff_not, not_lt] at h
    exact h

theorem iteration_approxInv {P : Planner} {g : Goal} {range : List ℚ} {d : Draw}
    {t0 : List Motion} {s s1 : LoopState} (hsol : s.solution = none)
    (hinv : ApproxInv g t0 s) (h : iteration P g range d s = some s1) :
    ApproxInv g t0 s1 := by
  intro hsol1
  obtain ⟨ext, hext, hmin, hsolrec⟩ := hinv hsol
  obtain ⟨nm, hnm, hcase⟩ := iteration_spec h
  generalize steer P.dim P.rho range (drawSample P g d).1 nm.state = x at hcase
  generalize P.nearest s.tree (drawSample P g d).1 = ni at hcase
  rcases hcase with ⟨_, rfl⟩ | ⟨_, ht, _, hrec⟩
  · exact ⟨ext, hext, hmin, hsolrec⟩
  · have hget : (ext ++ [(⟨x, some ni⟩ : Motion)])[ext.length]? = some ⟨x, some ni⟩ := by
      rw [List.getElem?_append_right (le_refl _)]
      simp
    rcases hrec with ⟨_, h1, _, _⟩ | ⟨_, hlt, _, h2, h3⟩ | ⟨_, hnlt, _, h2, h3⟩
    · rw [h1] at hsol1; exact absurd hsol1 (by simp)
    · refine ⟨ext ++ [⟨x, some ni⟩], by rw [ht, hext, List.append_assoc], ?_, Or.inr ?_⟩
      · intro m hm
        rw [h3]
        rcases List.mem_append.mp hm with hm | hm
        · exact infLe_trans (distLt_infLe hlt) (hmin m hm)
        · simp only [List.mem_singleton] at hm
          subst hm
          exact le_refl _
      · exact ⟨ext.length, ⟨x, some ni⟩, by rw [h2, hext, List.length_append], hget, h3⟩
    · refine ⟨ext ++ [⟨x, some ni⟩], by rw [ht, hext, List.append_assoc], ?_, ?_⟩
      · intro m hm
        rw [h3]
        rcases List.mem_append.mp hm with hm | hm
        · exact hmin m hm
        · simp only [List.mem_singleton] at hm
          subst hm
          exact not_distLt hnlt
      · rcases hsolrec with ⟨_, hnone, _⟩ | ⟨j, m, hj, hm, hd⟩
        · rw [hnone] at hnlt
          simp [distLt] at hnlt
        · right
          refine ⟨j, m, by rw [h2]; exact hj, ?_, by rw [h3]; exact hd⟩
          rw [List.getElem?_append_left (getElem_lt_length hm)]
          exact hm

/-- C6: on a well-formed tree `solve` returns, and when the call ends without an exact
solution and hands an approximate path to the goal, the difference it reports is the
least goal-test distance among the nodes the loop inserted in this call, the chosen
node is one of them at that distance, and the path ends with its configuration. -/
theorem approx_distance (P : Planner) (g : Goal) (draws : List Draw) (tree : List Motion)
    (goalRec : GoalRecord) (hg : P.goal = some g) (hwf : WellFormed tree)
    (hn : NearestOK P.nearest) :
    ∃ r, solve P draws tree goalRec = some r ∧
      ∀ i, r.approximate = true → r.chosen = some i →
        ∃ inserted j m dmin path, r.tree = seedRoots P tree ++ inserted ∧
          i = (seedRoots P tree).length + j ∧ inserted[j]? = some m ∧
          (g.isSatisfied m.state).2 = dmin ∧
          (∀ m2 ∈ inserted, dmin ≤ (g.isSatisfied m2.state).2) ∧
          r.goalRec.difference = some dmin ∧ r.goalRec.approximate = true ∧
          r.goalRec.path = some path ∧ path.getLast? = some m.state := by
  obtain ⟨r, hr⟩ := solve_total P draws tree goalRec hwf hn
  refine ⟨r, hr, ?_⟩
  intro i happ hi
  obtain ⟨g2, s, mpath, hg2, _, hs, hsel, hmp, ht, ha, _, _, hrec⟩ := solve_chosen hr hi
  rw [hg] at hg2
  cases hg2
  rw [happ] at ha
  have hsolnone : s.solution = none := by
    cases hso : s.solution with
    | none => rfl
    | some v => rw [hso] at ha; simp at ha
  rw [hsolnone] at hsel
  simp only [Option.isNone_none, if_true] at hsel
  have hinv : ApproxInv g (seedRoots P tree) s :=
    searchLoop_inv (ApproxInv g (seedRoots P tree))
      (fun d st st1 h1 h2 h3 => iteration_approxInv h1 h2 h3) draws _ s rfl
      (fun _ => ⟨[], by simp [initLoop], by simp, Or.inl ⟨rfl, rfl, rfl⟩⟩) hs
  obtain ⟨ext, hext, hmin, hsolrec⟩ := hinv hsolnone
  rcases hsolrec with ⟨hnone, _, _⟩ | ⟨j, m, hj, hm, hd⟩
  · rw [hnone] at hsel; exact absurd hsel (by simp)
  · rw [hj] at hsel
    simp only [Option.some.injEq] at hsel
    obtain ⟨hhead, _, _, _, _⟩ := collectPath_spec _ _ _ hmp
    have hti : s.tree[i]? = some m := by
      rw [hext, ← hsel, List.getElem?_append_right (Nat.le_add_right _ _)]
      simpa using hm
    refine ⟨ext, j, m, (g.isSatisfied m.state).2, mpath.reverse.map (stateAt s.tree),
      by rw [ht, hext], hsel.symm, hm, rfl, ?_, by rw [hrec, hd], by rw [hrec, hsolnone]; rfl,
      by rw [hrec], ?_⟩
    · intro m2 hm2
      have := hmin m2 hm2
      rw [hd] at this
      exact this
    · rw [List.getLast?_map, List.getLast?_reverse, hhead]
      simp [stateAt_eq hti]

/-- C7 (as amended): an iteration that records no exact solution never raises
`approxdif`; the iteration that records the exact solution sets `approxdif` to the goal
distance of the solution node. -/
theorem approxdif_step {P : Planner} {g : Goal} {range : List ℚ} {d : Draw}
    {s s1 : LoopState} (h : iteration P g range d s = some s1) :
    (s1.solution = none → infLe s1.approxdif s.approxdif) ∧
      ∀ k, s.solution = none → s1.solution = some k →
        ∃ m, s1.tree[k]? = some m ∧ s1.approxdif = some (g.isSatisfied m.state).2 := by
  obtain ⟨nm, hnm, hcase⟩ := iteration_spec h
  generalize steer P.dim P.rho range (drawSample P g d).1 nm.state = x at hcase
  generalize P.nearest s.tree (drawSample P g d).1 = ni at hcase
  rcases hcase with ⟨_, rfl⟩ | ⟨_, ht, _, hrec⟩
  · refine ⟨fun _ => infLe_refl _, ?_⟩
    intro k h0 hk
    simp only at hk
    rw [h0] at hk
    exact absurd hk (by simp)
  · have hget : s1.tree[s.tree.length]? = some ⟨x, some ni⟩ := by
      rw [ht, List.getElem?_append_right (le_refl _)]
      simp
    rcases hrec with ⟨_, h1, _, h3⟩ | ⟨_, hlt, h1, _, h3⟩ | ⟨_, _, h1, _, h3⟩
    · refine ⟨fun hnone => ?_, ?_⟩
      · rw [h1] at hnone; exact absurd hnone (by simp)
      · intro k _ hk
        rw [h1] at hk
        simp only [Option.some.injEq] at hk
        subst hk
        exact ⟨⟨x, some ni⟩, hget, h3⟩
    · refine ⟨fun _ => ?_, ?_⟩
      · rw [h3]; exact distLt_infLe hlt
      · intro k h0 hk
        rw [h1, h0] at hk
        exact absurd hk (by simp)
    · refine ⟨fun _ => ?_, ?_⟩
      · rw [h3]; exact infLe_refl _
      · intro k h0 hk
        rw [h1, h0] at hk
        exact absurd hk (by simp)

/-- C10: with a goal and an empty tree at entry, the roots `solve` seeds are the
starts that pass `satisfiesBounds` and `isValid`, in the order given and each without
parent; the call returns with them at the front of the tree, and they are the whole
tree when the loop runs no iteration. -/
theorem root_seeding (P : Planner) (g : Goal) (draws : List Draw) (goalRec : GoalRecord)
    (hg : P.goal = some g) (hn : NearestOK P.nearest) :
    seedRoots P [] = (P.starts.filter fun s => P.satisfiesBounds s && P.isValid s).map
        (fun s => (⟨s, none⟩ : Motion)) ∧
      ∃ r, solve P draws [] goalRec = some r ∧
        (∃ inserted, r.tree = seedRoots P [] ++ inserted) ∧
        (draws = [] → r.tree = seedRoots P []) := by
  refine ⟨seedRoots_nil P, ?_⟩
  obtain ⟨r, hr⟩ := solve_total P draws [] goalRec wellFormed_nil hn
  refine ⟨r, hr, ?_⟩
  rcases solve_spec hr with ⟨hnone, _⟩ | ⟨g2, _, ⟨hnil, rfl⟩ | ⟨_, s, hs, hres⟩⟩
  · rw [hg] at hnone; exact absurd hnone (by simp)
  · rw [hnil]
    exact ⟨⟨[], rfl⟩, fun _ => rfl⟩
  · have htree : r.tree = s.tree := by
      rcases hres with ⟨_, _, rfl⟩ | ⟨i, mpath, _, _, rfl⟩ <;> rfl
    rw [htree]
    refine ⟨searchLoop_grows draws _ s rfl hs, ?_⟩
    intro hd
    subst hd
    simp only [searchLoop, Option.some.injEq] at hs
    rw [← hs]
    rfl

/-! ## The example runs -/

theorem exPlanner_solve : solve exPlanner [exDraw] [] emptyRecord = some exResult := by
  norm_num [solve, exPlanner, exGoal, exDraw, emptyRecord, exResult, seedRoots, computeRange,
    initLoop, searchLoop, iteration, drawSample, steer, steerComponent, Planner.dim, distLt,
    collectPath, pathStates, stateAt, List.range, List.range.loop]

theorem exPlanner_iteration :
    iteration exPlanner exGoal (computeRange exPlanner) exDraw (initLoop [⟨[0], none⟩]) =
      some exAfter := by
  norm_num [exPlanner, exGoal, exDraw, exAfter, computeRange,
    initLoop, iteration, drawSample, steer, steerComponent, Planner.dim, distLt,
    List.range, List.range.loop]

theorem strictPlanner_solve : solve strictPlanner [exDraw] [] emptyRecord = some exResult := by
  norm_num [solve, strictPlanner, strictValid, exGoal, exDraw, emptyRecord, exResult, seedRoots,
    computeRange, initLoop, searchLoop, iteration, drawSample, steer, steerComponent,
    Planner.dim, distLt, collectPath, pathStates, stateAt, List.range, List.range.loop]

theorem farPlanner_first :
    searchLoop farPlanner farGoal (computeRange farPlanner) [⟨0, [], [2]⟩]
      (initLoop (seedRoots farPlanner [])) = some farAfterOne := by
  norm_num [farPlanner, farGoal, farAfterOne, seedRoots, computeRange,
    initLoop, searchLoop, iteration, drawSample, steer, steerComponent, Planner.dim, distLt,
    List.range, List.range.loop]

theorem farPlanner_second :
    iteration farPlanner farGoal (computeRange farPlanner) ⟨0, [], [8]⟩ farAfterOne =
      some farAfterTwo := by
  norm_num [farPlanner, farGoal, farAfterOne, farAfterTwo, computeRange,
    iteration, drawSample, steer, steerComponent, Planner.dim, distLt,
    List.range, List.range.loop]

/-! ## Counterexamples to the claims as stated -/

/-- C1 as stated fails: on `[0, 10]` with `rho = 1/2` the range is `5`; from nearest `0`
toward sample `8` the difference `8` exceeds the range, and the candidate is `4`, not
`0 + 5`; toward sample `5` the difference equals the range and the candidate is `5/2`,
not the sample. The call of `solve` stores the node `4`. -/
theorem steering_not_clamped :
    computeRange exPlanner = [5] ∧
      steer exPlanner.dim exPlanner.rho (computeRange exPlanner) [8] [0] = [4] ∧
      (5 : ℚ) < |8 - 0| ∧ (4 : ℚ) ≠ 0 + 5 ∧
      steer exPlanner.dim exPlanner.rho (computeRange exPlanner) [5] [0] = [5 / 2] ∧
      |(5 : ℚ) - 0| ≤ 5 ∧ (5 / 2 : ℚ) ≠ 5 ∧
      (solve exPlanner [exDraw] [] emptyRecord).map (fun r => r.tree) =
        some [⟨[0], none⟩, ⟨[4], some 0⟩] := by
  refine ⟨?_, ?_, ?_, ?_, ?_, ?_, ?_, ?_⟩
  · norm_num [computeRange, exPlanner]
  · norm_num [computeRange, exPlanner, steer, steerComponent, Planner.dim, List.range,
      List.range.loop]
  · norm_num
  · norm_num
  · norm_num [computeRange, exPlanner, steer, steerComponent, Planner.dim, List.range,
      List.range.loop]
  · norm_num
  · norm_num
  · rw [exPlanner_solve]; rfl

/-- C2 as stated fails: on `[0, 1]` with `rho = 1/2` the range is `1/2`; from nearest
`0` toward sample `10` the candidate is `5`, farther than `1/2` from the nearest. -/
theorem steering_exceeds_range :
    ¬ ∀ (P : Planner) (r n : State) (i : Nat), 0 < P.rho → P.rho ≤ 1 →
        (∀ c ∈ P.components, 0 ≤ c.maxValue - c.minValue) → i < P.dim →
        |(steer P.dim P.rho (computeRange P) r n).getD i 0 - n.getD i 0| ≤
          (computeRange P).getD i 0 := by
  intro h
  have h5 := h narrowPlanner [10] [0] 0 (by norm_num [narrowPlanner])
    (by norm_num [narrowPlanner]) (by norm_num [narrowPlanner]) (by simp [narrowPlanner, Planner.dim])
  norm_num [narrowPlanner, computeRange, steer, steerComponent, Planner.dim, List.range,
    List.range.loop] at h5

/-- C5 as stated fails: with a state check that accepts only `0` and a motion check
that accepts everything, one call of `solve` from the empty tree stores the node `4`,
which the state check rejects. -/
theorem invalid_node_stored :
    ¬ ∀ (iv : State → Bool) (cm : State → State → Bool) (tree : List Motion),
        Reachable (fun Q => Q.isValid = iv ∧ Q.checkMotion = cm) tree →
        ∀ m ∈ tree, iv m.state = true := by
  intro h
  have h4 := h strictValid (fun _ _ => true) exResult.tree
    (Reachable.call strictPlanner [exDraw] [] emptyRecord exResult Reachable.empty
      ⟨rfl, rfl⟩ strictPlanner_solve) ⟨[4], some 0⟩ (by simp [exResult])
  simp [strictValid] at h4

/-- C7 as stated fails: with the goal `x ≥ 4` that measures distance from `5/2`, the
node `2` sets `approxdif` to `1/2`, and the next iteration records the exact solution
`4` and raises `approxdif` to `3/2`. -/
theorem approxdif_increases :
    searchLoop farPlanner farGoal (computeRange farPlanner) [⟨0, [], [2]⟩]
        (initLoop (seedRoots farPlanner [])) = some farAfterOne ∧
      iteration farPlanner farGoal (computeRange farPlanner) ⟨0, [], [8]⟩ farAfterOne =
        some farAfterTwo ∧
      farAfterOne.approxdif = some (1 / 2) ∧ farAfterTwo.approxdif = some (3 / 2) ∧
      ¬ infLe farAfterTwo.approxdif farAfterOne.approxdif := by
  refine ⟨farPlanner_first, farPlanner_second, rfl, rfl, ?_⟩
  norm_num [farAfterOne, farAfterTwo, infLe]

/-! ## Instances on the example planner -/

/-- Instance of C1 (as amended): the iteration with sample `8` on the tree holding the
root `0`. -/
theorem steering_rule_witness :
    iteration exPlanner exGoal (computeRange exPlanner) exDraw (initLoop [⟨[0], none⟩]) =
        some exAfter ∧
      ∃ (nm : Motion) (x : State), Event.motionCheck nm.state x ∈ exAfter.trace ∧
        x.length = exPlanner.dim ∧
        ∀ i, i < exPlanner.dim →
          (|(drawSample exPlanner exGoal exDraw).1.getD i 0 - nm.state.getD i 0| <
              (computeRange exPlanner).getD i 0 →
            x.getD i 0 = (drawSample exPlanner exGoal exDraw).1.getD i 0) ∧
          ((computeRange exPlanner).getD i 0 ≤
              |(drawSample exPlanner exGoal exDraw).1.getD i 0 - nm.state.getD i 0| →
            x.getD i 0 = nm.state.getD i 0 +
              ((drawSample exPlanner exGoal exDraw).1.getD i 0 - nm.state.getD i 0) *
                exPlanner.rho) := by
  refine ⟨exPlanner_iteration, ?_⟩
  obtain ⟨nm, x, _, h2, _, h4, h5⟩ := steering_rule exPlanner_iteration
  exact ⟨nm, x, h2, h4, h5⟩

/-- Instance of C2 (as amended): sample `8`, nearest `0` on `[0, 10]`. -/
theorem steering_within_range_witness :
    |(steer exPlanner.dim exPlanner.rho (computeRange exPlanner) [8] [0]).getD 0 0 -
        ([0] : State).getD 0 0| ≤ (computeRange exPlanner).getD 0 0 :=
  steering_within_range exPlanner [8] [0] 0 ⟨0, 10⟩ (by norm_num [exPlanner])
    (by norm_num [exPlanner]) (by simp [exPlanner]) (by norm_num)

/-- Instance of C3: the example call chooses node `1`. -/
theorem path_structure_witness :
    solve exPlanner [exDraw] [] emptyRecord = some exResult ∧ exResult.chosen = some 1 ∧
      ∃ r, solve exPlanner [exDraw] [] emptyRecord = some r ∧
        ∀ i, r.chosen = some i →
          ∃ nodes : List Nat, r.goalRec.path = some (nodes.map (stateAt r.tree)) ∧
            (∃ root, nodes.head? = some root ∧ IsRoot r.tree root) ∧
            nodes.getLast? = some i ∧
            List.Chain' (IsChildOf r.tree) nodes ∧
            ∃ dep, HasDepth r.tree i dep ∧ nodes.length = dep + 1 ∧
              ∀ d, HasDepth r.tree i d → d = dep :=
  ⟨exPlanner_solve, rfl,
    path_structure exPlanner [exDraw] [] emptyRecord wellFormed_nil nearestOK_first⟩

/-- Instance of C4: a second call on the tree left by the example call. -/
theorem path_motions_checked_witness :
    Reachable (fun Q => Q.checkMotion = fun _ _ => true) exResult.tree ∧
      ∃ r, solve exPlanner [exDraw] exResult.tree emptyRecord = some r ∧
        ∀ i, r.chosen = some i →
          ∃ path, r.goalRec.path = some path ∧
            List.Chain' (fun a b => (fun (_ _ : State) => true) a b = true) path :=
  ⟨Reachable.call exPlanner [exDraw] [] emptyRecord exResult Reachable.empty rfl
      exPlanner_solve,
    path_motions_checked (fun _ _ => true) exPlanner [exDraw] exResult.tree emptyRecord
      (Reachable.call exPlanner [exDraw] [] emptyRecord exResult Reachable.empty rfl
        exPlanner_solve) rfl nearestOK_first⟩

/-- Instance of C5 (as amended): oracles that accept everything, on the tree left by
the example call. -/
theorem nodes_valid_witness :
    (∀ m ∈ exResult.tree, (fun _ : State => true) m.state = true) ∧
      ∀ (P : Planner) (draws : List Draw) (goalRec : GoalRecord) (r : SolveResult) (i : Nat),
        P.isValid = (fun _ => true) → P.checkMotion = (fun _ _ => true) →
        solve P draws exResult.tree goalRec = some r → r.chosen = some i →
        ∃ path, r.goalRec.path = some path ∧ ∀ a ∈ path, (fun _ : State => true) a = true :=
  nodes_valid (fun _ => true) (fun _ _ => true) exResult.tree (fun _ _ _ => rfl)
    (Reachable.call exPlanner [exDraw] [] emptyRecord exResult Reachable.empty ⟨rfl, rfl⟩
      exPlanner_solve)

/-- Instance of C6: the example call ends with an approximate path at distance `6`. -/
theorem approx_distance_witness :
    solve exPlanner [exDraw] [] emptyRecord = some exResult ∧
      exResult.approximate = true ∧ exResult.goalRec.difference = some 6 ∧
      ∃ r, solve exPlanner [exDraw] [] emptyRecord = some r ∧
        ∀ i, r.approximate = true → r.chosen = some i →
          ∃ inserted j m dmin path, r.tree = seedRoots exPlanner [] ++ inserted ∧
            i = (seedRoots exPlanner []).length + j ∧ inserted[j]? = some m ∧
            (exGoal.isSatisfied m.state).2 = dmin ∧
            (∀ m2 ∈ inserted, dmin ≤ (exGoal.isSatisfied m2.state).2) ∧
            r.goalRec.difference = some dmin ∧ r.goalRec.approximate = true ∧
            r.goalRec.path = some path ∧ path.getLast? = some m.state :=
  ⟨exPlanner_solve, rfl, rfl,
    approx_distance exPlanner exGoal [exDraw] [] emptyRecord rfl wellFormed_nil
      nearestOK_first⟩

/-- Instance of C7 (as amended): the two iterations of the planner `farPlanner`. -/
theorem approxdif_step_witness :
    iteration farPlanner farGoal (computeRange farPlanner) ⟨0, [], [8]⟩ farAfterOne =
        some farAfterTwo ∧
      (farAfterTwo.solution = none → infLe farAfterTwo.approxdif farAfterOne.approxdif) ∧
      ∀ k, farAfterOne.solution = none → farAfterTwo.solution = some k →
        ∃ m, farAfterTwo.tree[k]? = some m ∧
          farAfterTwo.approxdif = some (farGoal.isSatisfied m.state).2 :=
  ⟨farPlanner_second, approxdif_step farPlanner_second⟩

/-- Instance of C8: a call without goal on a tree that holds one root. -/
theorem solve_no_goal_witness :
    ∃ r, solve noGoalPlanner [exDraw] [⟨[0], none⟩] emptyRecord = some r ∧ r.ret = false ∧
      r.tree = [⟨[0], none⟩] ∧ r.goalRec = emptyRecord ∧ r.chosen = none ∧ r.trace = [] :=
  solve_no_goal noGoalPlanner [exDraw] [⟨[0], none⟩] emptyRecord rfl

/-- Instance of C9: both starts of `badStartPlanner` are out of bounds. -/
theorem solve_no_valid_start_witness :
    ∃ r, solve badStartPlanner [exDraw] [] emptyRecord = some r ∧ r.ret = false ∧
      r.tree = [] ∧ r.trace = [] ∧ r.chosen = none ∧ r.goalRec = emptyRecord :=
  solve_no_valid_start badStartPlanner exGoal [exDraw] emptyRecord rfl (by
    intro s hs
    simp only [badStartPlanner, List.mem_cons, List.mem_singleton, List.not_mem_nil,
      or_false] at hs
    rcases hs with rfl | rfl <;> left <;> norm_num [badStartPlanner, inBounds])

/-- Instance of C10: of the starts `0`, `20`, `3` the roots are `0` and `3`. -/
theorem root_seeding_witness :
    seedRoots seedPlanner [] = [⟨[0], none⟩, ⟨[3], none⟩] ∧
      seedRoots seedPlanner [] =
        (seedPlanner.starts.filter fun s => seedPlanner.satisfiesBounds s && seedPlanner.isValid s).map
          (fun s => (⟨s, none⟩ : Motion)) ∧
      ∃ r, solve seedPlanner [exDraw] [] emptyRecord = some r ∧
        (∃ inserted, r.tree = seedRoots seedPlanner [] ++ inserted) ∧
        (([exDraw] : List Draw) = [] → r.tree = seedRoots seedPlanner []) :=
  ⟨by norm_num [seedRoots, seedPlanner, inBounds],
    root_seeding seedPlanner exGoal [exDraw] emptyRecord rfl nearestOK_first⟩

/-! ## Growth of the tree -/

theorem seedRoots_grows (P : Planner) (tree : List Motion) :
    ∃ roots, seedRoots P tree = tree ++ roots ∧ (tree ≠ [] → roots = []) := by
  by_cases hne : tree = []
  · subst hne
    exact ⟨seedRoots P [], by simp, fun h => absurd rfl h⟩
  · exact ⟨[], by rw [seedRoots_of_ne_nil P hne]; simp, fun _ => rfl⟩

theorem solve_tree {P : Planner} {draws : List Draw} {tree : List Motion}
    {goalRec : GoalRecord} {r : SolveResult} (h : solve P draws tree goalRec = some r) :
    r.tree = tree ∨
      ∃ g s, P.goal = some g ∧
        searchLoop P g (computeRange P) draws (initLoop (seedRoots P tree)) = some s ∧
        r.tree = s.tree := by
  rcases solve_spec h with ⟨_, rfl⟩ | ⟨g, hg, ⟨hnil, rfl⟩ | ⟨_, s, hs, hres⟩⟩
  · exact Or.inl rfl
  · left
    obtain ⟨roots, hroots, _⟩ := seedRoots_grows P tree
    rw [hnil] at hroots
    have := List.append_eq_nil.mp hroots.symm
    exact this.1.symm
  · right
    refine ⟨g, s, hg, hs, ?_⟩
    rcases hres with ⟨_, _, rfl⟩ | ⟨i, mpath, _, _, rfl⟩ <;> rfl

theorem solve_wellFormed {P : Planner} {draws : List Draw} {tree : List Motion}
    {goalRec : GoalRecord} {r : SolveResult} (hwf : WellFormed tree)
    (h : solve P draws tree goalRec = some r) : WellFormed r.tree := by
  rcases solve_tree h with ht | ⟨g, s, _, hs, ht⟩
  · rw [ht]; exact hwf
  · rw [ht]
    exact searchLoop_tree_inv WellFormed
      (fun t ni nm x hq hnm _ => wellFormed_append x hq hnm) draws _ s rfl
      (seedRoots_wellFormed P hwf) hs

theorem reachable_wellFormed {ok : Planner → Prop} {tree : List Motion}
    (h : Reachable ok tree) : WellFormed tree := by
  induction h with
  | empty => exact wellFormed_nil
  | call P draws tree goalRec r _ _ hsolve ih => exact solve_wellFormed ih hsolve

theorem grownFrom_append {t0 t : List Motion} {ni : Nat} {nm : Motion} (x : State)
    (hg : GrownFrom t0 t) (hnm : t[ni]? = some nm) : GrownFrom t0 (t ++ [⟨x, some ni⟩]) := by
  obtain ⟨ext, hext, hpar⟩ := hg
  refine ⟨ext ++ [⟨x, some ni⟩], by rw [hext, List.append_assoc], ?_⟩
  intro j m hm
  rcases getElem_append_single hm with ⟨_, h⟩ | ⟨hj, rfl⟩
  · exact hpar j m h
  · refine ⟨ni, rfl, ?_⟩
    have hlt := getElem_lt_length hnm
    rw [hext, List.length_append] at hlt
    omega

theorem solve_grownFrom {P : Planner} {draws : List Draw} {tree : List Motion}
    {goalRec : GoalRecord} {r : SolveResult} (h : solve P draws tree goalRec = some r) :
    GrownFrom (seedRoots P tree) r.tree ∨ r.tree = tree := by
  rcases solve_tree h with ht | ⟨g, s, _, hs, ht⟩
  · exact Or.inr ht
  · left
    rw [ht]
    refine searchLoop_tree_inv (GrownFrom (seedRoots P tree))
      (fun t ni nm x hq hnm _ => grownFrom_append x hq hnm) draws _ s rfl ?_ hs
    exact ⟨[], by simp [initLoop], fun j m hm => absurd hm (by simp)⟩

/-- C14: on a well-formed tree `solve` returns, and the tree after the call is the tree
before the call followed by the added nodes: every node present before keeps its
place, its configuration and its parent. -/
theorem tree_grows_only (P : Planner) (draws : List Draw) (tree : List Motion)
    (goalRec : GoalRecord) (hwf : WellFormed tree) (hn : NearestOK P.nearest) :
    ∃ r, solve P draws tree goalRec = some r ∧
      (∃ added, r.tree = tree ++ added) ∧
      ∀ (i : Nat) (m : Motion), tree[i]? = some m → r.tree[i]? = some m := by
  obtain ⟨r, hr⟩ := solve_total P draws tree goalRec hwf hn
  have hpre : ∃ added, r.tree = tree ++ added := by
    rcases solve_tree hr with ht | ⟨g, s, _, hs, ht⟩
    · exact ⟨[], by rw [ht]; simp⟩
    · obtain ⟨ext, hext⟩ := searchLoop_grows draws _ s rfl hs
      obtain ⟨roots, hroots, _⟩ := seedRoots_grows P tree
      refine ⟨roots ++ ext, ?_⟩
      rw [ht, hext]
      show seedRoots P tree ++ ext = tree ++ (roots ++ ext)
      rw [hroots, List.append_assoc]
  refine ⟨r, hr, hpre, ?_⟩
  intro i m hm
  obtain ⟨added, hadd⟩ := hpre
  rw [hadd, List.getElem?_append_left (getElem_lt_length hm)]
  exact hm

theorem hasDepth_le {tree : List Motion} (hwf : WellFormed tree) {i d : Nat}
    (h : HasDepth tree i d) : d ≤ i := by
  induction h with
  | root i m _ _ => exact Nat.zero_le i
  | child i p d m hm hp _ ih =>
    have := hwf i m hm p hp
    omega

/-- C15: in every tree built from the empty tree by calls of `solve`, the parent of a
node is a node with a smaller index; from every node the walk along parent pointers
that `solve` uses to build a path ends at a root within as many steps as the tree has
nodes, and a further call of `solve` returns. -/
theorem parent_before_child (tree : List Motion) (hreach : Reachable (fun _ => True) tree) :
    (∀ (i : Nat) (m : Motion), tree[i]? = some m → ∀ p : Nat, m.parent = some p →
        p < i ∧ ∃ pm, tree[p]? = some pm) ∧
      (∀ i, i < tree.length →
        ∃ mpath root dep, collectPath tree tree.length (some i) = some mpath ∧
          mpath.head? = some i ∧ mpath.getLast? = some root ∧ IsRoot tree root ∧
          List.Chain' (fun c p => IsChildOf tree p c ∧ p < c) mpath ∧
          HasDepth tree i dep ∧ mpath.length = dep + 1 ∧ dep ≤ i) ∧
      ∀ (P : Planner) (draws : List Draw) (goalRec : GoalRecord), NearestOK P.nearest →
        ∃ r, solve P draws tree goalRec = some r := by
  have hwf : WellFormed tree := reachable_wellFormed hreach
  refine ⟨?_, ?_, fun P draws goalRec hn => solve_total P draws tree goalRec hwf hn⟩
  · intro i m hm p hp
    have hpi := hwf i m hm p hp
    have hi := getElem_lt_length hm
    exact ⟨hpi, tree[p], List.getElem?_eq_getElem (by omega)⟩
  · intro i hi
    obtain ⟨mpath, hmp⟩ := collectPath_total hwf tree.length i hi hi
    obtain ⟨hhead, hchain, ⟨root, hlast, hroot⟩, ⟨dep, hdep, hlen⟩, _⟩ :=
      collectPath_spec _ _ _ hmp
    refine ⟨mpath, root, dep, hmp, hhead, hlast, hroot, ?_, hdep, hlen, ?_⟩
    · refine List.Chain'.imp ?_ hchain
      intro c p hcp
      obtain ⟨m, hm, hp⟩ := hcp
      exact ⟨⟨m, hm, hp⟩, hwf c m hm p hp⟩
    · exact hasDepth_le hwf hdep

/-- C16: the range of dimension `i` is `rho * (maxValue[i] - minValue[i])`, one entry
per dimension; with `rho` in `(0,1]` and `maxValue[i] > minValue[i]` it is positive and
at most the bound span. -/
theorem range_value (P : Planner) (i : Nat) (c : StateComponent)
    (hc : P.components[i]? = some c) :
    (computeRange P).length = P.dim ∧
      (computeRange P)[i]? = some (P.rho * (c.maxValue - c.minValue)) ∧
      (0 < P.rho → P.rho ≤ 1 → c.minValue < c.maxValue →
        0 < P.rho * (c.maxValue - c.minValue) ∧
          P.rho * (c.maxValue - c.minValue) ≤ c.maxValue - c.minValue) := by
  refine ⟨by simp [computeRange, Planner.dim], by simp [computeRange, hc], ?_⟩
  intro h0 h1 hlt
  have hspan : 0 < c.maxValue - c.minValue := sub_pos.mpr hlt
  exact ⟨mul_pos h0 hspan, mul_le_of_le_one_left (le_of_lt hspan) h1⟩

/-- C18: a call of `solve` on a non-empty well-formed tree seeds no start: the seeded
tree is the tree of the call, every node the call adds has a parent with a smaller
index (a node of the persisted tree or one added earlier in the call), and the roots
of the tree are the same before and after. -/
theorem tree_persists (P : Planner) (draws : List Draw) (tree : List Motion)
    (goalRec : GoalRecord) (hne : tree ≠ []) (hwf : WellFormed tree)
    (hn : NearestOK P.nearest) :
    seedRoots P tree = tree ∧
      ∃ r added, solve P draws tree goalRec = some r ∧ r.tree = tree ++ added ∧
        (∀ (j : Nat) (m : Motion), added[j]? = some m →
          ∃ p, m.parent = some p ∧ p < tree.length + j) ∧
        ∀ i, IsRoot r.tree i ↔ IsRoot tree i := by
  have hseed := seedRoots_of_ne_nil P hne
  refine ⟨hseed, ?_⟩
  obtain ⟨r, hr⟩ := solve_total P draws tree goalRec hwf hn
  have hgrown : GrownFrom tree r.tree := by
    rcases solve_grownFrom hr with hg | ht
    · rw [hseed] at hg; exact hg
    · exact ⟨[], by rw [ht]; simp, fun j m hm => absurd hm (by simp)⟩
  obtain ⟨added, hadd, hpar⟩ := hgrown
  refine ⟨r, added, hr, hadd, hpar, ?_⟩
  intro i
  constructor
  · rintro ⟨m, hm, hp⟩
    by_cases hi : i < tree.length
    · rw [hadd, List.getElem?_append_left hi] at hm
      exact ⟨m, hm, hp⟩
    · rw [hadd, List.getElem?_append_right (not_lt.mp hi)] at hm
      obtain ⟨p, hp2, _⟩ := hpar _ m hm
      rw [hp] at hp2
      exact absurd hp2 (by simp)
  · rintro ⟨m, hm, hp⟩
    exact ⟨m, by rw [hadd, List.getElem?_append_left (getElem_lt_length hm)]; exact hm, hp⟩

/-! ## Exact solutions and the result of the call -/

theorem iteration_foundInv {P : Planner} {g : Goal} {range : List ℚ} {d : Draw}
    {t0 : List Motion} {s s1 : LoopState} (hsol : s.solution = none)
    (hinv : FoundInv g t0 s) (h : iteration P g range d s = some s1) :
    FoundInv g t0 s1 := by
  obtain ⟨ext, hext, hunsat, _⟩ := hinv
  have hall := hunsat hsol
  obtain ⟨nm, hnm, hcase⟩ := iteration_spec h
  generalize steer P.dim P.rho range (drawSample P g d).1 nm.state = x at hcase
  generalize P.nearest s.tree (drawSample P g d).1 = ni at hcase
  rcases hcase with ⟨_, rfl⟩ | ⟨_, ht, _, hrec⟩
  · refine ⟨ext, hext, fun _ => hall, ?_⟩
    intro k hk
    simp only at hk
    rw [hsol] at hk
    exact absurd hk (by simp)
  · have hext1 : s1.tree = t0 ++ (ext ++ [⟨x, some ni⟩]) := by
      rw [ht, hext, List.append_assoc]
    have hunsat1 : (g.isSatisfied x).1 = false →
        ∀ m ∈ ext ++ [(⟨x, some ni⟩ : Motion)], (g.isSatisfied m.state).1 = false := by
      intro hx m hm
      rcases List.mem_append.mp hm with hm | hm
      · exact hall m hm
      · simp only [List.mem_singleton] at hm
        subst hm
        exact hx
    rcases hrec with ⟨hsat, h1, _, h3⟩ | ⟨hsat, _, h1, _, _⟩ | ⟨hsat, _, h1, _, _⟩
    · refine ⟨ext ++ [⟨x, some ni⟩], hext1, ?_, ?_⟩
      · intro hnone
        rw [h1] at hnone
        exact absurd hnone (by simp)
      · intro k hk
        rw [h1] at hk
        simp only [Option.some.injEq] at hk
        refine ⟨ext, ⟨x, some ni⟩, rfl, ?_, hsat, h3, hall⟩
        rw [← hk, hext, List.length_append]
    · refine ⟨ext ++ [⟨x, some ni⟩], hext1, fun _ => hunsat1 hsat, ?_⟩
      intro k hk
      rw [h1, hsol] at hk
      exact absurd hk (by simp)
    · refine ⟨ext ++ [⟨x, some ni⟩], hext1, fun _ => hunsat1 hsat, ?_⟩
      intro k hk
      rw [h1, hsol] at hk
      exact absurd hk (by simp)

theorem searchLoop_foundInv {P : Planner} {g : Goal} {range : List ℚ} {draws : List Draw}
    {t0 : List Motion} {s : LoopState}
    (h : searchLoop P g range draws (initLoop t0) = some s) : FoundInv g t0 s := by
  refine searchLoop_inv (FoundInv g t0) (fun d st st1 h1 h2 h3 => iteration_foundInv h1 h2 h3)
    draws _ s rfl ?_ h
  refine ⟨[], by simp [initLoop], fun _ m hm => absurd hm (by simp), ?_⟩
  intro k hk
  simp [initLoop] at hk

/-- A call that gets past seeding returns what the final state of its loop decides. -/
theorem solve_of_loop {P : Planner} {g : Goal} {draws : List Draw} {tree : List Motion}
    {goalRec : GoalRecord} {s : LoopState} {r : SolveResult} (hg : P.goal = some g)
    (hne : seedRoots P tree ≠ [])
    (hs : searchLoop P g (computeRange P) draws (initLoop (seedRoots P tree)) = some s)
    (hr : solve P draws tree goalRec = some r) :
    (s.solution = none ∧ s.approxsol = none ∧
        r = ⟨g.isAchieved goalRec, s.tree, goalRec, none, true, s.approxdif, s.trace⟩) ∨
      ∃ i mpath, (if s.solution.isNone then s.approxsol else s.solution) = some i ∧
        collectPath s.tree s.tree.length (some i) = some mpath ∧
        r = ⟨g.isAchieved ⟨some (pathStates s.tree mpath), s.solution.isNone, s.approxdif⟩,
          s.tree, ⟨some (pathStates s.tree mpath), s.solution.isNone, s.approxdif⟩,
          some i, s.solution.isNone, s.approxdif, s.trace⟩ := by
  rcases solve_spec hr with ⟨hnone, _⟩ | ⟨g2, hg2, ⟨hnil, _⟩ | ⟨_, s2, hs2, hres⟩⟩
  · rw [hg] at hnone; exact absurd hnone (by simp)
  · exact absurd hnil hne
  · rw [hg] at hg2
    cases hg2
    rw [hs] at hs2
    cases hs2
    exact hres

theorem path_last {tree : List Motion} {fuel i : Nat} {mpath : List Nat}
    (h : collectPath tree fuel (some i) = some mpath) :
    ∃ m, tree[i]? = some m ∧ (pathStates tree mpath).getLast? = some m.state := by
  obtain ⟨hhead, _, _, _, hidx⟩ := collectPath_spec _ _ _ h
  obtain ⟨m, hm⟩ := hidx i (List.mem_of_mem_head? hhead)
  refine ⟨m, hm, ?_⟩
  unfold pathStates
  rw [List.getLast?_map, List.getLast?_reverse, hhead]
  simp [stateAt_eq hm]

/-- C11: on a well-formed tree `solve` returns, and when it returns an exact solution
the solution node is the last node of the tree, it passed the goal test, every node the
loop inserted before it in this call failed the goal test, and the path ends with its
configuration. -/
theorem first_found (P : Planner) (g : Goal) (draws : List Draw) (tree : List Motion)
    (goalRec : GoalRecord) (hg : P.goal = some g) (hwf : WellFormed tree)
    (hn : NearestOK P.nearest) :
    ∃ r, solve P draws tree goalRec = some r ∧
      ∀ i, r.approximate = false → r.chosen = some i →
        ∃ earlier m path, r.tree = seedRoots P tree ++ earlier ++ [m] ∧
          i = (seedRoots P tree).length + earlier.length ∧ i + 1 = r.tree.length ∧
          (g.isSatisfied m.state).1 = true ∧
          (∀ m2 ∈ earlier, (g.isSatisfied m2.state).1 = false) ∧
          r.goalRec.path = some path ∧ path.getLast? = some m.state := by
  obtain ⟨r, hr⟩ := solve_total P draws tree goalRec hwf hn
  refine ⟨r, hr, ?_⟩
  intro i happ hi
  obtain ⟨g2, s, mpath, hg2, _, hs, hsel, hmp, ht, ha, _, _, hrec⟩ := solve_chosen hr hi
  rw [hg] at hg2
  cases hg2
  rw [happ] at ha
  cases hso : s.solution with
  | none => rw [hso] at ha; simp at ha
  | some k =>
    rw [hso] at hsel
    simp only [Option.isNone_some, Bool.false_eq_true, if_false, Option.some.injEq] at hsel
    subst hsel
    obtain ⟨ext, hext, _, hfound⟩ := searchLoop_foundInv hs
    obtain ⟨earlier, m, hsplit, hk, hsat, _, hunsat⟩ := hfound k hso
    obtain ⟨m2, hm2, hlast⟩ := path_last hmp
    have htree : s.tree = seedRoots P tree ++ earlier ++ [m] := by
      rw [hext, hsplit, List.append_assoc]
    have hmk : s.tree[k]? = some m := by
      rw [htree, hk, List.getElem?_append_right (by simp)]
      simp
    rw [hmk] at hm2
    cases hm2
    refine ⟨earlier, m, pathStates s.tree mpath, by rw [ht, htree], hk, ?_, hsat, hunsat,
      by rw [hrec]; rfl, hlast⟩
    rw [ht, htree, hk]
    simp only [List.length_append, List.length_singleton]

/-- C12: past seeding, `solve` returns a result decided by the final state of its loop.
With an exact solution recorded, the goal receives a path that ends at the solution
node, the flag approximate = false and the distance the goal test gave for that node.
With no exact solution and a best-approximate node, the goal receives a path that ends
at that node and the flag approximate = true. -/
theorem result_marking (P : Planner) (g : Goal) (draws : List Draw) (tree : List Motion)
    (goalRec : GoalRecord) (hg : P.goal = some g) (hwf : WellFormed tree)
    (hn : NearestOK P.nearest) (hne : seedRoots P tree ≠ []) :
    ∃ s r, searchLoop P g (computeRange P) draws (initLoop (seedRoots P tree)) = some s ∧
      solve P draws tree goalRec = some r ∧
      (∀ k, s.solution = some k →
        ∃ m path, s.tree[k]? = some m ∧ (g.isSatisfied m.state).1 = true ∧
          r.chosen = some k ∧ r.goalRec = ⟨some path, false, some (g.isSatisfied m.state).2⟩ ∧
          path.getLast? = some m.state) ∧
      ∀ k, s.solution = none → s.approxsol = some k →
        ∃ m path, s.tree[k]? = some m ∧ r.chosen = some k ∧
          r.goalRec.path = some path ∧ r.goalRec.approximate = true ∧
          path.getLast? = some m.state := by
  obtain ⟨r, hr⟩ := solve_total P draws tree goalRec hwf hn
  obtain ⟨s, hs⟩ := searchLoop_total g (computeRange P) hn draws (initLoop (seedRoots P tree))
    (by simpa [initLoop] using hne)
  refine ⟨s, r, hs, hr, ?_, ?_⟩
  · intro k hk
    rcases solve_of_loop hg hne hs hr with ⟨hnone, _, _⟩ | ⟨i, mpath, hsel, hmp, rfl⟩
    · rw [hk] at hnone; exact absurd hnone (by simp)
    · rw [hk] at hsel
      simp only [Option.isNone_some, Bool.false_eq_true, if_false, Option.some.injEq] at hsel
      subst hsel
      obtain ⟨ext, hext, _, hfound⟩ := searchLoop_foundInv hs
      obtain ⟨earlier, m, hsplit, hkk, hsat, hdif, _⟩ := hfound _ hk
      obtain ⟨m2, hm2, hlast⟩ := path_last hmp
      have hmk : s.tree[k]? = some m := by
        rw [hext, hsplit, hkk, ← List.append_assoc, List.getElem?_append_right (by simp)]
        simp
      rw [hmk] at hm2
      cases hm2
      refine ⟨m, pathStates s.tree mpath, hmk, hsat, rfl, ?_, hlast⟩
      simp only [hk, Option.isNone_some, hdif]
  · intro k hnone hk
    rcases solve_of_loop hg hne hs hr with ⟨_, hno, _⟩ | ⟨i, mpath, hsel, hmp, rfl⟩
    · rw [hk] at hno; exact absurd hno (by simp)
    · rw [hnone] at hsel
      simp only [Option.isNone_none, if_true] at hsel
      rw [hk] at hsel
      simp only [Option.some.injEq] at hsel
      subst hsel
      obtain ⟨m, hm, hlast⟩ := path_last hmp
      exact ⟨m, pathStates s.tree mpath, hm, rfl, rfl, by simp [hnone], hlast⟩

/-- C13 (as amended): past seeding, when the loop ends with neither an exact solution
nor a best-approximate node, `solve` sets no path, leaves the goal record as it was and
returns the goal's `isAchieved` on that record: false when the goal did not count as
achieved before the call. -/
theorem nothing_found (P : Planner) (g : Goal) (draws : List Draw) (tree : List Motion)
    (goalRec : GoalRecord) (hg : P.goal = some g) (hwf : WellFormed tree)
    (hn : NearestOK P.nearest) (hne : seedRoots P tree ≠ []) :
    ∃ s r, searchLoop P g (computeRange P) draws (initLoop (seedRoots P tree)) = some s ∧
      solve P draws tree goalRec = some r ∧
      (s.solution = none → s.approxsol = none →
        r.chosen = none ∧ r.goalRec = goalRec ∧ r.tree = s.tree ∧
          r.ret = g.isAchieved goalRec ∧ (g.isAchieved goalRec = false → r.ret = false)) := by
  obtain ⟨r, hr⟩ := solve_total P draws tree goalRec hwf hn
  obtain ⟨s, hs⟩ := searchLoop_total g (computeRange P) hn draws (initLoop (seedRoots P tree))
    (by simpa [initLoop] using hne)
  refine ⟨s, r, hs, hr, ?_⟩
  intro hnone hno
  rcases solve_of_loop hg hne hs hr with ⟨_, _, rfl⟩ | ⟨i, mpath, hsel, _, _⟩
  · exact ⟨rfl, rfl, rfl, rfl, fun h => h⟩
  · rw [hnone] at hsel
    simp only [Option.isNone_none, if_true] at hsel
    rw [hno] at hsel
    exact absurd hsel (by simp)

/-! ## State export -/

theorem foldl_set_range (f : Nat → Option State) :
    ∀ (k : Nat) (l : List (Option State)), k ≤ l.length →
      (List.range k).foldl (fun st i => st.set i (f i)) l = (List.range k).map f ++ l.drop k := by
  intro k
  induction k with
  | zero => intro l _; simp
  | succ k ih =>
    intro l hk
    rw [List.range_succ, List.foldl_append, ih l (by omega)]
    simp only [List.foldl_cons, List.foldl_nil, List.map_append, List.map_cons, List.map_nil]
    have hlen : ((List.range k).map f).length = k := by simp
    have hd : l.drop k = l[k] :: l.drop (k + 1) :=
      List.drop_eq_getElem_cons (by omega : k < l.length)
    rw [List.set_append_right _ _ (by rw [hlen]), hlen, Nat.sub_self, hd]
    simp only [List.set_cons_zero, List.append_assoc, List.singleton_append]

theorem resizeStates_length (states : List (Option State)) (n : Nat) :
    (resizeStates states n).length = n := by
  simp only [resizeStates, List.length_append, List.length_take, List.length_replicate]
  omega

theorem range_map_stateAt (tree : List Motion) :
    (List.range tree.length).map (fun i => some (stateAt tree i)) =
      tree.map (fun m => some m.state) := by
  apply List.ext_getElem?
  intro i
  by_cases hi : i < tree.length
  · simp [List.getElem?_map, List.getElem?_range hi, List.getElem?_eq_getElem hi, stateAt]
  · have hle := not_lt.mp hi
    rw [List.getElem?_eq_none (by simpa using hle), List.getElem?_eq_none (by simpa using hle)]

/-- C17: for every tree and every previous content of the output vector, `getStates`
returns one entry per node, entry `i` being the configuration of node `i` in
enumeration order, and leaves the tree as it was. -/
theorem export_states (tree : List Motion) (states : List (Option State)) :
    (getStates tree states).1 = tree.map (fun m => some m.state) ∧
      (getStates tree states).1.length = tree.length ∧
      (∀ i : Fin tree.length,
        (getStates tree states).1[i.val]? = some (some (tree.get i).state)) ∧
      (getStates tree states).2 = tree := by
  have h1 : (getStates tree states).1 = tree.map (fun m => some m.state) := by
    unfold getStates
    simp only
    rw [foldl_set_range (fun i => some (stateAt tree i)) tree.length _
      (by rw [resizeStates_length]), range_map_stateAt,
      List.drop_of_length_le (by rw [resizeStates_length]), List.append_nil]
  refine ⟨h1, by rw [h1, List.length_map], ?_, rfl⟩
  intro i
  rw [h1, List.getElem?_map, List.getElem?_eq_getElem i.isLt]
  rfl

/-! ## One iteration, by cases of the motion check -/

theorem drawSample_events (P : Planner) (g : Goal) (d : Draw) :
    (drawSample P g d).2.filter Event.isGoalTest = [] ∧
      (drawSample P g d).2.filter Event.isMotionCheck = [] := by
  unfold drawSample
  split
  · split <;> exact ⟨rfl, rfl⟩
  · exact ⟨rfl, rfl⟩

/-- C19: an iteration whose motion check from the nearest node `nm` (index `ni`) to the
steered candidate `x` succeeds appends one node, with configuration `x` and parent
`ni`; among the collaborator calls it makes there is one motion check, on `x`, and one
goal test, on `x`. -/
theorem insert_step (P : Planner) (g : Goal) (range : List ℚ) (d : Draw) (s : LoopState)
    (ni : Nat) (nm : Motion) (x : State)
    (hni : ni = P.nearest s.tree (drawSample P g d).1) (hnm : s.tree[ni]? = some nm)
    (hx : x = steer P.dim P.rho range (drawSample P g d).1 nm.state)
    (hc : P.checkMotion nm.state x = true) :
    ∃ s1, iteration P g range d s = some s1 ∧
      s1.tree = s.tree ++ [⟨x, some ni⟩] ∧ s1.tree.length = s.tree.length + 1 ∧
      ∃ evs, s1.trace = s.trace ++ evs ∧
        evs.filter Event.isMotionCheck = [Event.motionCheck nm.state x] ∧
        evs.filter Event.isGoalTest = [Event.goalTest x] := by
  subst hni hx
  obtain ⟨s1, hs1⟩ : ∃ s1, iteration P g range d s = some s1 := by
    unfold iteration
    simp only [hnm, hc, if_true]
    by_cases h1 : (g.isSatisfied (steer P.dim P.rho range (drawSample P g d).1 nm.state)).1 = true
    · rw [if_pos h1]; exact ⟨_, rfl⟩
    · rw [if_neg h1]
      by_cases h2 : distLt (g.isSatisfied
          (steer P.dim P.rho range (drawSample P g d).1 nm.state)).2 s.approxdif = true
      · rw [if_pos h2]; exact ⟨_, rfl⟩
      · rw [if_neg h2]; exact ⟨_, rfl⟩
  obtain ⟨nm2, hnm2, hcase⟩ := iteration_spec hs1
  rw [hnm] at hnm2
  cases hnm2
  obtain ⟨he1, he2⟩ := drawSample_events P g d
  rcases hcase with ⟨hf, _⟩ | ⟨_, ht, htr, _⟩
  · rw [hf] at hc; exact absurd hc (by simp)
  · refine ⟨s1, hs1, ht, by rw [ht]; simp, ?_⟩
    refine ⟨(drawSample P g d).2 ++
      [Event.motionCheck nm.state (steer P.dim P.rho range (drawSample P g d).1 nm.state)] ++
      [Event.goalTest (steer P.dim P.rho range (drawSample P g d).1 nm.state)], ?_, ?_, ?_⟩
    · rw [htr]; simp only [List.append_assoc]
    · simp only [List.filter_append, he2]
      simp [List.filter, Event.isMotionCheck]
    · simp only [List.filter_append, he1]
      simp [List.filter, Event.isGoalTest]

/-- C20: an iteration whose motion check from the nearest node `nm` to the steered
candidate `x` fails leaves the tree, the exact-solution record and the best-approximate
node and distance as they were, makes no goal test, and the loop goes on with the
remaining draws. -/
theorem infeasible_segment (P : Planner) (g : Goal) (range : List ℚ) (d : Draw)
    (ds : List Draw) (s : LoopState) (ni : Nat) (nm : Motion) (x : State)
    (hni : ni = P.nearest s.tree (drawSample P g d).1) (hnm : s.tree[ni]? = some nm)
    (hx : x = steer P.dim P.rho range (drawSample P g d).1 nm.state)
    (hc : P.checkMotion nm.state x = false) (hsol : s.solution = none) :
    ∃ s1, iteration P g range d s = some s1 ∧
      s1.tree = s.tree ∧ s1.solution = s.solution ∧ s1.approxsol = s.approxsol ∧
      s1.approxdif = s.approxdif ∧
      (∃ evs, s1.trace = s.trace ++ evs ∧ evs.filter Event.isGoalTest = []) ∧
      searchLoop P g range (d :: ds) s = searchLoop P g range ds s1 := by
  subst hni hx
  have hit : iteration P g range d s =
      some ⟨s.tree, s.solution, s.approxsol, s.approxdif,
        s.trace ++ (drawSample P g d).2 ++
          [Event.motionCheck nm.state
            (steer P.dim P.rho range (drawSample P g d).1 nm.state)]⟩ := by
    unfold iteration
    simp only [hnm, hc, Bool.false_eq_true, if_false]
  obtain ⟨he1, _⟩ := drawSample_events P g d
  refine ⟨_, hit, rfl, rfl, rfl, rfl, ⟨(drawSample P g d).2 ++
      [Event.motionCheck nm.state (steer P.dim P.rho range (drawSample P g d).1 nm.state)],
      by simp only [List.append_assoc], ?_⟩, ?_⟩
  · simp only [List.filter_append, he1]
    simp [List.filter, Event.isGoalTest]
  · rw [searchLoop, hit]
    simp only [hsol, Option.isSome_none, Bool.false_eq_true, if_false]

/-! ## Further example runs -/

theorem farPlanner_solve :
    solve farPlanner [⟨0, [], [2]⟩, ⟨0, [], [8]⟩] [] emptyRecord = some farResult := by
  norm_num [solve, farPlanner, farGoal, emptyRecord, farResult, seedRoots, computeRange,
    initLoop, searchLoop, iteration, drawSample, steer, steerComponent, Planner.dim, distLt,
    collectPath, pathStates, stateAt, List.range, List.range.loop]

theorem exPlanner_again :
    solve exPlanner [] exResult.tree exResult.goalRec =
      some ⟨true, exResult.tree, exResult.goalRec, none, true, none, []⟩ := by
  norm_num [solve, exPlanner, exGoal, exResult, seedRoots, initLoop, searchLoop]

theorem exResult_wellFormed : WellFormed exResult.tree :=
  solve_wellFormed wellFormed_nil exPlanner_solve

/-- C13 as stated fails: a first call of the example planner leaves an approximate path
in the goal object; a second call on the same tree whose deadline has already passed
records neither an exact solution nor a best-approximate node, sets no path, and still
returns true, the value of the goal's `isAchieved` on the path of the first call. -/
theorem stale_goal_reported :
    solve exPlanner [exDraw] [] emptyRecord = some exResult ∧
      searchLoop exPlanner exGoal (computeRange exPlanner) []
          (initLoop (seedRoots exPlanner exResult.tree)) =
        some ⟨exResult.tree, none, none, none, []⟩ ∧
      solve exPlanner [] exResult.tree exResult.goalRec =
        some ⟨true, exResult.tree, exResult.goalRec, none, true, none, []⟩ :=
  ⟨exPlanner_solve, by norm_num [searchLoop, initLoop, seedRoots, exResult], exPlanner_again⟩

/-- Instance of C11: with samples `2` and `8` the planner `farPlanner` inserts node `2`
at goal distance `1/2`, then node `4` at distance `3/2`, which satisfies the goal. -/
theorem first_found_witness :
    solve farPlanner [⟨0, [], [2]⟩, ⟨0, [], [8]⟩] [] emptyRecord = some farResult ∧
      farResult.approximate = false ∧ farResult.chosen = some 2 ∧
      (farGoal.isSatisfied [2]).2 < (farGoal.isSatisfied [4]).2 ∧
      ∃ r, solve farPlanner [⟨0, [], [2]⟩, ⟨0, [], [8]⟩] [] emptyRecord = some r ∧
        ∀ i, r.approximate = false → r.chosen = some i →
          ∃ earlier m path, r.tree = seedRoots farPlanner [] ++ earlier ++ [m] ∧
            i = (seedRoots farPlanner []).length + earlier.length ∧ i + 1 = r.tree.length ∧
            (farGoal.isSatisfied m.state).1 = true ∧
            (∀ m2 ∈ earlier, (farGoal.isSatisfied m2.state).1 = false) ∧
            r.goalRec.path = some path ∧ path.getLast? = some m.state :=
  ⟨farPlanner_solve, rfl, rfl, by norm_num [farGoal, abs_div],
    first_found farPlanner farGoal [⟨0, [], [2]⟩, ⟨0, [], [8]⟩] [] emptyRecord rfl
      wellFormed_nil nearestOK_first⟩

/-- Instance of C12: the run of `farPlanner` that ends with an exact solution. -/
theorem result_marking_witness :
    ∃ s r, searchLoop farPlanner farGoal (computeRange farPlanner)
          [⟨0, [], [2]⟩, ⟨0, [], [8]⟩] (initLoop (seedRoots farPlanner [])) = some s ∧
      solve farPlanner [⟨0, [], [2]⟩, ⟨0, [], [8]⟩] [] emptyRecord = some r ∧
      (∀ k, s.solution = some k →
        ∃ m path, s.tree[k]? = some m ∧ (farGoal.isSatisfied m.state).1 = true ∧
          r.chosen = some k ∧
          r.goalRec = ⟨some path, false, some (farGoal.isSatisfied m.state).2⟩ ∧
          path.getLast? = some m.state) ∧
      ∀ k, s.solution = none → s.approxsol = some k →
        ∃ m path, s.tree[k]? = some m ∧ r.chosen = some k ∧
          r.goalRec.path = some path ∧ r.goalRec.approximate = true ∧
          path.getLast? = some m.state :=
  result_marking farPlanner farGoal [⟨0, [], [2]⟩, ⟨0, [], [8]⟩] [] emptyRecord rfl
    wellFormed_nil nearestOK_first (by simp [seedRoots, farPlanner])

/-- Instance of C13 (as amended): a call with no iteration on the tree of the example
run, with a goal object that holds no path. -/
theorem nothing_found_witness :
    exGoal.isAchieved emptyRecord = false ∧
      ∃ s r, searchLoop exPlanner exGoal (computeRange exPlanner) []
            (initLoop (seedRoots exPlanner exResult.tree)) = some s ∧
        solve exPlanner [] exResult.tree emptyRecord = some r ∧
        (s.solution = none → s.approxsol = none →
          r.chosen = none ∧ r.goalRec = emptyRecord ∧ r.tree = s.tree ∧
            r.ret = exGoal.isAchieved emptyRecord ∧
            (exGoal.isAchieved emptyRecord = false → r.ret = false)) :=
  ⟨rfl, nothing_found exPlanner exGoal [] exResult.tree emptyRecord rfl exResult_wellFormed
    nearestOK_first (by simp [seedRoots, exResult])⟩

/-- Instance of C14: a second call on the tree of the example run. -/
theorem tree_grows_only_witness :
    ∃ r, solve exPlanner [exDraw] exResult.tree emptyRecord = some r ∧
      (∃ added, r.tree = exResult.tree ++ added) ∧
      ∀ (i : Nat) (m : Motion), exResult.tree[i]? = some m → r.tree[i]? = some m :=
  tree_grows_only exPlanner [exDraw] exResult.tree emptyRecord exResult_wellFormed
    nearestOK_first

/-- Instance of C15: the tree of the example run. -/
theorem parent_before_child_witness :
    (∀ (i : Nat) (m : Motion), exResult.tree[i]? = some m → ∀ p : Nat, m.parent = some p →
        p < i ∧ ∃ pm, exResult.tree[p]? = some pm) ∧
      (∀ i, i < exResult.tree.length →
        ∃ mpath root dep, collectPath exResult.tree exResult.tree.length (some i) = some mpath ∧
          mpath.head? = some i ∧ mpath.getLast? = some root ∧ IsRoot exResult.tree root ∧
          List.Chain' (fun c p => IsChildOf exResult.tree p c ∧ p < c) mpath ∧
          HasDepth exResult.tree i dep ∧ mpath.length = dep + 1 ∧ dep ≤ i) ∧
      ∀ (P : Planner) (draws : List Draw) (goalRec : GoalRecord), NearestOK P.nearest →
        ∃ r, solve P draws exResult.tree goalRec = some r :=
  parent_before_child exResult.tree
    (Reachable.call exPlanner [exDraw] [] emptyRecord exResult Reachable.empty trivial
      exPlanner_solve)

/-- Instance of C16: the space `[0, 10]` with `rho = 1/2`. -/
theorem range_value_witness :
    (computeRange exPlanner).length = exPlanner.dim ∧
      (computeRange exPlanner)[0]? = some (exPlanner.rho * ((10 : ℚ) - 0)) ∧
      (0 < exPlanner.rho → exPlanner.rho ≤ 1 → (0 : ℚ) < 10 →
        0 < exPlanner.rho * ((10 : ℚ) - 0) ∧ exPlanner.rho * ((10 : ℚ) - 0) ≤ 10 - 0) :=
  range_value exPlanner 0 ⟨0, 10⟩ (by simp [exPlanner])

/-- Instance of C18: a second call on the tree of the example run. -/
theorem tree_persists_witness :
    seedRoots exPlanner exResult.tree = exResult.tree ∧
      ∃ r added, solve exPlanner [exDraw] exResult.tree emptyRecord = some r ∧
        r.tree = exResult.tree ++ added ∧
        (∀ (j : Nat) (m : Motion), added[j]? = some m →
          ∃ p, m.parent = some p ∧ p < exResult.tree.length + j) ∧
        ∀ i, IsRoot r.tree i ↔ IsRoot exResult.tree i :=
  tree_persists exPlanner [exDraw] exResult.tree emptyRecord (by simp [exResult])
    exResult_wellFormed nearestOK_first

/-- Instance of C19: the iteration with sample `8` on the tree holding the root `0`. -/
theorem insert_step_witness :
    ∃ s1, iteration exPlanner exGoal (computeRange exPlanner) exDraw
          (initLoop [⟨[0], none⟩]) = some s1 ∧
      s1.tree = (initLoop [⟨[0], none⟩]).tree ++ [⟨[4], some 0⟩] ∧
      s1.tree.length = (initLoop [⟨[0], none⟩]).tree.length + 1 ∧
      ∃ evs, s1.trace = (initLoop [⟨[0], none⟩]).trace ++ evs ∧
        evs.filter Event.isMotionCheck = [Event.motionCheck [0] [4]] ∧
        evs.filter Event.isGoalTest = [Event.goalTest [4]] :=
  insert_step exPlanner exGoal (computeRange exPlanner) exDraw (initLoop [⟨[0], none⟩]) 0
    ⟨[0], none⟩ [4] rfl (by simp [initLoop])
    (by norm_num [exPlanner, exGoal, exDraw, computeRange, drawSample, steer, steerComponent,
      Planner.dim, List.range, List.range.loop])
    rfl

/-- Instance of C20: the same iteration with a motion check that rejects everything. -/
theorem infeasible_segment_witness :
    ∃ s1, iteration blockedPlanner exGoal (computeRange blockedPlanner) exDraw
          (initLoop [⟨[0], none⟩]) = some s1 ∧
      s1.tree = (initLoop [⟨[0], none⟩]).tree ∧
      s1.solution = (initLoop [⟨[0], none⟩]).solution ∧
      s1.approxsol = (initLoop [⟨[0], none⟩]).approxsol ∧
      s1.approxdif = (initLoop [⟨[0], none⟩]).approxdif ∧
      (∃ evs, s1.trace = (initLoop [⟨[0], none⟩]).trace ++ evs ∧
        evs.filter Event.isGoalTest = []) ∧
      searchLoop blockedPlanner exGoal (computeRange blockedPlanner) [exDraw, exDraw]
          (initLoop [⟨[0], none⟩]) =
        searchLoop blockedPlanner exGoal (computeRange blockedPlanner) [exDraw] s1 :=
  infeasible_segment blockedPlanner exGoal (computeRange blockedPlanner) exDraw [exDraw]
    (initLoop [⟨[0], none⟩]) 0 ⟨[0], none⟩ [4] rfl (by simp [initLoop])
    (by norm_num [blockedPlanner, exGoal, exDraw, computeRange, drawSample, steer,
      steerComponent, Planner.dim, List.range, List.range.loop])
    rfl rfl

/-! ## Sampling -/

/-- C21: the sample of an iteration is the goal sampler's exactly when the goal can be
sampled and the `uniform01` value is below `goalBias`, and the space sampler's in every
other case; a goal that cannot be sampled makes no `uniform01` call; with
`goalBias = 0` (and `uniform01` values that are not negative) the goal is never
sampled; the iteration makes these sampling calls first and no other. -/
theorem goal_biased_sampling (P : Planner) (g : Goal) (d : Draw) (hu : 0 ≤ d.u01) :
    (g.canSample = true ∧ d.u01 < P.goalBias →
        drawSample P g d = (d.goalSample, [Event.uniform01, Event.sampleGoal])) ∧
      (¬ (g.canSample = true ∧ d.u01 < P.goalBias) →
        (drawSample P g d).1 = d.coreSample ∧ Event.sampleGoal ∉ (drawSample P g d).2 ∧
          Event.sampleSpace ∈ (drawSample P g d).2) ∧
      (g.canSample = false → drawSample P g d = (d.coreSample, [Event.sampleSpace])) ∧
      (P.goalBias = 0 →
        (drawSample P g d).1 = d.coreSample ∧ Event.sampleGoal ∉ (drawSample P g d).2) ∧
      ∀ (range : List ℚ) (s s1 : LoopState), iteration P g range d s = some s1 →
        ∃ rest, s1.trace = s.trace ++ (drawSample P g d).2 ++ rest ∧
          ∀ e ∈ rest, e ≠ Event.uniform01 ∧ e ≠ Event.sampleGoal ∧ e ≠ Event.sampleSpace := by
  refine ⟨?_, ?_, ?_, ?_, ?_⟩
  · rintro ⟨hc, hlt⟩
    simp [drawSample, hc, hlt]
  · intro hnot
    unfold drawSample
    by_cases hc : g.canSample = true
    · have hlt : ¬ d.u01 < P.goalBias := fun h => hnot ⟨hc, h⟩
      simp [hc, hlt]
    · simp [hc]
  · intro hc
    simp [drawSample, hc]
  · intro h0
    have hlt : ¬ d.u01 < P.goalBias := by rw [h0]; exact not_lt.mpr hu
    unfold drawSample
    by_cases hc : g.canSample = true
    · simp [hc, hlt]
    · simp [hc]
  · intro range s s1 h
    obtain ⟨nm, _, hcase⟩ := iteration_spec h
    rcases hcase with ⟨_, rfl⟩ | ⟨_, _, htr, _⟩
    · refine ⟨_, rfl, ?_⟩
      intro e he
      simp only [List.mem_singleton] at he
      subst he
      exact ⟨by simp, by simp, by simp⟩
    · refine ⟨[Event.motionCheck nm.state
          (steer P.dim P.rho range (drawSample P g d).1 nm.state),
        Event.goalTest (steer P.dim P.rho range (drawSample P g d).1 nm.state)], ?_, ?_⟩
      · rw [htr]; simp
      · intro e he
        simp only [List.mem_cons, List.mem_singleton, List.not_mem_nil, or_false] at he
        rcases he with rfl | rfl <;> exact ⟨by simp, by simp, by simp⟩

/-- Instance of C21: a goal that can be sampled, `goalBias = 1/2`, `uniform01 = 1/4`. -/
theorem goal_biased_sampling_witness :
    drawSample biasPlanner biasGoal biasDraw = ([10], [Event.uniform01, Event.sampleGoal]) ∧
      drawSample exPlanner exGoal biasDraw = ([3], [Event.sampleSpace]) :=
  ⟨(goal_biased_sampling biasPlanner biasGoal biasDraw (by norm_num [biasDraw])).1
      ⟨rfl, by norm_num [biasDraw, biasPlanner]⟩,
    (goal_biased_sampling exPlanner exGoal biasDraw (by norm_num [biasDraw])).2.2.1 rfl⟩

/-! ## Goal tests are made on inserted nodes only -/

theorem iteration_goalTestsInv {P : Planner} {g : Goal} {range : List ℚ} {d : Draw}
    {t0 : List Motion} {s s1 : LoopState} (hinv : GoalTestsInv t0 s)
    (h : iteration P g range d s = some s1) : GoalTestsInv t0 s1 := by
  obtain ⟨ext, hext, htests, hnil⟩ := hinv
  obtain ⟨nm, _, hcase⟩ := iteration_spec h
  obtain ⟨he1, _⟩ := drawSample_events P g d
  generalize steer P.dim P.rho range (drawSample P g d).1 nm.state = x at hcase
  generalize P.nearest s.tree (drawSample P g d).1 = ni at hcase
  rcases hcase with ⟨_, rfl⟩ | ⟨_, ht, htr, _⟩
  · refine ⟨ext, hext, ?_, hnil⟩
    simp only [List.filter_append, htests, he1, List.append_nil]
    simp [List.filter, Event.isGoalTest]
  · refine ⟨ext ++ [⟨x, some ni⟩], by rw [ht, hext, List.append_assoc], ?_, ?_⟩
    · rw [htr]
      simp only [List.filter_append, htests, he1, List.append_nil, List.map_append]
      simp [List.filter, Event.isGoalTest]
    · intro hcon
      simp at hcon

theorem searchLoop_goalTestsInv {P : Planner} {g : Goal} {range : List ℚ} {draws : List Draw}
    {t0 : List Motion} {s : LoopState}
    (h : searchLoop P g range draws (initLoop t0) = some s) : GoalTestsInv t0 s := by
  refine searchLoop_inv (GoalTestsInv t0) (fun d st st1 _ h2 h3 => iteration_goalTestsInv h2 h3)
    draws _ s rfl ?_ h
  exact ⟨[], by simp [initLoop], by simp [initLoop], fun _ => ⟨rfl, rfl⟩⟩

/-- C24: on a well-formed tree `solve` returns; the goal tests it made are those of the
nodes its loop inserted, in order, so none is made on a root; when the loop inserts no
node, as when it runs no iteration, no path is set, the goal record is as before and
the tree is the seeded tree. -/
theorem roots_not_tested (P : Planner) (g : Goal) (draws : List Draw) (tree : List Motion)
    (goalRec : GoalRecord) (hg : P.goal = some g) (hwf : WellFormed tree)
    (hn : NearestOK P.nearest) :
    ∃ r added, solve P draws tree goalRec = some r ∧ r.tree = seedRoots P tree ++ added ∧
      r.trace.filter Event.isGoalTest = added.map (fun m => Event.goalTest m.state) ∧
      (added = [] → r.chosen = none ∧ r.goalRec = goalRec ∧ r.tree = seedRoots P tree) ∧
      (draws = [] → added = []) := by
  obtain ⟨r, hr⟩ := solve_total P draws tree goalRec hwf hn
  rcases solve_spec hr with ⟨hnone, _⟩ | ⟨g2, hg2, ⟨hnil, rfl⟩ | ⟨hne, s, hs, hres⟩⟩
  · rw [hg] at hnone; exact absurd hnone (by simp)
  · exact ⟨_, [], hr, by simp [hnil], rfl, fun _ => ⟨rfl, rfl, by simp [hnil]⟩, fun _ => rfl⟩
  · obtain ⟨ext, hext, htests, hnil⟩ := searchLoop_goalTestsInv hs
    have hdraws : draws = [] → ext = [] := by
      intro hd
      subst hd
      simp only [searchLoop, Option.some.injEq] at hs
      rw [← hs] at hext
      simpa [initLoop] using hext.symm
    rcases hres with ⟨_, _, rfl⟩ | ⟨i, mpath, hsel, _, rfl⟩
    · exact ⟨_, ext, hr, hext, htests, fun _ => ⟨rfl, rfl, by simp [hext, *]⟩, hdraws⟩
    · refine ⟨_, ext, hr, hext, htests, ?_, hdraws⟩
      intro he
      obtain ⟨h1, h2⟩ := hnil he
      rw [h1] at hsel
      simp only [Option.isNone_none, if_true] at hsel
      rw [h2] at hsel
      exact absurd hsel (by simp)

/-- Instance of C24: the root `0` satisfies the goal `anyGoal`, and a call with no
iteration sets no path. -/
theorem roots_not_tested_witness :
    (anyGoal.isSatisfied [0]).1 = true ∧
      ∃ r added, solve anyPlanner [] [] emptyRecord = some r ∧
        r.tree = seedRoots anyPlanner [] ++ added ∧
        r.trace.filter Event.isGoalTest = added.map (fun m => Event.goalTest m.state) ∧
        (added = [] → r.chosen = none ∧ r.goalRec = emptyRecord ∧
          r.tree = seedRoots anyPlanner []) ∧
        (([] : List Draw) = [] → added = []) :=
  ⟨rfl, roots_not_tested anyPlanner anyGoal [] [] emptyRecord rfl wellFormed_nil
    nearestOK_first⟩

/-! ## Bounds -/

theorem searchLoop_inv_on {P : Planner} {g : Goal} {range : List ℚ} (Inv : LoopState → Prop) :
    ∀ (draws : List Draw),
      (∀ d ∈ draws, ∀ s s1, s.solution = none → Inv s →
        iteration P g range d s = some s1 → Inv s1) →
      ∀ (s s2 : LoopState), s.solution = none → Inv s →
        searchLoop P g range draws s = some s2 → Inv s2 := by
  intro draws
  induction draws with
  | nil =>
    intro _ s s2 _ hI h
    simp only [searchLoop, Option.some.injEq] at h
    exact h ▸ hI
  | cons d ds ih =>
    intro hstep s s2 hsol hI h
    unfold searchLoop at h
    split at h
    · exact absurd h (by simp)
    · rename_i s1 hit
      have hI1 := hstep d (List.mem_cons_self d ds) s s1 hsol hI hit
      split at h
      · simp only [Option.some.injEq] at h
        exact h ▸ hI1
      · rename_i hns
        have hnone : s1.solution = none := by
          cases hs : s1.solution with
          | none => rfl
          | some v => simp [hs] at hns
        exact ih (fun d2 hd2 => hstep d2 (List.mem_cons_of_mem d hd2)) s1 s2 hnone hI1 h

theorem getElem_lt_length' {α : Type} {l : List α} {i : Nat} {a : α} (h : l[i]? = some a) :
    i < l.length := by
  by_contra hcon
  rw [List.getElem?_eq_none (not_lt.mp hcon)] at h
  exact absurd h (by simp)

theorem steerComponent_between {rho range r n lo hi : ℚ} (h0 : 0 < rho) (h1 : rho ≤ 1)
    (hr : lo ≤ r ∧ r ≤ hi) (hn : lo ≤ n ∧ n ≤ hi) :
    lo ≤ steerComponent rho range r n ∧ steerComponent rho range r n ≤ hi := by
  unfold steerComponent
  simp only
  split
  · exact hr
  · constructor
    · by_cases hrn : n ≤ r
      · nlinarith [mul_nonneg (sub_nonneg.mpr hrn) (le_of_lt h0)]
      · have : r - n < 0 := by linarith
        nlinarith [mul_nonneg (sub_nonneg.mpr h1) (le_of_lt (neg_pos.mpr this))]
    · by_cases hrn : n ≤ r
      · nlinarith [mul_nonneg (sub_nonneg.mpr hrn) (sub_nonneg.mpr h1)]
      · have : r - n < 0 := by linarith
        nlinarith [mul_nonneg (le_of_lt (neg_pos.mpr this)) (le_of_lt h0)]

theorem steer_inBounds {P : Planner} {r n : State} (h0 : 0 < P.rho) (h1 : P.rho ≤ 1)
    (hr : InBounds P.components r) (hn : InBounds P.components n) :
    InBounds P.components (steer P.dim P.rho (computeRange P) r n) ∧
      StepWithin P n (steer P.dim P.rho (computeRange P) r n) := by
  constructor
  · intro i c hc
    have hi : i < P.dim := getElem_lt_length' hc
    rw [steer_getD _ _ _ _ _ _ hi]
    exact steerComponent_between h0 h1 (hr i c hc) (hn i c hc)
  · intro i c hc
    have hi : i < P.dim := getElem_lt_length' hc
    rw [steer_getD _ _ _ _ _ _ hi, computeRange_getD P i c hc]
    refine steerComponent_within h0 ?_
    have hr1 := hr i c hc
    have hn1 := hn i c hc
    rw [abs_le]
    constructor <;> linarith

theorem iteration_boundsInv {P : Planner} {g : Goal} {d : Draw} {t0 : List Motion}
    {s s1 : LoopState} (h0 : 0 < P.rho) (h1 : P.rho ≤ 1)
    (hd : InBounds P.components (drawSample P g d).1) (hinv : BoundsInv P t0 s)
    (h : iteration P g (computeRange P) d s = some s1) : BoundsInv P t0 s1 := by
  obtain ⟨ext, hext, hall, hpar⟩ := hinv
  obtain ⟨nm, hnm, hcase⟩ := iteration_spec h
  have hnmb : InBounds P.components nm.state := hall nm (List.getElem?_mem hnm)
  obtain ⟨hxb, hxs⟩ := steer_inBounds h0 h1 hd hnmb
  generalize steer P.dim P.rho (computeRange P) (drawSample P g d).1 nm.state = x at hcase hxb hxs
  generalize P.nearest s.tree (drawSample P g d).1 = ni at hcase hnm
  have hni : ni < s.tree.length := getElem_lt_length hnm
  rcases hcase with ⟨_, rfl⟩ | ⟨_, ht, _, _⟩
  · exact ⟨ext, hext, hall, hpar⟩
  · refine ⟨ext ++ [⟨x, some ni⟩], by rw [ht, hext, List.append_assoc], ?_, ?_⟩
    · intro m hm
      rw [ht] at hm
      rcases List.mem_append.mp hm with hm | hm
      · exact hall m hm
      · simp only [List.mem_singleton] at hm
        subst hm
        exact hxb
    · intro j m hm
      rcases getElem_append_single hm with ⟨_, hj⟩ | ⟨hj, rfl⟩
      · obtain ⟨hb, p, pm, hp, hlt, hpm, hstep⟩ := hpar j m hj
        refine ⟨hb, p, pm, hp, hlt, ?_, hstep⟩
        rw [ht, List.getElem?_append_left (getElem_lt_length hpm)]
        exact hpm
      · refine ⟨hxb, ni, nm, rfl, ?_, ?_, hxs⟩
        · rw [hext, List.length_append] at hni
          omega
        · rw [ht, List.getElem?_append_left hni]
          exact hnm

/-- C23: with `rho` in `(0,1]`, a tree whose nodes after seeding (the roots, and the
nodes kept from earlier calls) lie within the bounds, and samples within the bounds,
`solve` returns and every node it inserts lies within the bounds and is within
`range[i] = rho * (maxValue[i] - minValue[i])` of its parent in each dimension. -/
theorem bounds_invariant (P : Planner) (g : Goal) (draws : List Draw) (tree : List Motion)
    (goalRec : GoalRecord) (hg : P.goal = some g) (hwf : WellFormed tree)
    (hn : NearestOK P.nearest) (h0 : 0 < P.rho) (h1 : P.rho ≤ 1)
    (hroots : ∀ m ∈ seedRoots P tree, InBounds P.components m.state)
    (hdraws : ∀ d ∈ draws, InBounds P.components (drawSample P g d).1) :
    ∃ r added, solve P draws tree goalRec = some r ∧ r.tree = seedRoots P tree ++ added ∧
      ∀ (j : Nat) (m : Motion), added[j]? = some m →
        InBounds P.components m.state ∧
        ∃ p pm, m.parent = some p ∧ p < (seedRoots P tree).length + j ∧
          r.tree[p]? = some pm ∧ StepWithin P pm.state m.state := by
  obtain ⟨r, hr⟩ := solve_total P draws tree goalRec hwf hn
  rcases solve_spec hr with ⟨hnone, _⟩ | ⟨g2, hg2, ⟨hnil, rfl⟩ | ⟨hne, s, hs, hres⟩⟩
  · rw [hg] at hnone; exact absurd hnone (by simp)
  · exact ⟨_, [], hr, by simp [hnil], fun j m hm => absurd hm (by simp)⟩
  · rw [hg] at hg2
    cases hg2
    have hinv : BoundsInv P (seedRoots P tree) s := by
      refine searchLoop_inv_on (BoundsInv P (seedRoots P tree)) draws ?_ _ s rfl ?_ hs
      · intro d hd st st1 _ hI hit
        exact iteration_boundsInv h0 h1 (hdraws d hd) hI hit
      · exact ⟨[], by simp [initLoop], by simpa [initLoop] using hroots,
          fun j m hm => absurd hm (by simp)⟩
    obtain ⟨ext, hext, _, hpar⟩ := hinv
    have htree : r.tree = s.tree := by
      rcases hres with ⟨_, _, rfl⟩ | ⟨i, mpath, _, _, rfl⟩ <;> rfl
    refine ⟨r, ext, hr, by rw [htree, hext], ?_⟩
    intro j m hm
    rw [htree]
    exact hpar j m hm

/-- Instance of C23: the example call on `[0, 10]`, root `0`, sample `8`. -/
theorem bounds_invariant_witness :
    ∃ r added, solve exPlanner [exDraw] [] emptyRecord = some r ∧
      r.tree = seedRoots exPlanner [] ++ added ∧
      ∀ (j : Nat) (m : Motion), added[j]? = some m →
        InBounds exPlanner.components m.state ∧
        ∃ p pm, m.parent = some p ∧ p < (seedRoots exPlanner []).length + j ∧
          r.tree[p]? = some pm ∧ StepWithin exPlanner pm.state m.state :=
  bounds_invariant exPlanner exGoal [exDraw] [] emptyRecord rfl wellFormed_nil
    nearestOK_first (by norm_num [exPlanner]) (by norm_num [exPlanner])
    (by
      intro m hm
      simp only [seedRoots, exPlanner, List.length_nil, if_true, List.foldl_cons,
        List.foldl_nil, Bool.and_self, List.nil_append, List.mem_singleton] at hm
      subst hm
      intro i c hc
      have hi : i = 0 := by
        have := getElem_lt_length' hc
        simp [exPlanner] at this
        exact this
      subst hi
      simp only [exPlanner, List.getElem?_cons_zero, Option.some.injEq] at hc
      subst hc
      norm_num)
    (by
      intro d hd
      simp only [List.mem_singleton] at hd
      subst hd
      intro i c hc
      have hi : i = 0 := by
        have := getElem_lt_length' hc
        simp [exPlanner] at this
        exact this
      subst hi
      simp only [exPlanner, List.getElem?_cons_zero, Option.some.injEq] at hc
      subst hc
      norm_num [drawSample, exGoal, exDraw])

/-! ## The one-dimensional scenario -/

theorem iteration_sample {P : Planner} {g : Goal} {range : List ℚ} (d d2 : Draw)
    (s : LoopState) (h : drawSample P g d = drawSample P g d2) :
    iteration P g range d s = iteration P g range d2 s := by
  unfold iteration
  rw [h]

theorem scenario_sample (rho : ℚ) (nearest : List Motion → State → Nat) (d : Draw)
    (hd : d.coreSample = [10]) :
    drawSample (scenario rho nearest) exGoal d = ([10], [Event.sampleSpace]) := by
  simp [drawSample, exGoal, hd]

theorem scenario_steer (rho : ℚ) (nearest : List Motion → State → Nat) (st : State) :
    steer (scenario rho nearest).dim (scenario rho nearest).rho
        (computeRange (scenario rho nearest)) [10] st =
      [steerComponent rho (rho * 10) 10 (st.getD 0 0)] := by
  simp [steer, scenario, computeRange, Planner.dim, List.range, List.range.loop]

theorem steerComponent_gap {rho v : ℚ} (h1 : rho ≤ 1) (hv : v ≤ 10) :
    steerComponent rho (rho * 10) 10 v ≤ 10 ∧
      10 - steerComponent rho (rho * 10) 10 v ≤ (10 - v) * (1 - rho) := by
  have hnn : 0 ≤ (10 - v) * (1 - rho) :=
    mul_nonneg (sub_nonneg.mpr hv) (sub_nonneg.mpr h1)
  unfold steerComponent
  simp only
  split
  · exact ⟨le_refl _, by linarith⟩
  · constructor <;> nlinarith

theorem nearestMin_ok {nearest : List Motion → State → Nat} (hn : NearestMin nearest) :
    NearestOK nearest := by
  intro t q hne
  obtain ⟨nm, hnm, _⟩ := hn t q hne
  exact getElem_lt_length hnm

theorem scenario_step (rho : ℚ) (nearest : List Motion → State → Nat)
    (h1 : rho ≤ 1) (hn : NearestMin nearest) (B : ℚ) (s : LoopState) (d : Draw)
    (hd : d.coreSample = [10]) (hne : s.tree ≠ [])
    (hall : ∀ m ∈ s.tree, m.state.getD 0 0 ≤ 10)
    (hB : ∃ m ∈ s.tree, 10 - m.state.getD 0 0 ≤ B) (hsol : s.solution = none) :
    ∃ s1 c ni, iteration (scenario rho nearest) exGoal (computeRange (scenario rho nearest))
          d s = some s1 ∧
      s1.tree = s.tree ++ [⟨[c], some ni⟩] ∧ c ≤ 10 ∧ 10 - c ≤ B * (1 - rho) ∧
      ((10 - c < 1 / 2 ∧ s1.solution = some s.tree.length) ∨
        (1 / 2 ≤ 10 - c ∧ s1.solution = none)) := by
  have hok : NearestOK (scenario rho nearest).nearest := nearestMin_ok hn
  obtain ⟨s1, hs1⟩ := iteration_total exGoal (computeRange (scenario rho nearest)) d s hok hne
  obtain ⟨nm, hnm, hcase⟩ := iteration_spec hs1
  rw [scenario_sample rho nearest d hd] at hnm hcase
  simp only at hnm hcase
  rw [scenario_steer] at hcase
  obtain ⟨nm2, hnm2, hmin⟩ := hn s.tree [10] hne
  have hnmeq : nm2 = nm := by
    have : (scenario rho nearest).nearest = nearest := rfl
    rw [this] at hnm
    rw [hnm] at hnm2
    exact (Option.some.inj hnm2).symm
  subst hnmeq
  have hv : nm2.state.getD 0 0 ≤ 10 := hall nm2 (List.getElem?_mem hnm)
  obtain ⟨mB, hmB, hgapB⟩ := hB
  have hgap : 10 - nm2.state.getD 0 0 ≤ B := by
    have h := hmin mB hmB
    have hvB := hall mB hmB
    simp only [List.getD_cons_zero] at h
    rw [abs_of_nonpos (by linarith), abs_of_nonpos (by linarith)] at h
    linarith
  obtain ⟨hc10, hcgap⟩ := steerComponent_gap h1 hv
  have hcB : 10 - steerComponent rho (rho * 10) 10 (nm2.state.getD 0 0) ≤ B * (1 - rho) :=
    le_trans hcgap (mul_le_mul_of_nonneg_right hgap (sub_nonneg.mpr h1))
  generalize steerComponent rho (rho * 10) 10 (nm2.state.getD 0 0) = c at hcase hc10 hcB
  have habs : |c - 10| = 10 - c := by
    rw [abs_of_nonpos (by linarith)]; ring
  refine ⟨s1, c, (scenario rho nearest).nearest s.tree [10], hs1, ?_, hc10, hcB, ?_⟩
  · rcases hcase with ⟨hf, _⟩ | ⟨_, ht, _, _⟩
    · simp [scenario] at hf
    · exact ht
  · rcases hcase with ⟨hf, _⟩ | ⟨_, _, _, hrec⟩
    · simp [scenario] at hf
    · rcases hrec with ⟨hsat, h1s, _, _⟩ | ⟨hsat, _, h1s, _, _⟩ | ⟨hsat, _, h1s, _, _⟩
      · left
        simp only [exGoal, List.getD_cons_zero, decide_eq_true_eq] at hsat
        rw [habs] at hsat
        exact ⟨hsat, h1s⟩
      · right
        simp only [exGoal, List.getD_cons_zero, decide_eq_false_iff_not, not_lt] at hsat
        rw [habs] at hsat
        exact ⟨hsat, by rw [h1s, hsol]⟩
      · right
        simp only [exGoal, List.getD_cons_zero, decide_eq_false_iff_not, not_lt] at hsat
        rw [habs] at hsat
        exact ⟨hsat, by rw [h1s, hsol]⟩

theorem scenario_loop (rho : ℚ) (nearest : List Motion → State → Nat) (h1 : rho ≤ 1)
    (hn : NearestMin nearest) :
    ∀ (K : Nat) (B : ℚ) (s : LoopState), s.tree ≠ [] →
      (∀ m ∈ s.tree, m.state.getD 0 0 ≤ 10) →
      (∃ m ∈ s.tree, 10 - m.state.getD 0 0 ≤ B) → s.solution = none →
      B * (1 - rho) ^ (K + 1) < 1 / 2 →
      ∃ n, 1 ≤ n ∧ n ≤ K + 1 ∧
        ∀ draws : List Draw, n ≤ draws.length → (∀ d ∈ draws, d.coreSample = [10]) →
          ∃ s2 x p, searchLoop (scenario rho nearest) exGoal
                (computeRange (scenario rho nearest)) draws s = some s2 ∧
            s2.tree.length = s.tree.length + n ∧
            s2.solution = some (s.tree.length + n - 1) ∧
            s2.tree[s.tree.length + n - 1]? = some ⟨[x], p⟩ ∧ |x - 10| < 1 / 2 := by
  intro K
  induction K with
  | zero =>
    intro B s hne hall hB hsol hK
    obtain ⟨s1, c, ni, hs1, ht, hc10, hcB, hcase⟩ :=
      scenario_step rho nearest h1 hn B s ⟨0, [], [10]⟩ rfl hne hall hB hsol
    have hlt : 10 - c < 1 / 2 := by
      simp only [zero_add, pow_one] at hK
      linarith
    have hsolved : s1.solution = some s.tree.length := by
      rcases hcase with ⟨_, h⟩ | ⟨h, _⟩
      · exact h
      · linarith
    refine ⟨1, le_refl 1, le_refl 1, ?_⟩
    intro draws hlen hdraws
    cases draws with
    | nil => simp at hlen
    | cons d ds =>
      have hd := hdraws d (List.mem_cons_self _ _)
      have hit : iteration (scenario rho nearest) exGoal (computeRange (scenario rho nearest))
          d s = some s1 := by
        rw [iteration_sample d ⟨0, [], [10]⟩ s
          (by rw [scenario_sample rho nearest d hd, scenario_sample rho nearest _ rfl])]
        exact hs1
      refine ⟨s1, c, some ni, ?_, by rw [ht]; simp, by rw [hsolved]; simp, ?_, ?_⟩
      · unfold searchLoop
        rw [hit]
        simp [hsolved]
      · rw [ht, Nat.add_sub_cancel, List.getElem?_append_right (le_refl _)]
        simp
      · rw [abs_of_nonpos (by linarith)]
        linarith
  | succ K ih =>
    intro B s hne hall hB hsol hK
    obtain ⟨s1, c, ni, hs1, ht, hc10, hcB, hcase⟩ :=
      scenario_step rho nearest h1 hn B s ⟨0, [], [10]⟩ rfl hne hall hB hsol
    have hstep : ∀ d : Draw, d.coreSample = [10] →
        iteration (scenario rho nearest) exGoal (computeRange (scenario rho nearest))
          d s = some s1 := by
      intro d hd
      rw [iteration_sample d ⟨0, [], [10]⟩ s
        (by rw [scenario_sample rho nearest d hd, scenario_sample rho nearest _ rfl])]
      exact hs1
    rcases hcase with ⟨hlt, hsolved⟩ | ⟨hge, hnone⟩
    · refine ⟨1, le_refl 1, by omega, ?_⟩
      intro draws hlen hdraws
      cases draws with
      | nil => simp at hlen
      | cons d ds =>
        have hit := hstep d (hdraws d (List.mem_cons_self _ _))
        refine ⟨s1, c, some ni, ?_, by rw [ht]; simp, by rw [hsolved]; simp, ?_, ?_⟩
        · unfold searchLoop
          rw [hit]
          simp [hsolved]
        · rw [ht, Nat.add_sub_cancel, List.getElem?_append_right (le_refl _)]
          simp
        · rw [abs_of_nonpos (by linarith)]
          linarith
    · have hne1 : s1.tree ≠ [] := by rw [ht]; simp
      have hall1 : ∀ m ∈ s1.tree, m.state.getD 0 0 ≤ 10 := by
        intro m hm
        rw [ht] at hm
        rcases List.mem_append.mp hm with hm | hm
        · exact hall m hm
        · simp only [List.mem_singleton] at hm
          subst hm
          simpa using hc10
      have hB1 : ∃ m ∈ s1.tree, 10 - m.state.getD 0 0 ≤ B * (1 - rho) :=
        ⟨⟨[c], some ni⟩, by rw [ht]; simp, by simpa using hcB⟩
      have hK1 : B * (1 - rho) * (1 - rho) ^ (K + 1) < 1 / 2 := by
        have : B * (1 - rho) * (1 - rho) ^ (K + 1) = B * (1 - rho) ^ (K + 1 + 1) := by ring
        rw [this]
        exact hK
      obtain ⟨n, hn1, hn2, hrun⟩ := ih (B * (1 - rho)) s1 hne1 hall1 hB1 hnone hK1
      have hlen1 : s1.tree.length = s.tree.length + 1 := by rw [ht]; simp
      refine ⟨n + 1, by omega, by omega, ?_⟩
      intro draws hlen hdraws
      cases draws with
      | nil => simp at hlen
      | cons d ds =>
        have hit := hstep d (hdraws d (List.mem_cons_self _ _))
        obtain ⟨s2, x, p, hs2, hl2, hsol2, hnode, hx⟩ := hrun ds
          (by simp only [List.length_cons] at hlen; omega)
          (fun d2 hd2 => hdraws d2 (List.mem_cons_of_mem _ hd2))
        refine ⟨s2, x, p, ?_, by rw [hl2, hlen1]; omega, ?_, ?_, hx⟩
        · unfold searchLoop
          rw [hit]
          simp only [hnone, Option.isSome_none, Bool.false_eq_true, if_false]
          exact hs2
        · rw [hsol2, hlen1]
          congr 1
          omega
        · have e : s.tree.length + (n + 1) - 1 = s1.tree.length + n - 1 := by
            rw [hlen1]; omega
          rw [e]
          exact hnode

theorem scenario_bound {rho : ℚ} (h0 : 0 < rho) (h1 : rho ≤ 1) :
    ∃ K : Nat, 10 * (1 - rho) ^ (K + 1) < 1 / 2 := by
  obtain ⟨n, hn⟩ := exists_pow_lt_of_lt_one (show (0 : ℚ) < 1 / 20 by norm_num)
    (show 1 - rho < 1 by linarith)
  refine ⟨n, ?_⟩
  have hnn : (0 : ℚ) ≤ 1 - rho := sub_nonneg.mpr h1
  have hle : (1 - rho) ^ (n + 1) ≤ (1 - rho) ^ n := by
    rw [pow_succ]
    exact mul_le_of_le_one_right (pow_nonneg hnn n) (by linarith)
  linarith

theorem nearestScan_cons (m m1 : Motion) (rest1 : List Motion) (q : State) :
    nearestScan (m :: m1 :: rest1) q =
      if |m.state.getD 0 0 - q.getD 0 0| ≤
          |(stateAt (m1 :: rest1) (nearestScan (m1 :: rest1) q)).getD 0 0 - q.getD 0 0| then 0
      else nearestScan (m1 :: rest1) q + 1 := by
  conv_lhs => unfold nearestScan

theorem nearestScan_min : NearestMin nearestScan := by
  intro t
  induction t with
  | nil => intro q h; exact absurd rfl h
  | cons m rest ih =>
    intro q _
    cases rest with
    | nil =>
      refine ⟨m, by simp [nearestScan], ?_⟩
      intro m2 hm2
      simp only [List.mem_singleton] at hm2
      rw [hm2]
    | cons m1 rest1 =>
      obtain ⟨nm, hnm, hmin⟩ := ih q (by simp)
      have hst : stateAt (m1 :: rest1) (nearestScan (m1 :: rest1) q) = nm.state :=
        stateAt_eq hnm
      by_cases hle : |m.state.getD 0 0 - q.getD 0 0| ≤
          |(stateAt (m1 :: rest1) (nearestScan (m1 :: rest1) q)).getD 0 0 - q.getD 0 0|
      · refine ⟨m, by rw [nearestScan_cons, if_pos hle]; rfl, ?_⟩
        intro m2 hm2
        rcases List.mem_cons.mp hm2 with rfl | hm2
        · exact le_refl _
        · rw [hst] at hle
          exact le_trans hle (hmin m2 hm2)
      · refine ⟨nm, ?_, ?_⟩
        · have : nearestScan (m :: m1 :: rest1) q = nearestScan (m1 :: rest1) q + 1 := by
            rw [nearestScan_cons, if_neg hle]
          rw [this, List.getElem?_cons_succ]
          exact hnm
        · intro m2 hm2
          rcases List.mem_cons.mp hm2 with rfl | hm2
          · rw [hst] at hle
            exact le_of_lt (not_le.mp hle)
          · exact hmin m2 hm2

/-- C22: in the scenario of the specification (space `[0, 10]`, start `0`, goal
`|x - 10| < 1/2`, no obstacles), with `rho` in `(0,1]` and a nearest lookup that
answers with a node closest to the sample, there is a number `n` such that every call
of `solve` from the empty tree whose deadline allows at least `n` iterations, all with
the sample `10`, stops after `n` iterations with an exact solution: `n` nodes were
inserted, the path is handed over as exact, starts at `0` and ends at a configuration
`x` with `|x - 10| < 1/2`. -/
theorem goal_reached (rho : ℚ) (nearest : List Motion → State → Nat) (h0 : 0 < rho)
    (h1 : rho ≤ 1) (hn : NearestMin nearest) :
    ∃ n, 1 ≤ n ∧
      ∀ (draws : List Draw) (goalRec : GoalRecord), n ≤ draws.length →
        (∀ d ∈ draws, d.coreSample = [10]) →
        ∃ r x path, solve (scenario rho nearest) draws [] goalRec = some r ∧
          r.ret = true ∧ r.approximate = false ∧ r.tree.length = n + 1 ∧
          r.chosen = some n ∧ r.goalRec.path = some path ∧ r.goalRec.approximate = false ∧
          path.head? = some [0] ∧ path.getLast? = some [x] ∧ |x - 10| < 1 / 2 := by
  obtain ⟨K, hK⟩ := scenario_bound h0 h1
  have hseed : seedRoots (scenario rho nearest) [] = [⟨[0], none⟩] := by
    simp [seedRoots, scenario]
  obtain ⟨n, hn1, _, hrun⟩ := scenario_loop rho nearest h1 hn K 10
    (initLoop (seedRoots (scenario rho nearest) []))
    (by rw [hseed]; simp [initLoop])
    (by rw [hseed]; simp [initLoop])
    (by rw [hseed]; exact ⟨⟨[0], none⟩, by simp [initLoop], by simp⟩)
    rfl hK
  refine ⟨n, hn1, ?_⟩
  intro draws goalRec hlen hdraws
  obtain ⟨s2, x, p, hs2, hl2, hsol2, hnode, hx⟩ := hrun draws hlen hdraws
  have hl0 : (initLoop (seedRoots (scenario rho nearest) [])).tree.length = 1 := by
    rw [hseed]; rfl
  rw [hl0] at hl2 hsol2 hnode
  have hk : 1 + n - 1 = n := by omega
  rw [hk] at hsol2 hnode
  obtain ⟨r, hr⟩ := solve_total (scenario rho nearest) draws [] goalRec wellFormed_nil
    (nearestMin_ok hn)
  have hne : seedRoots (scenario rho nearest) [] ≠ [] := by rw [hseed]; simp
  rcases solve_of_loop (g := exGoal) rfl hne hs2 hr with ⟨hnone, _, _⟩ | ⟨i, mpath, hsel, hmp, hreq⟩
  · rw [hsol2] at hnone; exact absurd hnone (by simp)
  · rw [hsol2] at hsel
    simp only [Option.isNone_some, Bool.false_eq_true, if_false, Option.some.injEq] at hsel
    subst hsel
    obtain ⟨m, hm, hlast⟩ := path_last hmp
    rw [hnode] at hm
    cases hm
    obtain ⟨_, _, ⟨root, hroot, m0, hm0, hpar0⟩, _, _⟩ := collectPath_spec _ _ _ hmp
    obtain ⟨ext, hext, hgrow⟩ : GrownFrom (seedRoots (scenario rho nearest) []) s2.tree := by
      refine searchLoop_tree_inv (GrownFrom (seedRoots (scenario rho nearest) []))
        (fun t ni nm y hq hnm _ => grownFrom_append y hq hnm) draws _ s2 rfl ?_ hs2
      exact ⟨[], by simp [initLoop], fun j mm hmm => absurd hmm (by simp)⟩
    rw [hseed] at hext hgrow
    have hroot0 : root = 0 := by
      by_contra hcon
      have hge : 1 ≤ root := by omega
      rw [hext, List.getElem?_append_right (by simpa using hge)] at hm0
      obtain ⟨pp, hpp, _⟩ := hgrow _ m0 hm0
      rw [hpar0] at hpp
      exact absurd hpp (by simp)
    have hhead : (pathStates s2.tree mpath).head? = some [0] := by
      unfold pathStates
      rw [List.head?_map, List.head?_reverse, hroot, hroot0]
      simp [stateAt, hext]
    refine ⟨r, x, pathStates s2.tree mpath, hr, ?_, ?_, ?_, ?_, ?_, ?_, hhead, hlast, hx⟩
    · rw [hreq]; rfl
    · rw [hreq, hsol2]; rfl
    · rw [hreq, hl2]; omega
    · rw [hreq]
    · rw [hreq]
    · rw [hreq, hsol2]; rfl

/-- Instance of C22: `rho = 1/2` and the linear-scan nearest lookup. -/
theorem goal_reached_witness :
    ∃ n, 1 ≤ n ∧
      ∀ (draws : List Draw) (goalRec : GoalRecord), n ≤ draws.length →
        (∀ d ∈ draws, d.coreSample = [10]) →
        ∃ r x path, solve (scenario (1 / 2) nearestScan) draws [] goalRec = some r ∧
          r.ret = true ∧ r.approximate = false ∧ r.tree.length = n + 1 ∧
          r.chosen = some n ∧ r.goalRec.path = some path ∧ r.goalRec.approximate = false ∧
          path.head? = some [0] ∧ path.getLast? = some [x] ∧ |x - 10| < 1 / 2 :=
  goal_reached (1 / 2) nearestScan (by norm_num) (by norm_num) nearestScan_min

end RRT

namespace ParabolicBlend

/-! ## Velocity constraints -/

theorem velocityJoint_length (traj : Trajectory) (i j : Nat) (td : List ℚ) :
    (velocityJoint traj i j td).length = td.length := by
  unfold velocityJoint
  simp only
  split <;> simp

theorem velocityJoint_other (traj : Trajectory) (i j k : Nat) (td : List ℚ) (hk : k ≠ i) :
    (velocityJoint traj i j td).getD k 0 = td.getD k 0 := by
  unfold velocityJoint
  simp only
  split
  · simp [List.getD_eq_getElem?_getD, List.getElem?_set_ne (Ne.symm hk)]
  · rfl

theorem velocityJoint_at (traj : Trajectory) (i j : Nat) (td : List ℚ) (hi : i < td.length) :
    (velocityJoint traj i j td).getD i 0 = max (td.getD i 0) (tMin traj i j) := by
  unfold velocityJoint tMin
  simp only
  split
  · rename_i h
    rw [max_eq_right (le_of_lt h)]
    simp [List.getD_eq_getElem?_getD, List.getElem?_set_self hi]
  · rename_i h
    rw [max_eq_left (not_lt.mp h)]

theorem jointsLoop_spec (traj : Trajectory) (i : Nat) :
    ∀ (js : List Nat) (td : List ℚ), i < td.length →
      (js.foldl (fun td2 j => velocityJoint traj i j td2) td).length = td.length ∧
      (∀ k, k ≠ i →
        (js.foldl (fun td2 j => velocityJoint traj i j td2) td).getD k 0 = td.getD k 0) ∧
      td.getD i 0 ≤ (js.foldl (fun td2 j => velocityJoint traj i j td2) td).getD i 0 ∧
      (∀ j ∈ js,
        tMin traj i j ≤ (js.foldl (fun td2 j => velocityJoint traj i j td2) td).getD i 0) ∧
      ((js.foldl (fun td2 j => velocityJoint traj i j td2) td).getD i 0 = td.getD i 0 ∨
        ∃ j ∈ js,
          (js.foldl (fun td2 j => velocityJoint traj i j td2) td).getD i 0 = tMin traj i j) := by
  intro js
  induction js with
  | nil =>
    intro td _
    exact ⟨rfl, fun _ _ => rfl, le_refl _, fun j hj => absurd hj (by simp), Or.inl rfl⟩
  | cons j0 rest ih =>
    intro td hi
    simp only [List.foldl_cons]
    have hlen1 := velocityJoint_length traj i j0 td
    obtain ⟨hl, hother, hge, hall, hcase⟩ := ih (velocityJoint traj i j0 td) (by rw [hlen1]; exact hi)
    have hat := velocityJoint_at traj i j0 td hi
    refine ⟨by rw [hl, hlen1], ?_, ?_, ?_, ?_⟩
    · intro k hk
      rw [hother k hk, velocityJoint_other traj i j0 k td hk]
    · exact le_trans (by rw [hat]; exact le_max_left _ _) hge
    · intro j hj
      rcases List.mem_cons.mp hj with rfl | hj
      · exact le_trans (by rw [hat]; exact le_max_right _ _) hge
      · exact hall j hj
    · rcases hcase with h | ⟨j, hj, h⟩
      · rw [h, hat]
        rcases max_choice (td.getD i 0) (tMin traj i j0) with hm | hm
        · exact Or.inl hm
        · right
          refine ⟨j0, List.mem_cons_self _ _, ?_⟩
          rw [hm]
      · exact Or.inr ⟨j, List.mem_cons_of_mem _ hj, h⟩

theorem pointsLoop_spec (traj : Trajectory) (js : List Nat) :
    ∀ (is : List Nat) (td : List ℚ), is.Nodup → (∀ i ∈ is, i < td.length) →
      (is.foldl (fun td1 i => js.foldl (fun td2 j => velocityJoint traj i j td2) td1) td).length =
        td.length ∧
      (∀ k, k ∉ is →
        (is.foldl (fun td1 i => js.foldl (fun td2 j => velocityJoint traj i j td2) td1) td).getD
          k 0 = td.getD k 0) ∧
      ∀ k ∈ is,
        td.getD k 0 ≤
          (is.foldl (fun td1 i => js.foldl (fun td2 j => velocityJoint traj i j td2) td1)
            td).getD k 0 ∧
        (∀ j ∈ js, tMin traj k j ≤
          (is.foldl (fun td1 i => js.foldl (fun td2 j => velocityJoint traj i j td2) td1)
            td).getD k 0) ∧
        ((is.foldl (fun td1 i => js.foldl (fun td2 j => velocityJoint traj i j td2) td1)
            td).getD k 0 = td.getD k 0 ∨
          ∃ j ∈ js,
            (is.foldl (fun td1 i => js.foldl (fun td2 j => velocityJoint traj i j td2) td1)
              td).getD k 0 = tMin traj k j) := by
  intro is
  induction is with
  | nil =>
    intro td _ _
    exact ⟨rfl, fun _ _ => rfl, fun k hk => absurd hk (by simp)⟩
  | cons i0 rest ih =>
    intro td hnd hlt
    simp only [List.foldl_cons]
    have hi0 : i0 < td.length := hlt i0 (List.mem_cons_self _ _)
    obtain ⟨hl1, hother1, hge1, hall1, hcase1⟩ := jointsLoop_spec traj i0 js td hi0
    have hnd2 := List.nodup_cons.mp hnd
    obtain ⟨hl, hother, hin⟩ := ih (js.foldl (fun td2 j => velocityJoint traj i0 j td2) td)
      hnd2.2 (fun i hi => by rw [hl1]; exact hlt i (List.mem_cons_of_mem _ hi))
    refine ⟨by rw [hl, hl1], ?_, ?_⟩
    · intro k hk
      have hk1 : k ≠ i0 := fun h => hk (h ▸ List.mem_cons_self _ _)
      have hk2 : k ∉ rest := fun h => hk (List.mem_cons_of_mem _ h)
      rw [hother k hk2, hother1 k hk1]
    · intro k hk
      rcases List.mem_cons.mp hk with rfl | hk
      · rw [hother k hnd2.1]
        exact ⟨hge1, hall1, hcase1⟩
      · have hk1 : k ≠ i0 := fun h => hnd2.1 (h ▸ hk)
        obtain ⟨h1, h2, h3⟩ := hin k hk
        rw [hother1 k hk1] at h1 h3
        exact ⟨h1, h2, h3⟩

theorem positionAt_map (f : JointTrajectoryPoint → JointTrajectoryPoint)
    (hf : ∀ p, (f p).positions = p.positions) (points : List JointTrajectoryPoint)
    (i j : Nat) : positionAt (points.map f) i j = positionAt points i j := by
  unfold positionAt
  rw [List.getElem?_map]
  cases points[i]? with
  | none => rfl
  | some p => simp [hf p]

theorem applyVelocity_eq (traj : Trajectory) (td : List ℚ) (hne : ¬ traj.points.length = 0) :
    ApplyVelocityConstraints traj td =
      some (⟨traj.joint_names,
          traj.points.map fun p =>
            ⟨p.positions, resizeVals p.velocities traj.joint_names,
              resizeVals p.accelerations traj.joint_names, p.time_from_start⟩,
          traj.limits⟩,
        (List.range (traj.points.length - 1)).foldl
          (fun td1 i => (List.range traj.joint_names).foldl
            (fun td2 j => velocityJoint ⟨traj.joint_names,
              traj.points.map fun p =>
                ⟨p.positions, resizeVals p.velocities traj.joint_names,
                  resizeVals p.accelerations traj.joint_names, p.time_from_start⟩,
              traj.limits⟩ i j td2) td1)
          td) := by
  unfold ApplyVelocityConstraints
  simp only [hne, if_false]

/-- C26: for a trajectory with at least one point and a `time_diff` with an entry per
point, `ApplyVelocityConstraints` returns; positions are unchanged; the entries of
`time_diff` from index `n-1` on are unchanged; every entry `i < n-1` is the largest of
its previous value and of `|p[i+1][j] - p[i][j]| / v_max[j]` over the joints `j`; so
with a positive `v_max[j]` the displacement of joint `j` over interval `i` is at most
`v_max[j] * time_diff[i]`. -/
theorem velocity_constraints (traj : Trajectory) (td : List ℚ)
    (hn : 1 ≤ traj.points.length) (hlen : traj.points.length ≤ td.length) :
    ∃ traj1 td1, ApplyVelocityConstraints traj td = some (traj1, td1) ∧
      traj1.points.map (fun p => p.positions) = traj.points.map (fun p => p.positions) ∧
      td1.length = td.length ∧
      (∀ k, traj.points.length - 1 ≤ k → td1.getD k 0 = td.getD k 0) ∧
      ∀ i, i < traj.points.length - 1 →
        td.getD i 0 ≤ td1.getD i 0 ∧
        (∀ j, j < traj.joint_names → tMin traj i j ≤ td1.getD i 0) ∧
        (td1.getD i 0 = td.getD i 0 ∨
          ∃ j, j < traj.joint_names ∧ td1.getD i 0 = tMin traj i j) ∧
        ∀ j, j < traj.joint_names → 0 < vMax traj j →
          |positionAt traj.points (i + 1) j - positionAt traj.points i j| ≤
            vMax traj j * td1.getD i 0 := by
  have hne : ¬ traj.points.length = 0 := by omega
  refine ⟨_, _, applyVelocity_eq traj td hne, ?_, ?_⟩
  · simp [List.map_map, Function.comp]
  · have htm : ∀ i j, tMin ⟨traj.joint_names,
          traj.points.map fun p =>
            ⟨p.positions, resizeVals p.velocities traj.joint_names,
              resizeVals p.accelerations traj.joint_names, p.time_from_start⟩,
          traj.limits⟩ i j = tMin traj i j := by
      intro i j
      have hpos : ∀ a b, positionAt (traj.points.map fun p =>
          (⟨p.positions, resizeVals p.velocities traj.joint_names,
            resizeVals p.accelerations traj.joint_names, p.time_from_start⟩ :
            JointTrajectoryPoint)) a b = positionAt traj.points a b :=
        fun a b => positionAt_map (fun p =>
          (⟨p.positions, resizeVals p.velocities traj.joint_names,
            resizeVals p.accelerations traj.joint_names, p.time_from_start⟩ :
            JointTrajectoryPoint)) (fun _ => rfl) traj.points a b
      unfold tMin
      simp only
      rw [hpos, hpos]
      rfl
    obtain ⟨hl, hother, hin⟩ := pointsLoop_spec ⟨traj.joint_names,
          traj.points.map fun p =>
            ⟨p.positions, resizeVals p.velocities traj.joint_names,
              resizeVals p.accelerations traj.joint_names, p.time_from_start⟩,
          traj.limits⟩ (List.range traj.joint_names) (List.range (traj.points.length - 1)) td
      (List.nodup_range _) (fun i hi => by have := List.mem_range.mp hi; omega)
    refine ⟨hl, ?_, ?_⟩
    · intro k hk
      exact hother k (fun h => by have := List.mem_range.mp h; omega)
    · intro i hi
      obtain ⟨h1, h2, h3⟩ := hin i (List.mem_range.mpr hi)
      refine ⟨h1, ?_, ?_, ?_⟩
      · intro j hj
        rw [← htm]
        exact h2 j (List.mem_range.mpr hj)
      · rcases h3 with h | ⟨j, hj, h⟩
        · exact Or.inl h
        · exact Or.inr ⟨j, List.mem_range.mp hj, by rw [← htm]; exact h⟩
      · intro j hj hv
        have hb := h2 j (List.mem_range.mpr hj)
        rw [htm] at hb
        unfold tMin at hb
        rw [div_le_iff₀ hv] at hb
        rw [mul_comm]
        exact hb
/-- Instance of C26: positions `0`, `1`, `3` with `v_max = 1` give `time_diff = [1, 2, 0]`. -/
theorem velocity_constraints_witness :
    (ApplyVelocityConstraints exTraj [0, 0, 0]).map (fun r => r.2) = some [1, 2, 0] ∧
      ∃ traj1 td1, ApplyVelocityConstraints exTraj [0, 0, 0] = some (traj1, td1) ∧
        traj1.points.map (fun p => p.positions) = exTraj.points.map (fun p => p.positions) ∧
        td1.length = ([0, 0, 0] : List ℚ).length ∧
        (∀ k, exTraj.points.length - 1 ≤ k → td1.getD k 0 = ([0, 0, 0] : List ℚ).getD k 0) ∧
        ∀ i, i < exTraj.points.length - 1 →
          ([0, 0, 0] : List ℚ).getD i 0 ≤ td1.getD i 0 ∧
          (∀ j, j < exTraj.joint_names → tMin exTraj i j ≤ td1.getD i 0) ∧
          (td1.getD i 0 = ([0, 0, 0] : List ℚ).getD i 0 ∨
            ∃ j, j < exTraj.joint_names ∧ td1.getD i 0 = tMin exTraj i j) ∧
          ∀ j, j < exTraj.joint_names → 0 < vMax exTraj j →
            |positionAt exTraj.points (i + 1) j - positionAt exTraj.points i j| ≤
              vMax exTraj j * td1.getD i 0 :=
  ⟨by norm_num [ApplyVelocityConstraints, exTraj, velocityJoint, positionAt, vMax, limitsAt,
      List.range, List.range.loop],
    velocity_constraints exTraj [0, 0, 0] (by simp [exTraj]) (by simp [exTraj])⟩

/-! ## Time stamps -/

theorem updateAt_length {α : Type} (l : List α) (i : Nat) (f : α → α) :
    (updateAt l i f).length = l.length := by
  unfold updateAt
  split <;> simp

theorem updateAt_getElem {α : Type} (l : List α) (i k : Nat) (f : α → α) :
    (updateAt l i f)[k]? = if k = i then (l[k]?).map f else l[k]? := by
  unfold updateAt
  split
  · rename_i h
    by_cases hk : k = i
    · subst hk; simp [h]
    · simp [hk]
  · rename_i a h
    by_cases hk : k = i
    · subst hk
      have hlt : k < l.length := by
        by_contra hcon
        rw [List.getElem?_eq_none (not_lt.mp hcon)] at h
        exact absurd h (by simp)
      simp [h, List.getElem?_set_self hlt]
    · simp [hk, List.getElem?_set_ne (Ne.symm hk)]

theorem updateAt_times (l : List JointTrajectoryPoint) (i : Nat)
    (f : JointTrajectoryPoint → JointTrajectoryPoint)
    (hf : ∀ p, (f p).time_from_start = p.time_from_start) :
    timesOf (updateAt l i f) = timesOf l := by
  apply List.ext_getElem?
  intro k
  unfold timesOf
  rw [List.getElem?_map, List.getElem?_map, updateAt_getElem]
  by_cases hk : k = i
  · simp only [hk, if_true]
    cases l[i]? with
    | none => rfl
    | some p => simp [hf p]
  · simp only [hk, if_false]

theorem foldl_keeps {σ β γ : Type} (inv : σ → γ) (step : σ → β → σ)
    (h : ∀ s x, inv (step s x) = inv s) (l : List β) (s : σ) :
    inv (l.foldl step s) = inv s := by
  induction l generalizing s with
  | nil => rfl
  | cons a rest ih => rw [List.foldl_cons, ih, h]

theorem updateVelocities_times (nj : Nat) (points : List JointTrajectoryPoint)
    (td : List ℚ) : timesOf (updateVelocities nj points td) = timesOf points := by
  unfold updateVelocities
  simp only
  refine Eq.trans (@foldl_keeps _ _ _ timesOf _ ?_ _ _) (@foldl_keeps _ _ _ timesOf _ ?_ _ _)
  · intro s i
    apply @foldl_keeps _ _ _ timesOf
    intro s2 j
    exact updateAt_times s2 i _ (fun _ => rfl)
  · intro s j
    exact updateAt_times s _ _ (fun _ => rfl)

theorem updateAccelerations_times (nj : Nat) (points : List JointTrajectoryPoint)
    (td : List ℚ) : timesOf (updateAccelerations nj points td) = timesOf points := by
  unfold updateAccelerations
  simp only
  apply @foldl_keeps _ _ _ timesOf
  intro s i
  apply @foldl_keeps _ _ _ timesOf
  intro s2 j
  exact updateAt_times s2 i _ (fun _ => rfl)

theorem prefixSum_succ (td : List ℚ) (i : Nat) :
    prefixSum td (i + 1) = prefixSum td i + td.getD i 0 := by
  simp [prefixSum, List.range_succ]

theorem prefixSum_one (td : List ℚ) : prefixSum td 1 = td.getD 0 0 := by
  simp [prefixSum, List.range_succ]

theorem timesLoop_spec (td : List ℚ) (pts0 : List JointTrajectoryPoint) :
    ∀ m, m + 1 ≤ pts0.length →
      ((List.range m).foldl
          (fun (st : ℚ × List JointTrajectoryPoint) k =>
            (st.1 + td.getD (k + 1 - 1) 0,
              updateAt st.2 (k + 1) (setTime (st.1 + td.getD (k + 1 - 1) 0))))
          (0, pts0)).1 = prefixSum td m ∧
      ((List.range m).foldl
          (fun (st : ℚ × List JointTrajectoryPoint) k =>
            (st.1 + td.getD (k + 1 - 1) 0,
              updateAt st.2 (k + 1) (setTime (st.1 + td.getD (k + 1 - 1) 0))))
          (0, pts0)).2.length = pts0.length ∧
      (timesOf ((List.range m).foldl
          (fun (st : ℚ × List JointTrajectoryPoint) k =>
            (st.1 + td.getD (k + 1 - 1) 0,
              updateAt st.2 (k + 1) (setTime (st.1 + td.getD (k + 1 - 1) 0))))
          (0, pts0)).2)[0]? = (timesOf pts0)[0]? ∧
      ∀ i, 1 ≤ i → i ≤ m →
        (timesOf ((List.range m).foldl
          (fun (st : ℚ × List JointTrajectoryPoint) k =>
            (st.1 + td.getD (k + 1 - 1) 0,
              updateAt st.2 (k + 1) (setTime (st.1 + td.getD (k + 1 - 1) 0))))
          (0, pts0)).2)[i]? = some (prefixSum td i) := by
  intro m
  induction m with
  | zero =>
    intro _
    refine ⟨by simp [prefixSum], rfl, rfl, ?_⟩
    intro i h1 h2
    omega
  | succ m ih =>
    intro hm
    obtain ⟨h1, h2, h3, h4⟩ := ih (by omega)
    rw [List.range_succ, List.foldl_append]
    simp only [List.foldl_cons, List.foldl_nil, Nat.add_sub_cancel]
    simp only [Nat.add_sub_cancel] at h1 h2 h3 h4
    refine ⟨?_, ?_, ?_, ?_⟩
    · rw [h1, prefixSum_succ]
    · rw [updateAt_length, h2]
    · unfold timesOf at h3 ⊢
      rw [List.getElem?_map, updateAt_getElem]
      simp only [show ¬ (0 = m + 1) by omega, if_false]
      rw [← List.getElem?_map]
      exact h3
    · intro i hi1 hi2
      unfold timesOf at h4 ⊢
      rw [List.getElem?_map, updateAt_getElem]
      by_cases hi : i = m + 1
      · subst hi
        simp only [if_true]
        have hlt : m + 1 < ((List.range m).foldl
          (fun (st : ℚ × List JointTrajectoryPoint) k =>
            (st.1 + td.getD k 0, updateAt st.2 (k + 1) (setTime (st.1 + td.getD k 0))))
          (0, pts0)).2.length := by rw [h2]; omega
        rw [List.getElem?_eq_getElem hlt]
        simp only [Option.map_some', setTime, Option.some.injEq]
        rw [h1, prefixSum_succ]
      · simp only [hi, if_false]
        rw [← List.getElem?_map]
        exact h4 i hi1 (by omega)
theorem getD_nonneg (td : List ℚ) (h : ∀ t ∈ td, 0 ≤ t) (k : Nat) : 0 ≤ td.getD k 0 := by
  rw [List.getD_eq_getElem?_getD]
  cases hk : td[k]? with
  | none => simp
  | some v => simpa using h v (List.getElem?_mem hk)

theorem prefixSum_mono (td : List ℚ) (h : ∀ t ∈ td, 0 ≤ t) (i j : Nat) (hij : i ≤ j) :
    prefixSum td i ≤ prefixSum td j := by
  induction j with
  | zero =>
    have : i = 0 := by omega
    rw [this]
  | succ j ih =>
    by_cases hi : i = j + 1
    · rw [hi]
    · have := ih (by omega)
      rw [prefixSum_succ]
      linarith [getD_nonneg td h j]

theorem updateTimes_spec (points : List JointTrajectoryPoint) (td : List ℚ)
    (hn : 1 ≤ points.length) :
    (updateTimes points td).2.length = points.length ∧
      (timesOf (updateTimes points td).2)[0]? = some (td.getD 0 0) ∧
      ∀ i, 1 ≤ i → i < points.length →
        (timesOf (updateTimes points td).2)[i]? = some (prefixSum td i) := by
  have hlen0 : (updateAt points 0 (setTime (td.getD 0 0))).length = points.length :=
    updateAt_length _ _ _
  obtain ⟨_, h2, h3, h4⟩ := timesLoop_spec td (updateAt points 0 (setTime (td.getD 0 0)))
    (points.length - 1) (by rw [hlen0]; omega)
  unfold updateTimes
  simp only
  refine ⟨by rw [h2, hlen0], ?_, ?_⟩
  · rw [h3]
    unfold timesOf
    rw [List.getElem?_map, updateAt_getElem]
    simp only [if_true]
    rw [List.getElem?_eq_getElem (by omega : 0 < points.length)]
    rfl
  · intro i hi1 hi2
    exact h4 i hi1 (by omega)

theorem timesOf_length (points : List JointTrajectoryPoint) :
    (timesOf points).length = points.length := by
  simp [timesOf]

/-- C27: with at least two points and a non-empty `time_diffs`, `UpdateTrajectory`
returns; point `0` gets the time `time_diffs[0]` and point `i ≥ 1` the time
`time_diffs[0] + ... + time_diffs[i-1]`, so points `0` and `1` carry the same time, and
with non-negative `time_diffs` the times do not decrease along the trajectory. With an
empty `time_diffs` the trajectory is returned as it was. -/
theorem update_timestamps (traj : Trajectory) (td : List ℚ) (hn : 2 ≤ traj.points.length)
    (htd : td ≠ []) :
    ∃ traj1, UpdateTrajectory traj td = some traj1 ∧
      traj1.points.length = traj.points.length ∧
      (timesOf traj1.points)[0]? = some (td.getD 0 0) ∧
      (∀ i, 1 ≤ i → i < traj.points.length →
        (timesOf traj1.points)[i]? = some (prefixSum td i)) ∧
      (timesOf traj1.points)[1]? = (timesOf traj1.points)[0]? ∧
      ((∀ t ∈ td, 0 ≤ t) → ∀ i j, i ≤ j → j < traj.points.length →
        (timesOf traj1.points).getD i 0 ≤ (timesOf traj1.points).getD j 0) ∧
      UpdateTrajectory traj [] = some traj := by
  have hlt : ¬ td.length < 1 := by
    have := List.length_pos.mpr htd
    omega
  have hne : ¬ traj.points.length = 0 := by omega
  obtain ⟨hl, h0, hi⟩ := updateTimes_spec traj.points td (by omega)
  have htimes : timesOf (updateAccelerations traj.joint_names
      (updateVelocities traj.joint_names (updateTimes traj.points td).2 td) td) =
      timesOf (updateTimes traj.points td).2 := by
    rw [updateAccelerations_times, updateVelocities_times]
  have hlen : (updateAccelerations traj.joint_names
      (updateVelocities traj.joint_names (updateTimes traj.points td).2 td) td).length =
      traj.points.length := by
    rw [← timesOf_length, htimes, timesOf_length, hl]
  refine ⟨⟨traj.joint_names, updateAccelerations traj.joint_names
      (updateVelocities traj.joint_names (updateTimes traj.points td).2 td) td, traj.limits⟩,
    ?_, hlen, ?_, ?_, ?_, ?_, ?_⟩
  · unfold UpdateTrajectory
    simp only [hlt, hne, if_false]
  · simp only [htimes]; exact h0
  · intro i h1 h2
    simp only [htimes]; exact hi i h1 h2
  · simp only [htimes]
    rw [h0, hi 1 (le_refl 1) (by omega), prefixSum_one]
  · intro hnn i j hij hj
    simp only [htimes]
    have hval : ∀ k, k < traj.points.length →
        (timesOf (updateTimes traj.points td).2).getD k 0 = prefixSum td (max k 1) := by
      intro k hk
      rw [List.getD_eq_getElem?_getD]
      by_cases hk0 : k = 0
      · subst hk0
        rw [h0]
        simp [prefixSum_one]
      · rw [hi k (by omega) hk, max_eq_left (by omega)]
        rfl
    rw [hval i (by omega), hval j hj]
    exact prefixSum_mono td hnn _ _ (max_le_max hij (le_refl 1))
  · unfold UpdateTrajectory
    simp

/-- Instance of C27: three points with `time_diffs = [1, 2, 0]` get the times `1, 1, 3`. -/
theorem update_timestamps_witness :
    (UpdateTrajectory exTraj [1, 2, 0]).map (fun t => timesOf t.points) = some [1, 1, 3] ∧
      ∃ traj1, UpdateTrajectory exTraj [1, 2, 0] = some traj1 ∧
        traj1.points.length = exTraj.points.length ∧
        (timesOf traj1.points)[0]? = some (([1, 2, 0] : List ℚ).getD 0 0) ∧
        (∀ i, 1 ≤ i → i < exTraj.points.length →
          (timesOf traj1.points)[i]? = some (prefixSum [1, 2, 0] i)) ∧
        (timesOf traj1.points)[1]? = (timesOf traj1.points)[0]? ∧
        ((∀ t ∈ ([1, 2, 0] : List ℚ), 0 ≤ t) → ∀ i j, i ≤ j → j < exTraj.points.length →
          (timesOf traj1.points).getD i 0 ≤ (timesOf traj1.points).getD j 0) ∧
        UpdateTrajectory exTraj [] = some exTraj :=
  ⟨by
      have h := update_timestamps exTraj [1, 2, 0] (by simp [exTraj]) (by simp)
      obtain ⟨traj1, h1, hl, h0, hi, _⟩ := h
      rw [h1]
      simp only [Option.map_some', Option.some.injEq]
      have hl3 : (timesOf traj1.points).length = 3 := by
        rw [timesOf_length, hl]; simp [exTraj]
      have e0 := h0
      have e1 := hi 1 (by norm_num) (by simp [exTraj])
      have e2 := hi 2 (by norm_num) (by simp [exTraj])
      apply List.ext_getElem?
      intro k
      rcases k with _ | _ | _ | k
      · rw [e0]; simp
      · rw [e1]; simp [prefixSum, List.range_succ]
      · rw [e2]; norm_num [prefixSum, List.range_succ]
      · rw [List.getElem?_eq_none (by rw [hl3]; omega)]
        simp,
    update_timestamps exTraj [1, 2, 0] (by simp [exTraj]) (by simp)⟩
/-! ## Acceleration constraints -/

theorem expandInterval_ge (sqrt : ℚ → ℚ) (hsq : ∀ x, 0 ≤ sqrt x) (d1 d2 t a_max : ℚ) :
    t ≤ expandInterval sqrt d1 d2 t a_max := by
  unfold expandInterval
  simp only
  by_cases ht : 0 ≤ t
  · exact le_trans (by linarith) (le_max_left _ _)
  · exact le_trans (le_trans (le_of_lt (not_le.mp ht)) (hsq _)) (le_max_right _ _)

theorem Grows.refl (st : List ℚ × Nat) : Grows st st :=
  ⟨le_refl _, rfl, fun _ => le_refl _⟩

theorem Grows.trans {a b c : List ℚ × Nat} (h1 : Grows a b) (h2 : Grows b c) : Grows a c :=
  ⟨le_trans h1.1 h2.1, by rw [h2.2.1, h1.2.1], fun k => le_trans (h1.2.2 k) (h2.2.2 k)⟩

theorem getD_set_ge (td : List ℚ) (i : Nat) (v : ℚ) (hv : td.getD i 0 ≤ v) (k : Nat) :
    td.getD k 0 ≤ (td.set i v).getD k 0 := by
  by_cases hk : i = k
  · subst hk
    by_cases hi : i < td.length
    · simp only [List.getD_eq_getElem?_getD, List.getElem?_set_self hi, Option.getD_some]
      simpa [List.getD_eq_getElem?_getD] using hv
    · rw [List.set_eq_of_length_le (not_lt.mp hi)]
  · simp [List.getD_eq_getElem?_getD, List.getElem?_set_ne hk]

theorem getD_set_le (td : List ℚ) (i : Nat) (v : ℚ) (hv : td.getD i 0 ≤ v) :
    (td.set i v).getD i 0 ≤ v := by
  by_cases hi : i < td.length
  · simp [List.getD_eq_getElem?_getD, List.getElem?_set_self hi]
  · rw [List.set_eq_of_length_le (not_lt.mp hi)]
    exact hv

theorem expandLoop_spec (sqrt : ℚ → ℚ) (hsq : ∀ x, 0 ≤ sqrt x) (backwards : Bool)
    (index : Nat) (d1 d2 d3 a_max : ℚ) :
    ∀ (fuel : Nat) (t1 t2 : ℚ) (td : List ℚ) (nu : Nat) (r : List ℚ × Nat),
      (backwards = false → td.getD index 0 ≤ t2) →
      (backwards = true → td.getD (index - 1) 0 ≤ t1) →
      expandLoop sqrt backwards index d1 d2 d3 a_max fuel t1 t2 td nu = some r →
      Grows (td, nu) r ∧ (r.2 = nu → r.1 = td ∧ |accelOf d1 d2 d3 t1 t2| ≤ a_max) := by
  intro fuel
  induction fuel with
  | zero =>
    intro t1 t2 td nu r _ _ h
    unfold expandLoop at h
    by_cases ha : |accelOf d1 d2 d3 t1 t2| > a_max
    · simp [ha] at h
    · simp only [ha, if_false, Option.some.injEq] at h
      subst h
      exact ⟨Grows.refl _, fun _ => ⟨rfl, not_lt.mp ha⟩⟩
  | succ f ih =>
    intro t1 t2 td nu r hf hb h
    unfold expandLoop at h
    by_cases ha : |accelOf d1 d2 d3 t1 t2| > a_max
    · simp only [ha, if_true] at h
      cases hbw : backwards with
      | false =>
        rw [hbw] at h
        simp only [Bool.not_false, if_true] at h
        have hge := expandInterval_ge sqrt hsq (d2 - d1) (d3 - d2) t2 a_max
        have hold := hf hbw
        obtain ⟨hg, _⟩ := ih t1 _ (td.set index _) (nu + 1) r
          (fun _ => getD_set_le td index _ (le_trans hold hge))
          (fun hcon => by rw [hbw] at hcon; exact absurd hcon (by simp))
          (by rw [hbw]; exact h)
        have hstep : Grows (td, nu)
            (td.set index (expandInterval sqrt (d2 - d1) (d3 - d2) t2 a_max), nu + 1) :=
          ⟨Nat.le_succ _, by simp, getD_set_ge td index _ (le_trans hold hge)⟩
        have hall := Grows.trans hstep hg
        refine ⟨hall, ?_⟩
        intro hr
        have := hg.1
        simp only at this
        omega
      | true =>
        rw [hbw] at h
        simp only [Bool.not_true, Bool.false_eq_true, if_false] at h
        have hge := expandInterval_ge sqrt hsq (d2 - d1) (d3 - d2) t1 a_max
        have hold := hb hbw
        obtain ⟨hg, _⟩ := ih _ t2 (td.set (index - 1) _) (nu + 1) r
          (fun hcon => by rw [hbw] at hcon; exact absurd hcon (by simp))
          (fun _ => getD_set_le td (index - 1) _ (le_trans hold hge))
          (by rw [hbw]; exact h)
        have hstep : Grows (td, nu)
            (td.set (index - 1) (expandInterval sqrt (d2 - d1) (d3 - d2) t1 a_max), nu + 1) :=
          ⟨Nat.le_succ _, by simp, getD_set_ge td (index - 1) _ (le_trans hold hge)⟩
        have hall := Grows.trans hstep hg
        refine ⟨hall, ?_⟩
        intro hr
        have := hg.1
        simp only at this
        omega
    · simp only [ha, if_false, Option.some.injEq] at h
      subst h
      exact ⟨Grows.refl _, fun _ => ⟨rfl, not_lt.mp ha⟩⟩
theorem finiteDiffAccel_eq (traj : Trajectory) (td : List ℚ) (backwards : Bool)
    (index j : Nat) :
    finiteDiffAccel traj td index j =
      accelOf (pointData traj td backwards index j).1.1
        (pointData traj td backwards index j).1.2.1
        (pointData traj td backwards index j).1.2.2.1
        (pointData traj td backwards index j).1.2.2.2.1
        (pointData traj td backwards index j).1.2.2.2.2 := by
  unfold finiteDiffAccel pointData
  simp only
  by_cases h0 : index = 0
  · subst h0; simp
  · have h0b : ¬ index ≤ 0 := by omega
    by_cases h1 : index < traj.points.length - 1
    · simp [h0, h0b, h1]
    · simp [h0, h0b, h1]

theorem accelJoint_spec (sqrt : ℚ → ℚ) (hsq : ∀ x, 0 ≤ sqrt x) (fuel : Nat)
    (traj : Trajectory) (backwards : Bool) (index j : Nat) (st r : List ℚ × Nat)
    (h : accelJoint sqrt fuel traj backwards index j st = some r) :
    Grows st r ∧
      (r.2 = st.2 → r.1 = st.1 ∧ |finiteDiffAccel traj st.1 index j| ≤ aMax traj j) := by
  unfold accelJoint at h
  simp only at h
  by_cases hd : (pointData traj st.1 backwards index j).2 = true
  · rw [if_pos hd] at h
    rw [finiteDiffAccel_eq traj st.1 backwards index j]
    refine expandLoop_spec sqrt hsq backwards index _ _ _ _ fuel _ _ st.1 st.2 r ?_ ?_ h
    · intro hbw
      unfold pointData at hd ⊢
      simp only at hd ⊢
      by_cases h0 : index ≤ 0
      · have : index = 0 := by omega
        subst this
        simp
      · by_cases h1 : index < traj.points.length - 1
        · simp [h0, h1]
        · simp [h0, h1, hbw] at hd
    · intro hbw
      unfold pointData at hd ⊢
      simp only at hd ⊢
      by_cases h0 : index ≤ 0
      · simp [h0, hbw] at hd
      · by_cases h1 : index < traj.points.length - 1
        · simp [h0, h1]
        · simp [h0, h1]
  · rw [if_neg hd] at h
    exact absurd h (by simp)

theorem foldOpt_spec (step : Nat → List ℚ × Nat → Option (List ℚ × Nat))
    (Q : Nat → List ℚ → Prop)
    (hstep : ∀ i st r, step i st = some r → Grows st r ∧ (r.2 = st.2 → r.1 = st.1 ∧ Q i st.1)) :
    ∀ (l : List Nat) (st r : List ℚ × Nat), foldOpt step l st = some r →
      Grows st r ∧ (r.2 = st.2 → r.1 = st.1 ∧ ∀ i ∈ l, Q i st.1) := by
  intro l
  induction l with
  | nil =>
    intro st r h
    simp only [foldOpt, Option.some.injEq] at h
    subst h
    exact ⟨Grows.refl _, fun _ => ⟨rfl, fun i hi => absurd hi (by simp)⟩⟩
  | cons i rest ih =>
    intro st r h
    unfold foldOpt at h
    split at h
    · exact absurd h (by simp)
    · rename_i st1 hs1
      obtain ⟨hg1, hq1⟩ := hstep i st st1 hs1
      obtain ⟨hg2, hq2⟩ := ih st1 r h
      refine ⟨Grows.trans hg1 hg2, ?_⟩
      intro hr
      have e1 : st1.2 = st.2 := by
        have := hg1.1
        have := hg2.1
        omega
      obtain ⟨ht1, hqi⟩ := hq1 e1
      obtain ⟨ht2, hrest⟩ := hq2 (by rw [hr, e1])
      refine ⟨by rw [ht2, ht1], ?_⟩
      intro k hk
      rcases List.mem_cons.mp hk with rfl | hk
      · exact hqi
      · rw [← ht1]; exact hrest k hk

theorem accelPass_spec (sqrt : ℚ → ℚ) (hsq : ∀ x, 0 ≤ sqrt x) (fuel : Nat)
    (traj : Trajectory) (backwards : Bool) (st r : List ℚ × Nat)
    (h : accelPass sqrt fuel traj backwards st = some r) :
    Grows st r ∧
      (r.2 = st.2 → r.1 = st.1 ∧
        ∀ i, i < traj.points.length - 1 → ∀ j, j < traj.joint_names →
          |finiteDiffAccel traj st.1
            (if backwards = true then (traj.points.length - 1) - i else i) j| ≤ aMax traj j) := by
  unfold accelPass at h
  simp only at h
  obtain ⟨hg, hq⟩ := foldOpt_spec _
    (fun i td => ∀ j ∈ List.range traj.joint_names,
      |finiteDiffAccel traj td
        (if backwards = true then (traj.points.length - 1) - i else i) j| ≤ aMax traj j)
    (fun i st1 r1 h1 => foldOpt_spec _
      (fun j td => |finiteDiffAccel traj td
        (if backwards = true then (traj.points.length - 1) - i else i) j| ≤ aMax traj j)
      (fun j st2 r2 h2 => accelJoint_spec sqrt hsq fuel traj backwards _ j st2 r2 h2)
      _ st1 r1 h1)
    _ st r h
  refine ⟨hg, ?_⟩
  intro hr
  obtain ⟨ht, hall⟩ := hq hr
  exact ⟨ht, fun i hi j hj => hall i (List.mem_range.mpr hi) j (List.mem_range.mpr hj)⟩

theorem accelSweep_spec (sqrt : ℚ → ℚ) (hsq : ∀ x, 0 ≤ sqrt x) (fuel : Nat)
    (traj : Trajectory) (td : List ℚ) (r : List ℚ × Nat) (b : Bool)
    (hn : 2 ≤ traj.points.length)
    (h : accelSweep sqrt fuel traj false td = some (r, b)) :
    b = false ∧ r.1.length = td.length ∧ (∀ k, td.getD k 0 ≤ r.1.getD k 0) ∧
      (r.2 = 0 → r.1 = td ∧
        ∀ index, index < traj.points.length → ∀ j, j < traj.joint_names →
          |finiteDiffAccel traj td index j| ≤ aMax traj j) := by
  unfold accelSweep at h
  split at h
  · exact absurd h (by simp)
  · rename_i st1 h1
    split at h
    · exact absurd h (by simp)
    · rename_i st2 h2
      simp only [Bool.not_false, Bool.not_true, Option.some.injEq, Prod.mk.injEq] at h
      obtain ⟨hr, hb⟩ := h
      subst hr
      obtain ⟨hg1, hq1⟩ := accelPass_spec sqrt hsq fuel traj false (td, 0) st1 h1
      obtain ⟨hg2, hq2⟩ := accelPass_spec sqrt hsq fuel traj true st1 st2 h2
      have hg := Grows.trans hg1 hg2
      refine ⟨hb.symm, hg.2.1, hg.2.2, ?_⟩
      intro h0
      have e1 : st1.2 = 0 := by
        have := hg2.1
        omega
      obtain ⟨ht1, hfw⟩ := hq1 e1
      obtain ⟨ht2, hbw⟩ := hq2 (by rw [h0, e1])
      simp only at ht1 hfw
      rw [ht1] at ht2 hbw
      refine ⟨ht2, ?_⟩
      intro index hidx j hj
      by_cases hlast : index < traj.points.length - 1
      · have := hfw index hlast j hj
        simpa using this
      · have hi : index = traj.points.length - 1 := by omega
        have := hbw 0 (by omega) j hj
        simp only [if_true, Nat.sub_zero] at this
        rw [hi]
        exact this

theorem accelDo_spec (sqrt : ℚ → ℚ) (hsq : ∀ x, 0 ≤ sqrt x) (fuel : Nat)
    (traj : Trajectory) (hn : 2 ≤ traj.points.length) :
    ∀ (k iteration : Nat) (td td1 : List ℚ) (nu it : Nat),
      accelDo sqrt fuel traj k iteration false td = some (td1, nu, it) →
      td1.length = td.length ∧ (∀ i, td.getD i 0 ≤ td1.getD i 0) ∧
        (nu = 0 →
          ∀ index, index < traj.points.length → ∀ j, j < traj.joint_names →
            |finiteDiffAccel traj td1 index j| ≤ aMax traj j) := by
  intro k
  induction k with
  | zero =>
    intro iteration td td1 nu it h
    simp [accelDo] at h
  | succ k ih =>
    intro iteration td td1 nu it h
    unfold accelDo at h
    split at h
    · exact absurd h (by simp)
    · rename_i st b hs
      obtain ⟨hb, hl, hmono, hq⟩ := accelSweep_spec sqrt hsq fuel traj td st b hn hs
      subst hb
      split at h
      · obtain ⟨hl2, hmono2, hq2⟩ := ih (iteration + 1) st.1 td1 nu it h
        exact ⟨by rw [hl2, hl], fun i => le_trans (hmono i) (hmono2 i), hq2⟩
      · simp only [Option.some.injEq, Prod.mk.injEq] at h
        obtain ⟨e1, e2, _⟩ := h
        subst e1 e2
        refine ⟨hl, hmono, ?_⟩
        intro h0
        obtain ⟨ht, hall⟩ := hq h0
        rw [ht]
        exact hall

/-- C25: with at least two points and a square root that is never negative, when
`ApplyAccelerationConstraints` returns, `time_diff` has kept its length and no entry is
smaller than before; and when it returns with `num_updates = 0`, that is after a
forward and backward sweep without update, the finite-difference acceleration of every
point and joint, computed from the final `time_diff`, is within `a_max[j]`. -/
theorem acceleration_postcondition (sqrt : ℚ → ℚ) (hsq : ∀ x, 0 ≤ sqrt x) (fuel : Nat)
    (traj : Trajectory) (td td1 : List ℚ) (nu it : Nat) (hn : 2 ≤ traj.points.length)
    (h : ApplyAccelerationConstraints sqrt fuel traj td = some (td1, nu, it)) :
    td1.length = td.length ∧ (∀ i, td.getD i 0 ≤ td1.getD i 0) ∧
      (nu = 0 →
        ∀ index, index < traj.points.length → ∀ j, j < traj.joint_names →
          |finiteDiffAccel traj td1 index j| ≤ aMax traj j) := by
  unfold ApplyAccelerationConstraints at h
  have hne : ¬ traj.points.length = 0 := by omega
  simp only [hne, if_false] at h
  exact accelDo_spec sqrt hsq fuel traj hn MAX_ITERATIONS 0 td td1 nu it h
theorem exTraj_joint (backwards : Bool) (index : Nat)
    (h : (backwards = false ∧ (index = 0 ∨ index = 1)) ∨
      (backwards = true ∧ (index = 1 ∨ index = 2))) :
    accelJoint (fun _ => 0) 10 exTraj backwards index 0 ([1, 2, 0], 0) =
      some ([1, 2, 0], 0) := by
  rcases h with ⟨rfl, rfl | rfl⟩ | ⟨rfl, rfl | rfl⟩ <;>
  · unfold accelJoint
    norm_num [pointData, positionAt, exTraj]
    unfold expandLoop
    norm_num [accelOf, aMax, limitsAt, abs_div]

theorem exTraj_pass (backwards : Bool) :
    accelPass (fun _ => 0) 10 exTraj backwards ([1, 2, 0], 0) = some ([1, 2, 0], 0) := by
  cases backwards with
  | false =>
    have h0 := exTraj_joint false 0 (Or.inl ⟨rfl, Or.inl rfl⟩)
    have h1 := exTraj_joint false 1 (Or.inl ⟨rfl, Or.inr rfl⟩)
    simp [accelPass, foldOpt, exTraj, List.range, List.range.loop] at h0 h1 ⊢
    simp [exTraj, h0, h1]
  | true =>
    have h1 := exTraj_joint true 1 (Or.inr ⟨rfl, Or.inl rfl⟩)
    have h2 := exTraj_joint true 2 (Or.inr ⟨rfl, Or.inr rfl⟩)
    simp [accelPass, foldOpt, exTraj, List.range, List.range.loop] at h1 h2 ⊢
    simp [exTraj, h1, h2]

theorem exTraj_accel :
    ApplyAccelerationConstraints (fun _ => 0) 10 exTraj [1, 2, 0] = some ([1, 2, 0], 0, 1) := by
  have hs : accelSweep (fun _ => 0) 10 exTraj false [1, 2, 0] =
      some (([1, 2, 0], 0), false) := by
    unfold accelSweep
    rw [exTraj_pass false]
    simp only [Bool.not_false]
    rw [exTraj_pass true]
    rfl
  unfold ApplyAccelerationConstraints
  have hne : ¬ exTraj.points.length = 0 := by simp [exTraj]
  rw [if_neg hne]
  show accelDo (fun _ => 0) 10 exTraj (99 + 1) 0 false [1, 2, 0] = _
  unfold accelDo
  rw [hs]
  simp

/-- Instance of C25: positions `0`, `1`, `3` with `time_diff = [1, 2, 0]` and
`a_max = 1`; the accelerations at the three points are `1/2`, `0` and `-1/4`, and the
first sweep makes no update. -/
theorem acceleration_postcondition_witness :
    ApplyAccelerationConstraints (fun _ => 0) 10 exTraj [1, 2, 0] = some ([1, 2, 0], 0, 1) ∧
      finiteDiffAccel exTraj [1, 2, 0] 0 0 = 1 / 2 ∧
      finiteDiffAccel exTraj [1, 2, 0] 2 0 = -(1 / 4) ∧
      ([1, 2, 0] : List ℚ).length = ([1, 2, 0] : List ℚ).length ∧
      (∀ i, ([1, 2, 0] : List ℚ).getD i 0 ≤ ([1, 2, 0] : List ℚ).getD i 0) ∧
      ((0 : Nat) = 0 →
        ∀ index, index < exTraj.points.length → ∀ j, j < exTraj.joint_names →
          |finiteDiffAccel exTraj [1, 2, 0] index j| ≤ aMax exTraj j) :=
  ⟨exTraj_accel,
    by norm_num [finiteDiffAccel, accelOf, positionAt, exTraj],
    by norm_num [finiteDiffAccel, accelOf, positionAt, exTraj],
    acceleration_postcondition (fun _ => 0) (fun _ => le_refl 0) 10 exTraj [1, 2, 0] [1, 2, 0]
      0 1 (by simp [exTraj]) exTraj_accel⟩

end ParabolicBlend

namespace OmplRos

/-! ## Path constraints -/

theorem componentUpdate_length (l : List StateComponent) (i : Nat)
    (f : StateComponent → StateComponent) : (updateAt l i f).length = l.length := by
  unfold updateAt
  split <;> simp

theorem componentUpdate_getElem (l : List StateComponent) (i k : Nat)
    (f : StateComponent → StateComponent) :
    (updateAt l i f)[k]? = if i = k then (l[k]?).map f else l[k]? := by
  unfold updateAt
  split
  · rename_i h
    by_cases hk : i = k
    · subst hk; simp [h]
    · simp [hk]
  · rename_i a h
    by_cases hk : i = k
    · subst hk
      have hlt : i < l.length := by
        by_contra hcon
        rw [List.getElem?_eq_none (not_lt.mp hcon)] at h
        exact absurd h (by simp)
      simp [h, List.getElem?_set_self hlt]
    · simp [hk, List.getElem?_set_ne hk]

theorem tighten_fields (jc : JointConstraint) (c : StateComponent) :
    (tighten jc c).minValue = max c.minValue (jc.position - jc.tolerance_below) ∧
      (tighten jc c).maxValue = min c.maxValue (jc.position + jc.tolerance_above) ∧
      (tighten jc c).type = c.type ∧ (tighten jc c).resolution = c.resolution := by
  unfold tighten
  by_cases h1 : c.minValue < jc.position - jc.tolerance_below
  · by_cases h2 : c.maxValue > jc.position + jc.tolerance_above
    · simp [h1, h2, setMin, setMax, max_eq_right (le_of_lt h1), min_eq_right (le_of_lt h2)]
    · simp [h1, h2, setMin, max_eq_right (le_of_lt h1), min_eq_left (not_lt.mp h2)]
  · by_cases h2 : c.maxValue > jc.position + jc.tolerance_above
    · simp [h1, h2, setMax, max_eq_left (not_lt.mp h1), min_eq_right (le_of_lt h2)]
    · simp [h1, h2, max_eq_left (not_lt.mp h1), min_eq_left (not_lt.mp h2)]

theorem applyJointConstraint_getElem (km : KinematicModel) (comps : List StateComponent)
    (jc : JointConstraint) (k : Nat) :
    (applyJointConstraint km comps jc)[k]? =
      if addresses km k jc = true then (comps[k]?).map (tighten jc) else comps[k]? := by
  unfold applyJointConstraint addresses
  simp only
  by_cases h0 : km.getJointPosition jc.joint_name ≥ 0
  · by_cases h1 : km.usedParams jc.joint_name = 1
    · by_cases h2 : (km.getJointPosition jc.joint_name).toNat = k
      · simp [h0, h1, h2, componentUpdate_getElem]
      · simp [h0, h1, h2, componentUpdate_getElem]
    · simp [h0, h1]
  · simp [h0]

theorem constraints_getElem (km : KinematicModel) (k : Nat) :
    ∀ (kc : List JointConstraint) (comps : List StateComponent),
      (kc.foldl (applyJointConstraint km) comps)[k]? =
        (comps[k]?).map fun c => (kc.filter (addresses km k)).foldl (fun c1 jc => tighten jc c1) c := by
  intro kc
  induction kc with
  | nil => intro comps; simp
  | cons jc rest ih =>
    intro comps
    rw [List.foldl_cons, ih, applyJointConstraint_getElem]
    by_cases ha : addresses km k jc = true
    · simp only [ha, if_true, List.filter_cons_of_pos, List.foldl_cons]
      cases comps[k]? <;> rfl
    · simp only [ha, if_false, List.filter_cons_of_neg, Bool.false_eq_true, not_false_eq_true]

theorem tighten_foldl (l : List JointConstraint) :
    ∀ c : StateComponent,
      (l.foldl (fun c1 jc => tighten jc c1) c).minValue =
          l.foldl (fun m jc => max m (jc.position - jc.tolerance_below)) c.minValue ∧
        (l.foldl (fun c1 jc => tighten jc c1) c).maxValue =
          l.foldl (fun m jc => min m (jc.position + jc.tolerance_above)) c.maxValue ∧
        (l.foldl (fun c1 jc => tighten jc c1) c).type = c.type ∧
        (l.foldl (fun c1 jc => tighten jc c1) c).resolution = c.resolution ∧
        c.minValue ≤ (l.foldl (fun c1 jc => tighten jc c1) c).minValue ∧
        (l.foldl (fun c1 jc => tighten jc c1) c).maxValue ≤ c.maxValue := by
  induction l with
  | nil => intro c; exact ⟨rfl, rfl, rfl, rfl, le_refl _, le_refl _⟩
  | cons jc rest ih =>
    intro c
    obtain ⟨h1, h2, h3, h4, h5, h6⟩ := ih (tighten jc c)
    obtain ⟨t1, t2, t3, t4⟩ := tighten_fields jc c
    simp only [List.foldl_cons]
    refine ⟨by rw [h1, t1], by rw [h2, t2], by rw [h3, t3], by rw [h4, t4], ?_, ?_⟩
    · exact le_trans (by rw [t1]; exact le_max_left _ _) h5
    · exact le_trans h6 (by rw [t2]; exact min_le_left _ _)

/-- C28 (as amended): `setPathConstraints` keeps the number of components, and for
every component the new `minValue` is the largest of the old one and of
`position - tolerance_below` over the constraints applied to it, the new `maxValue` the
least of the old one and of `position + tolerance_above` over them; so bounds only
tighten, a component with exactly one such constraint gets
`max(old, position - tolerance_below)` and `min(old, position + tolerance_above)`, and
a component with none is unchanged. Type and resolution are kept. -/
theorem constraints_tighten (si : SpaceInformation) (kc : List JointConstraint) (k : Nat)
    (c : StateComponent) (hc : si.m_stateComponent[k]? = some c) :
    (setPathConstraints si kc).m_stateComponent.length = si.m_stateComponent.length ∧
      ∃ c1, (setPathConstraints si kc).m_stateComponent[k]? = some c1 ∧
        c.minValue ≤ c1.minValue ∧ c1.maxValue ≤ c.maxValue ∧
        c1.type = c.type ∧ c1.resolution = c.resolution ∧
        c1.minValue = (kc.filter (addresses si.kmodel_ k)).foldl
          (fun m jc => max m (jc.position - jc.tolerance_below)) c.minValue ∧
        c1.maxValue = (kc.filter (addresses si.kmodel_ k)).foldl
          (fun m jc => min m (jc.position + jc.tolerance_above)) c.maxValue ∧
        (∀ jc, kc.filter (addresses si.kmodel_ k) = [jc] →
          c1.minValue = max c.minValue (jc.position - jc.tolerance_below) ∧
            c1.maxValue = min c.maxValue (jc.position + jc.tolerance_above)) ∧
        (kc.filter (addresses si.kmodel_ k) = [] → c1 = c) := by
  constructor
  · show (kc.foldl (applyJointConstraint si.kmodel_) si.m_stateComponent).length = _
    have : ∀ (l : List JointConstraint) (comps : List StateComponent),
        (l.foldl (applyJointConstraint si.kmodel_) comps).length = comps.length := by
      intro l
      induction l with
      | nil => intro comps; rfl
      | cons jc rest ih =>
        intro comps
        rw [List.foldl_cons, ih]
        unfold applyJointConstraint
        simp only
        split
        · split
          · rfl
          · exact componentUpdate_length _ _ _
        · rfl
    exact this kc _
  · obtain ⟨h1, h2, h3, h4, h5, h6⟩ :=
      tighten_foldl (kc.filter (addresses si.kmodel_ k)) c
    refine ⟨_, ?_, h5, h6, h3, h4, h1, h2, ?_, ?_⟩
    · show (kc.foldl (applyJointConstraint si.kmodel_) si.m_stateComponent)[k]? = _
      rw [constraints_getElem, hc]
      rfl
    · intro jc hjc
      rw [h1, h2, hjc]
      exact ⟨rfl, rfl⟩
    · intro hnil
      rw [hnil]
      rfl

/-- C28 as stated fails: two constraints on the same joint, at positions `5` and `7`
with tolerances `1`, turn the bounds `[0, 10]` into `[6, 6]`; for the first constraint
the claim gives the lower bound `max(0, 5 - 1) = 4` and the upper bound
`min(10, 5 + 1) = 6`. -/
theorem constraints_compose :
    (setPathConstraints oneJointSpace [⟨0, 5, 1, 1⟩, ⟨0, 7, 1, 1⟩]).m_stateComponent =
        [⟨ComponentType.linear, 6, 6, 1 / 10⟩] ∧
      addresses oneJointSpace.kmodel_ 0 ⟨0, 5, 1, 1⟩ = true ∧
      oneJointSpace.m_stateComponent = [⟨ComponentType.linear, 0, 10, 1 / 10⟩] ∧
      (6 : ℚ) ≠ max 0 (5 - 1) := by
  refine ⟨?_, ?_, rfl, by norm_num⟩
  · norm_num [setPathConstraints, oneJointSpace, oneJointModel, applyJointConstraint, updateAt,
      tighten, setMin, setMax]
  · simp [addresses, oneJointSpace, oneJointModel]

/-- Instance of C28 (as amended): one constraint at position `5` with tolerances `1` on
the component `[0, 10]`. -/
theorem constraints_tighten_witness :
    (setPathConstraints oneJointSpace [⟨0, 5, 1, 1⟩]).m_stateComponent.length =
        oneJointSpace.m_stateComponent.length ∧
      ∃ c1, (setPathConstraints oneJointSpace [⟨0, 5, 1, 1⟩]).m_stateComponent[0]? = some c1 ∧
        (0 : ℚ) ≤ c1.minValue ∧ c1.maxValue ≤ 10 ∧ c1.minValue = 4 ∧ c1.maxValue = 6 := by
  obtain ⟨hl, c1, h1, h2, h3, _, _, h6, h7, _, _⟩ :=
    constraints_tighten oneJointSpace [⟨0, 5, 1, 1⟩] 0 ⟨ComponentType.linear, 0, 10, 1 / 10⟩ rfl
  refine ⟨hl, c1, h1, h2, h3, ?_, ?_⟩
  · rw [h6]
    norm_num [addresses, oneJointSpace, oneJointModel, List.filter]
  · rw [h7]
    norm_num [addresses, oneJointSpace, oneJointModel, List.filter]
/-- What `clearPathConstraints` restores is the copy made in `configureOMPLSpace`,
whatever happened to the components since. -/
theorem clear_gives_backup (si : SpaceInformation) (kc : List JointConstraint) :
    (clearPathConstraints (setPathConstraints si kc)).m_stateComponent =
      si.basicStateComponent_ := rfl

/-- C29 at its failing inputs. After `configureOMPLSpace` on a planar joint and
`setPlanningArea(0, 0, 5, 5)` the bounds of `x` and `y` are `[0, 5]`; setting an empty
list of constraints and clearing it brings back `[-1, 1]`. After `configureOMPLSpace`
alone on bounds `[-20, 20]` the resolution of `x` and `y` is capped to `1/10`; setting
and clearing brings back `2/5`. -/
theorem clear_loses_area :
    (setPlanningArea (configureOMPLSpace emptySpace planarModel planarGroup) 0 0 5 5).m_stateComponent =
        [⟨ComponentType.linear, 0, 5, 1 / 20⟩, ⟨ComponentType.unknown, 0, 5, 1 / 20⟩,
          ⟨ComponentType.wrappingAngle, -3, 3, 3 / 50⟩] ∧
      (clearPathConstraints (setPathConstraints
          (setPlanningArea (configureOMPLSpace emptySpace planarModel planarGroup) 0 0 5 5)
          [])).m_stateComponent =
        [⟨ComponentType.linear, -1, 1, 1 / 50⟩, ⟨ComponentType.unknown, -1, 1, 1 / 50⟩,
          ⟨ComponentType.wrappingAngle, -3, 3, 3 / 50⟩] ∧
      (configureOMPLSpace emptySpace wideModel planarGroup).m_stateComponent =
        [⟨ComponentType.linear, -20, 20, 1 / 10⟩, ⟨ComponentType.unknown, -20, 20, 1 / 10⟩,
          ⟨ComponentType.wrappingAngle, -3, 3, 3 / 50⟩] ∧
      (clearPathConstraints (setPathConstraints
          (configureOMPLSpace emptySpace wideModel planarGroup) [])).m_stateComponent =
        [⟨ComponentType.linear, -20, 20, 2 / 5⟩, ⟨ComponentType.unknown, -20, 20, 2 / 5⟩,
          ⟨ComponentType.wrappingAngle, -3, 3, 3 / 50⟩] := by
  have hk : ¬ JointKind.planar = JointKind.revolute true := by decide
  refine ⟨?_, ?_, ?_, ?_⟩ <;>
  norm_num [hk, setPlanningArea, configureOMPLSpace, clearPathConstraints, setPathConstraints,
    emptySpace, planarModel, wideModel, planarGroup, resizeComponents, configureBounds,
    configureJoints, checkResolution, capResolution, setResolution, setRange, setType,
    componentAt, defaultComponent, updateAt, List.range, List.range.loop, List.zip,
    List.zipWith, List.replicate]

end OmplRos
